import Mathlib

set_option maxRecDepth 100000

/-!
Verification development for the `tlcsdm/vscode-java-method-sorter` core:
a shallow embedding of `src/sorter/javaParser.ts` and
`src/sorter/javaMethodSorter.ts` into Lean 4, together with theorems about
the embedded definitions.

Modelling conventions:
* JavaScript strings are modelled as `List Char`; absolute character
  positions are `Nat`.
* JavaScript `number` results of comparators are modelled as `Int`.
* The regular expressions of the source are compiled by hand into
  deterministic matchers that follow the greedy/backtracking order of the
  JavaScript regex engine on the construct combinations that actually occur
  in the patterns (optional groups and bounded give-back loops are
  implemented explicitly).
* `Array.prototype.sort` (a stable sort per ECMAScript) is modelled by a
  stable top-down merge sort; for a consistent comparator a stable sort's
  result is unique, so the model agrees with any conforming engine there,
  while for inconsistent comparators ECMAScript leaves the result
  implementation-defined and the model fixes one outcome.
* `Math.random()`-driven choices of `shuffleArray` are modelled by an
  oracle `rand : Nat → Nat` giving the chosen index for each loop counter.
* Brace characters inside embedded Java snippets are written with `\x7b`
  and `\x7d` escapes; the named constants `lbrace`/`rbrace` stand for them
  in code.
-/

/-- The `\x7b` character. -/
def lbrace : Char := Char.ofNat 123

/-- The `\x7d` character. -/
def rbrace : Char := Char.ofNat 125

/-- JavaScript `\w` character class (ASCII word character). -/
def isWordChar (c : Char) : Bool :=
  ('a' ≤ c && c ≤ 'z') || ('A' ≤ c && c ≤ 'Z') || ('0' ≤ c && c ≤ '9') || c == '_'

/-- JavaScript `\s` character class (restricted to the ASCII range). -/
def isSpaceJS (c : Char) : Bool :=
  c == ' ' || c == '\t' || c == '\n' || c == '\r' || c == Char.ofNat 11 || c == Char.ofNat 12

/-- `pat` occurs at the very start of `l` (`String.prototype.startsWith`). -/
def begins : List Char → List Char → Bool
  | [], _ => true
  | _ :: _, [] => false
  | p :: ps, x :: xs => p == x && begins ps xs

/-- JavaScript `String.prototype.trim` (both ends). -/
def trimJS (l : List Char) : List Char :=
  ((l.dropWhile isSpaceJS).reverse.dropWhile isSpaceJS).reverse

/-- `source.substring(a, b)` for `0 ≤ a ≤ b` (charwise slice). -/
def extract (l : List Char) (a b : Nat) : List Char :=
  (l.take b).drop a

/-- `source[i]`, with a default for the out-of-range case. -/
def charAtD (l : List Char) (i : Nat) (d : Char) : Char :=
  l.getD i d

/-- Length of the run of characters satisfying `p` starting at position `i`. -/
def runLen (p : Char → Bool) (l : List Char) (i : Nat) : Nat :=
  ((l.drop i).takeWhile p).length

/-- The character scan of `indexOf`, carrying the absolute position. -/
def iofGo (c : Char) : List Char → Nat → Option Nat
  | [], _ => none
  | x :: xs, i => if x == c then some i else iofGo c xs (i + 1)

/-- `source.indexOf(c, from)`: position of the first occurrence of the
character `c` at or after `from`, if any. -/
def indexOfFrom (l : List Char) (c : Char) (start : Nat) : Option Nat :=
  iofGo c (l.drop start) start

/-- Whether `pat` occurs starting at position `i` of `l`. -/
def occursAt (pat l : List Char) (i : Nat) : Bool :=
  begins pat (l.drop i)

/-- `haystack.includes(pat)`: substring containment test. -/
def containsSub (pat l : List Char) : Bool :=
  (List.range (l.length + 1)).any (fun i => occursAt pat l i)

/-- `source.lastIndexOf(pat, from)`: the largest start position `≤ from`
at which `pat` occurs, if any. -/
def lastIndexOfFrom (pat l : List Char) (start : Nat) : Option Nat :=
  ((List.range (min start (l.length) + 1)).filter (fun i => occursAt pat l i)).getLast?

/-- Split into lines at `'\n'` (JavaScript `split('\n')`). -/
def splitLinesJS (l : List Char) : List (List Char) :=
  match l with
  | [] => [[]]
  | c :: rest =>
    let tail := splitLinesJS rest
    if c == '\n' then [] :: tail
    else match tail with
      | [] => [[c]]
      | ln :: lns => (c :: ln) :: lns

/-! ## Data model (`src/sorter/types.ts`) -/

/-- Access level for Java members, with its numeric enum value. -/
inductive AccessLevel where
  | PUBLIC
  | PROTECTED
  | PACKAGE
  | PRIVATE
deriving DecidableEq, Repr

/-- The numeric value of the `AccessLevel` enum
(`PUBLIC = 0 < PROTECTED = 1 < PACKAGE = 2 < PRIVATE = 3`). -/
def AccessLevel.val : AccessLevel → Int
  | .PUBLIC => 0
  | .PROTECTED => 1
  | .PACKAGE => 2
  | .PRIVATE => 3

/-- Sorting options (`SortingOptions` interface). -/
structure SortingOptions where
  sortingStrategy : List Char
  applyWorkingListHeuristics : Bool
  respectBeforeAfterRelation : Bool
  clusterOverloadedMethods : Bool
  clusterGetterSetter : Bool
  separateByAccessLevel : Bool
  separateConstructors : Bool
  applyLexicalOrdering : Bool
deriving DecidableEq, Repr

/-- A parsed Java method (`JavaMethod` interface). -/
structure JavaMethod where
  fullText : List Char
  name : List Char
  signature : List Char
  accessLevel : AccessLevel
  isConstructor : Bool
  isStatic : Bool
  originalPosition : Int
  leadingContent : List Char
  bodyContent : List Char
  calledMethods : List (List Char)
  isGetter : Bool
  isSetter : Bool
  startPos : Nat
  endPos : Nat
deriving DecidableEq, Repr

/-- A parsed Java class (`JavaClass` interface). -/
structure JavaClass where
  name : List Char
  preMethodsContent : List Char
  methods : List JavaMethod
  postMethodsContent : List Char
deriving DecidableEq, Repr

/-! ## Matching-brace scanner (`JavaParser.findMatchingBrace`) -/

namespace JavaParser

/-- The character-by-character state machine of `findMatchingBrace`,
consuming the suffix of the source that starts at absolute position `i`.
State: nesting `depth`, string/char-literal and comment flags, and the
previous character (`Char.ofNat 0` models the initial empty string).
The first argument is fuel, always initialized to more than the number of
remaining characters (each step consumes at least one character). -/
def fmbAux : Nat → List Char → Nat → Int → Bool → Bool → Bool → Bool → Char → Option Nat
  | 0, _, _, _, _, _, _, _, _ => none
  | _ + 1, [], _, _, _, _, _, _, _ => none
  | fuel + 1, c :: rest, i, depth, inStr, inChr, inLine, inBlock, prev =>
    let next := rest.headD (Char.ofNat 0)
    if !inStr && !inChr && !inLine && !inBlock && c == '/' && next == '/' then
      fmbAux fuel rest.tail (i + 2) depth inStr inChr true inBlock prev
    else if !inStr && !inChr && !inLine && !inBlock && c == '/' && next == '*' then
      fmbAux fuel rest.tail (i + 2) depth inStr inChr inLine true prev
    else if !inStr && !inChr && inLine && c == '\n' then
      fmbAux fuel rest (i + 1) depth inStr inChr false inBlock prev
    else if !inStr && !inChr && inBlock && c == '*' && next == '/' then
      fmbAux fuel rest.tail (i + 2) depth inStr inChr inLine false prev
    else if inLine || inBlock then
      fmbAux fuel rest (i + 1) depth inStr inChr inLine inBlock c
    else
      let inStr2 := if c == '"' && prev != '\\' && !inChr then !inStr else inStr
      let inChr2 := if c == '\'' && prev != '\\' && !inStr2 then !inChr else inChr
      if !inStr2 && !inChr2 && c == lbrace then
        fmbAux fuel rest (i + 1) (depth + 1) inStr2 inChr2 inLine inBlock c
      else if !inStr2 && !inChr2 && c == rbrace then
        if depth - 1 == 0 then some i
        else fmbAux fuel rest (i + 1) (depth - 1) inStr2 inChr2 inLine inBlock c
      else fmbAux fuel rest (i + 1) depth inStr2 inChr2 inLine inBlock c

/-- `findMatchingBrace`: position of the brace closing the one at
`openPos`, skipping string/char literals and comments; `none` models the
`-1` failure result. -/
def findMatchingBrace (s : List Char) (openPos : Nat) : Option Nat :=
  fmbAux (s.length + 1) (s.drop openPos) openPos 0 false false false false (Char.ofNat 0)

/-! ## Hand-compiled regex matchers

Each JavaScript regex of the parser is compiled to a deterministic matcher
that follows the engine's greedy matching order, with explicit give-back
loops for the optional groups and quantifier/alternation combinations that
require backtracking in these patterns. -/

/-- The character class of the `returnType` regex component
(`[\w\[\]<>,\s\.]`). -/
def rtClassChar (c : Char) : Bool :=
  isWordChar c || c == '[' || c == ']' || c == '<' || c == '>' || c == ',' ||
    isSpaceJS c || c == '.'

/-- The character class of the `throws` clause component (`[\w\s,\.]`). -/
def throwsClassChar (c : Char) : Bool :=
  isWordChar c || isSpaceJS c || c == ',' || c == '.'

/-- The character class of the `implements` clause component (`[\w\s,]`). -/
def implClassChar (c : Char) : Bool :=
  isWordChar c || isSpaceJS c || c == ','

/-- Component `(?:\s*\{|\s*;)` at `p`; returns the position after the
consumed `\x7b` or `;`. -/
def matchBodyOrSemi (sa : List Char) (p : Nat) : Option Nat :=
  let w := runLen isSpaceJS sa p
  let c := charAtD sa (p + w) (Char.ofNat 0)
  if c == lbrace || c == ';' then some (p + w + 1) else none

/-- Component `(?:\s+throws\s+[\w\s,\.]+)?` followed by the body-or-semi
component. -/
def matchThrowsTail (sa : List Char) (p : Nat) : Option Nat :=
  let attempt :=
    let w1 := runLen isSpaceJS sa p
    if w1 == 0 then none
    else if occursAt "throws".data sa (p + w1) then
      let q := p + w1 + 6
      let w2 := runLen isSpaceJS sa q
      if w2 == 0 then none
      else
        let r := runLen throwsClassChar sa (q + w2)
        if r == 0 then none else matchBodyOrSemi sa (q + w2 + r)
    else none
  match attempt with
  | some e => some e
  | none => matchBodyOrSemi sa p

/-- Component `\s*\([^)]*\)` at `p`; returns the position of `(` and the
position after `)`. -/
def matchParams (sa : List Char) (p : Nat) : Option (Nat × Nat) :=
  let w := runLen isSpaceJS sa p
  if charAtD sa (p + w) (Char.ofNat 0) == '(' then
    match indexOfFrom sa ')' (p + w + 1) with
    | none => none
    | some j => some (p + w, j + 1)
  else none

/-- Name component `(className|\w+)` followed by parameters, throws clause
and body-or-semi. Returns `(nameStart, nameEnd, parenPos, matchEnd)`. -/
def matchFromName (className sa : List Char) (p : Nat) :
    Option (Nat × Nat × Nat × Nat) :=
  let tail := fun (ne : Nat) =>
    match matchParams sa ne with
    | none => none
    | some (paren, q) =>
      match matchThrowsTail sa q with
      | none => none
      | some e => some (p, ne, paren, e)
  let viaClassName :=
    if className ≠ [] && occursAt className sa p then tail (p + className.length)
    else none
  match viaClassName with
  | some r => some r
  | none =>
    let n := runLen isWordChar sa p
    if n == 0 then none else tail (p + n)

/-- Give-back loop for the optional greedy `returnType` component
(`(?:[\w\[\]<>,\s\.]+\s+)?`): chunk lengths are tried from longest to
shortest, then the component is dropped. -/
def rtTry (className sa : List Char) (p : Nat) :
    Nat → Option (Nat × Nat × Nat × Nat)
  | 0 => matchFromName className sa p
  | k + 1 =>
    let attempt :=
      let w := runLen isSpaceJS sa (p + k + 1)
      if w == 0 then none else matchFromName className sa (p + k + 1 + w)
    match attempt with
    | some r => some r
    | none => rtTry className sa p k

/-- Optional `returnType` stage. -/
def rtStage (className sa : List Char) (p : Nat) :
    Option (Nat × Nat × Nat × Nat) :=
  rtTry className sa p (runLen rtClassChar sa p)

/-- Optional type-parameter stage (`(?:<[^>]+>\s+)?`). -/
def tpStage (className sa : List Char) (p : Nat) :
    Option (Nat × Nat × Nat × Nat) :=
  let attempt :=
    if charAtD sa p (Char.ofNat 0) == '<' then
      let r := runLen (fun c => c != '>') sa (p + 1)
      if r == 0 then none
      else if charAtD sa (p + 1 + r) (Char.ofNat 0) == '>' then
        let w := runLen isSpaceJS sa (p + 2 + r)
        if w == 0 then none else rtStage className sa (p + 2 + r + w)
      else none
    else none
  match attempt with
  | some x => some x
  | none => rtStage className sa p

/-- The modifier keywords, in the alternation order of the pattern. -/
def modifierKeywords : List (List Char) :=
  ["public".data, "protected".data, "private".data, "static".data,
   "final".data, "abstract".data, "synchronized".data, "native".data,
   "strictfp".data]

/-- One iteration of the modifier star: a keyword followed by `\s+`. -/
def matchOneModifier (sa : List Char) (p : Nat) : Option Nat :=
  (modifierKeywords.filterMap (fun kw =>
    if occursAt kw sa p then
      let w := runLen isSpaceJS sa (p + kw.length)
      if w == 0 then none else some (p + kw.length + w)
    else none)).head?

/-- The greedy modifier star with whole-iteration give-back: the longest
run of modifier iterations is tried first. -/
def modsGo (className sa : List Char) (p : Nat) :
    Nat → Option (Nat × Nat × Nat × Nat)
  | 0 => tpStage className sa p
  | fuel + 1 =>
    match matchOneModifier sa p with
    | none => tpStage className sa p
    | some p2 =>
      match modsGo className sa p2 fuel with
      | some r => some r
      | none => tpStage className sa p

/-- A successful method-declaration match: `match.index`, the end of
`match[0]`, the captured name span, and the parameter-list `(` position. -/
structure MethodMatch where
  idx : Nat
  matchEnd : Nat
  nameStart : Nat
  nameEnd : Nat
  parenPos : Nat
deriving DecidableEq, Repr

/-- The full method-declaration pattern applied at start position `q`
(`createMethodPattern`), including the `(?:^|\n)\s*` line-start component
(`^` applies only at position 0, as in a JavaScript regex without the `m`
flag). -/
def matchMethodAt (className sa : List Char) (q : Nat) : Option MethodMatch :=
  let tail := fun (st : Nat) =>
    let w := runLen isSpaceJS sa st
    match modsGo className sa (st + w) (sa.length + 1) with
    | none => none
    | some (ns, ne, paren, e) => some ⟨q, e, ns, ne, paren⟩
  if q == 0 then
    match tail 0 with
    | some r => some r
    | none =>
      if charAtD sa 0 (Char.ofNat 0) == '\n' then tail 1 else none
  else if charAtD sa q (Char.ofNat 0) == '\n' then tail (q + 1)
  else none

/-- Fuel-driven leftmost scan for the method pattern. -/
def fmGo (className sa : List Char) : Nat → Nat → Option MethodMatch
  | 0, _ => none
  | fuel + 1, q =>
    if q < sa.length then
      match matchMethodAt className sa q with
      | some mm => some mm
      | none => fmGo className sa fuel (q + 1)
    else none

/-- `regex.exec` for the method pattern: the leftmost match whose start is
at or after `q`. -/
def findMethodFrom (className sa : List Char) (q : Nat) : Option MethodMatch :=
  fmGo className sa (sa.length + 1) q

/-- Optional keyword-plus-`\s+` component combinator used by the class
patterns: tries the branch with the keyword first, then without it. -/
def optKeyword {α : Type} (kw sa : List Char) (p : Nat)
    (k : Nat → Option α) : Option α :=
  let withKw :=
    if occursAt kw sa p then
      let w := runLen isSpaceJS sa (p + kw.length)
      if w == 0 then none else k (p + kw.length + w)
    else none
  match withKw with
  | some r => some r
  | none => k p

/-- The class-name capture pattern
`(?:public\s+)?(?:abstract\s+)?(?:final\s+)?class\s+(\w+)` at `q`. -/
def matchClassNameAt (sa : List Char) (q : Nat) : Option (List Char) :=
  optKeyword "public".data sa q (fun p1 =>
    optKeyword "abstract".data sa p1 (fun p2 =>
      optKeyword "final".data sa p2 (fun p3 =>
        if occursAt "class".data sa p3 then
          let w := runLen isSpaceJS sa (p3 + 5)
          if w == 0 then none
          else
            let n := runLen isWordChar sa (p3 + 5 + w)
            if n == 0 then none
            else some (extract sa (p3 + 5 + w) (p3 + 5 + w + n))
        else none)))

/-- Leftmost-scan loop for `findClassName` (fuel-driven). -/
def fcnGo (s : List Char) : Nat → Nat → Option (List Char)
  | 0, _ => none
  | fuel + 1, q =>
    if q < s.length then
      match matchClassNameAt s q with
      | some n => some n
      | none => fcnGo s fuel (q + 1)
    else none

/-- `findClassName`: the capture of the first class-declaration match. -/
def findClassName (s : List Char) : Option (List Char) :=
  fcnGo s (s.length + 1) 0

/-- Trailing component `\s*\x7b` of the class-body patterns. -/
def mcTailBrace (sa : List Char) (p : Nat) : Option Nat :=
  let w := runLen isSpaceJS sa p
  if charAtD sa (p + w) (Char.ofNat 0) == lbrace then some (p + w + 1) else none

/-- Optional `(?:\s+implements\s+[\w\s,]+)?` followed by `\s*\x7b`. -/
def mcTailImpl (sa : List Char) (p : Nat) : Option Nat :=
  let attempt :=
    let w := runLen isSpaceJS sa p
    if w == 0 then none
    else if occursAt "implements".data sa (p + w) then
      let w2 := runLen isSpaceJS sa (p + w + 10)
      if w2 == 0 then none
      else
        let r := runLen implClassChar sa (p + w + 10 + w2)
        if r == 0 then none else mcTailBrace sa (p + w + 10 + w2 + r)
    else none
  match attempt with
  | some e => some e
  | none => mcTailBrace sa p

/-- Optional `(?:extends\s+\w+)?` at `r`, followed by the implements/brace
tail. -/
def mcExtOr (sa : List Char) (r : Nat) : Option Nat :=
  let attempt :=
    if occursAt "extends".data sa r then
      let w2 := runLen isSpaceJS sa (r + 7)
      if w2 == 0 then none
      else
        let n := runLen isWordChar sa (r + 7 + w2)
        if n == 0 then none else mcTailImpl sa (r + 7 + w2 + n)
    else none
  match attempt with
  | some e => some e
  | none => mcTailImpl sa r

/-- Give-back loop for the `\s*` that follows the class name: the greedy
width is tried first and released one character at a time. -/
def mcGo (sa : List Char) (p : Nat) : Nat → Option Nat
  | 0 => mcExtOr sa p
  | w + 1 =>
    match mcExtOr sa (p + w + 1) with
    | some e => some e
    | none => mcGo sa p w

/-- The part of the class-body patterns after the class name. -/
def mcAfterName (sa : List Char) (p : Nat) : Option Nat :=
  mcGo sa p (runLen isSpaceJS sa p)

/-- The `findMainClassBody` pattern
`(?:public\s+)?(?:abstract\s+)?(?:final\s+)?class\s+NAME\s*(?:extends\s+\w+)?(?:\s+implements\s+[\w\s,]+)?\s*\x7b`
at `q`; returns the match end. -/
def matchMainClassAt (className sa : List Char) (q : Nat) : Option Nat :=
  optKeyword "public".data sa q (fun p1 =>
    optKeyword "abstract".data sa p1 (fun p2 =>
      optKeyword "final".data sa p2 (fun p3 =>
        if occursAt "class".data sa p3 then
          let w := runLen isSpaceJS sa (p3 + 5)
          if w == 0 then none
          else if occursAt className sa (p3 + 5 + w) then
            mcAfterName sa (p3 + 5 + w + className.length)
          else none
        else none)))

/-- Leftmost-scan loop for the main-class pattern (fuel-driven); returns
`(match.index, matchEnd)`. -/
def fmcGo (className s : List Char) : Nat → Nat → Option (Nat × Nat)
  | 0, _ => none
  | fuel + 1, q =>
    if q < s.length then
      match matchMainClassAt className s q with
      | some e => some (q, e)
      | none => fmcGo className s fuel (q + 1)
    else none

/-- The boundaries of the main class body
(`{ start, end, bodyStart }` in the source). -/
structure ClassBodyBounds where
  start : Nat
  endPos : Nat
  bodyStart : Nat
deriving DecidableEq, Repr

/-- `findMainClassBody`. -/
def findMainClassBody (s className : List Char) : Option ClassBodyBounds :=
  match fmcGo className s (s.length + 1) 0 with
  | none => none
  | some (classStart, matchEnd) =>
    let bodyStart := matchEnd - 1
    match findMatchingBrace s bodyStart with
    | none => none
    | some bodyEnd => some ⟨classStart, bodyEnd, bodyStart⟩

/-! ## Skip regions (`findSkipRegions`) -/

/-- A region of the class body excluded from method scanning
(`{ start, end }` in the source; `stop` is the stored `end + 1` value). -/
structure SkipRegion where
  start : Nat
  stop : Nat
deriving DecidableEq, Repr

/-- `isInSkipRegion` (`pos >= r.start && pos < r.end`). -/
def isInSkipRegion (pos : Nat) (skips : List SkipRegion) : Bool :=
  skips.any (fun r => r.start ≤ pos && pos < r.stop)

/-- The modifier keywords of the nested-class pattern, in alternation
order. -/
def nestedModifierKeywords : List (List Char) :=
  ["public".data, "protected".data, "private".data, "static".data,
   "final".data, "abstract".data]

/-- One iteration of the nested-class modifier star. -/
def matchOneNestedModifier (sa : List Char) (p : Nat) : Option Nat :=
  (nestedModifierKeywords.filterMap (fun kw =>
    if occursAt kw sa p then
      let w := runLen isSpaceJS sa (p + kw.length)
      if w == 0 then none else some (p + kw.length + w)
    else none)).head?

/-- The nested-class pattern after the modifier star:
`class\s+\w+\s*(?:extends\s+\w+)?(?:\s+implements\s+[\w\s,]+)?\s*\x7b`. -/
def nestedClassTail (sa : List Char) (p : Nat) : Option Nat :=
  if occursAt "class".data sa p then
    let w := runLen isSpaceJS sa (p + 5)
    if w == 0 then none
    else
      let n := runLen isWordChar sa (p + 5 + w)
      if n == 0 then none else mcAfterName sa (p + 5 + w + n)
  else none

/-- The nested-class modifier star with whole-iteration give-back. -/
def nestedModsGo (sa : List Char) (p : Nat) : Nat → Option Nat
  | 0 => nestedClassTail sa p
  | fuel + 1 =>
    match matchOneNestedModifier sa p with
    | none => nestedClassTail sa p
    | some p2 =>
      match nestedModsGo sa p2 fuel with
      | some e => some e
      | none => nestedClassTail sa p

/-- The nested-class pattern at `q`; returns the match end. -/
def matchNestedClassAt (sa : List Char) (q : Nat) : Option Nat :=
  nestedModsGo sa q (sa.length + 1)

/-- Leftmost scan for the nested-class pattern (fuel-driven). -/
def fncGo (body : List Char) : Nat → Nat → Option (Nat × Nat)
  | 0, _ => none
  | fuel + 1, q =>
    if q < body.length then
      match matchNestedClassAt body q with
      | some e => some (q, e)
      | none => fncGo body fuel (q + 1)
    else none

/-- Leftmost scan for the nested-class pattern; returns
`(match.index, matchEnd)`. -/
def findNestedClassFrom (body : List Char) (q : Nat) : Option (Nat × Nat) :=
  fncGo body (body.length + 1) q

/-- The nested-class loop of `findSkipRegions`, with the manual
`lastIndex` jump past each found class. -/
def nestedLoop (s body : List Char) (offset : Nat) :
    Nat → Nat → List SkipRegion → List SkipRegion
  | 0, _, acc => acc
  | fuel + 1, q, acc =>
    match findNestedClassFrom body q with
    | none => acc
    | some (idx, mend) =>
      let start := offset + idx
      let bracePos := start + (mend - idx) - 1
      match findMatchingBrace s bracePos with
      | none => nestedLoop s body offset fuel mend acc
      | some e =>
        nestedLoop s body offset fuel (e + 1 - offset) (acc ++ [⟨start, e + 1⟩])

/-- The `\bstatic\s*\x7b` pattern at `q`; returns the match end. -/
def matchStaticInitAt (body : List Char) (q : Nat) : Option Nat :=
  if occursAt "static".data body q &&
      (q == 0 || !isWordChar (charAtD body (q - 1) '\n')) then
    let w := runLen isSpaceJS body (q + 6)
    if charAtD body (q + 6 + w) (Char.ofNat 0) == lbrace then
      some (q + 6 + w + 1)
    else none
  else none

/-- Leftmost scan for the static-initializer pattern (fuel-driven). -/
def fsiGo (body : List Char) : Nat → Nat → Option (Nat × Nat)
  | 0, _ => none
  | fuel + 1, q =>
    if q < body.length then
      match matchStaticInitAt body q with
      | some e => some (q, e)
      | none => fsiGo body fuel (q + 1)
    else none

/-- Leftmost scan for the static-initializer pattern. -/
def findStaticInitFrom (body : List Char) (q : Nat) : Option (Nat × Nat) :=
  fsiGo body (body.length + 1) q

/-- Position one past the last newline strictly before `q` (the start of
the line containing `q`). -/
def lineStartBefore (body : List Char) (q : Nat) : Nat :=
  match ((List.range q).filter (fun i => charAtD body i ' ' == '\n')).getLast? with
  | none => 0
  | some ln => ln + 1

/-- The static-initializer loop of `findSkipRegions`, including the check
that nothing but a comment precedes `static` on its line. -/
def staticLoop (s body : List Char) (offset : Nat) :
    Nat → Nat → List SkipRegion → List SkipRegion
  | 0, _, acc => acc
  | fuel + 1, q, acc =>
    match findStaticInitFrom body q with
    | none => acc
    | some (idx, mend) =>
      let lineBeforeStatic := trimJS (extract body (lineStartBefore body idx) idx)
      if lineBeforeStatic.length > 0 && !begins "//".data lineBeforeStatic &&
          !begins "*".data lineBeforeStatic then
        staticLoop s body offset fuel mend acc
      else
        let start := offset + idx
        let bracePos := start + (mend - idx) - 1
        match findMatchingBrace s bracePos with
        | none => staticLoop s body offset fuel mend acc
        | some e => staticLoop s body offset fuel mend (acc ++ [⟨start, e + 1⟩])

/-- The instance-initializer loop of `findSkipRegions`: lines whose trimmed
content is exactly `\x7b`, not already covered by a found region. -/
def instLoop (s : List Char) (offset : Nat) :
    List (List Char) → Nat → List SkipRegion → List SkipRegion
  | [], _, acc => acc
  | line :: rest, pos, acc =>
    let acc2 :=
      if trimJS line == [lbrace] then
        match indexOfFrom line lbrace 0 with
        | none => acc
        | some k =>
          let start := offset + pos + k
          match findMatchingBrace s start with
          | none => acc
          | some e =>
            if acc.any (fun r => r.start ≤ start && start ≤ r.stop) then acc
            else acc ++ [⟨start, e + 1⟩]
      else acc
    instLoop s offset rest (pos + line.length + 1) acc2

/-- `findSkipRegions`: nested classes, then static initializer blocks, then
instance initializer blocks. -/
def findSkipRegions (s : List Char) (bounds : ClassBodyBounds) :
    List SkipRegion :=
  let body := extract s (bounds.bodyStart + 1) bounds.endPos
  let offset := bounds.bodyStart + 1
  let r1 := nestedLoop s body offset (body.length + 1) 0 []
  let r2 := staticLoop s body offset (body.length + 1) 0 r1
  instLoop s offset (splitLinesJS body) 0 r2

/-! ## Leading content, called methods, method records -/

/-- Whether a line may belong to a method's leading comment/annotation
block. -/
def leadOk (line : List Char) : Bool :=
  let t := trimJS line
  begins "*".data t || begins "/*".data t || begins "//".data t ||
    begins "@".data t || t == [] || begins "*/".data t

/-- `extractLeadingContent`. -/
def extractLeadingContent (s : List Char) (methodStart searchStart : Nat)
    (skips : List SkipRegion) : List Char :=
  let effectiveStart := skips.foldl (fun eff r =>
    if searchStart ≤ r.start && r.stop ≤ methodStart then max eff r.stop else eff)
    searchStart
  let textBefore := extract s effectiveStart methodStart
  let lines := splitLinesJS textBefore
  let keep := (lines.reverse.takeWhile leadOk).reverse
  List.intercalate ['\n'] keep

/-- The keywords excluded by `extractCalledMethods`. -/
def excludedKeywords : List (List Char) :=
  ["if".data, "for".data, "while".data, "switch".data, "catch".data,
   "synchronized".data, "new".data, "return".data]

/-- The call pattern `(?:this\.)?(\w+)\s*\(` at `q`; returns the capture
and the match end. -/
def matchCallAt (b : List Char) (q : Nat) : Option (List Char × Nat) :=
  let viaThis :=
    if occursAt "this.".data b q then
      let n := runLen isWordChar b (q + 5)
      if n == 0 then none
      else
        let w := runLen isSpaceJS b (q + 5 + n)
        if charAtD b (q + 5 + n + w) (Char.ofNat 0) == '(' then
          some (extract b (q + 5) (q + 5 + n), q + 5 + n + w + 1)
        else none
    else none
  match viaThis with
  | some r => some r
  | none =>
    let n := runLen isWordChar b q
    if n == 0 then none
    else
      let w := runLen isSpaceJS b (q + n)
      if charAtD b (q + n + w) (Char.ofNat 0) == '(' then
        some (extract b q (q + n), q + n + w + 1)
      else none

/-- Leftmost scan for the call pattern (fuel-driven). -/
def fcGo (b : List Char) : Nat → Nat → Option (List Char × Nat)
  | 0, _ => none
  | fuel + 1, q =>
    if q < b.length then
      match matchCallAt b q with
      | some r => some r
      | none => fcGo b fuel (q + 1)
    else none

/-- Leftmost scan for the call pattern. -/
def findCallFrom (b : List Char) (q : Nat) : Option (List Char × Nat) :=
  fcGo b (b.length + 1) q

/-- The accumulation loop of `extractCalledMethods` (`Set` insertion
order). -/
def ecmLoop (b : List Char) : Nat → Nat → List (List Char) → List (List Char)
  | 0, _, acc => acc
  | fuel + 1, q, acc =>
    match findCallFrom b q with
    | none => acc
    | some (name, mend) =>
      let acc2 :=
        if excludedKeywords.contains name || acc.contains name then acc
        else acc ++ [name]
      ecmLoop b fuel mend acc2

/-- `extractCalledMethods`. -/
def extractCalledMethods (methodBody : List Char) : List (List Char) :=
  ecmLoop methodBody (methodBody.length + 1) 0 []

/-- The signature pattern `(\w+)\s*\([^)]*\)` at `q`; returns the match
end. -/
def matchSignatureAt (d : List Char) (q : Nat) : Option Nat :=
  let n := runLen isWordChar d q
  if n == 0 then none
  else
    let w := runLen isSpaceJS d (q + n)
    if charAtD d (q + n + w) (Char.ofNat 0) == '(' then
      match indexOfFrom d ')' (q + n + w + 1) with
      | none => none
      | some j => some (j + 1)
    else none

/-- Leftmost scan for the signature pattern (fuel-driven). -/
def sigGo (d : List Char) : Nat → Nat → Option (Nat × Nat)
  | 0, _ => none
  | fuel + 1, q =>
    if q < d.length then
      match matchSignatureAt d q with
      | some e => some (q, e)
      | none => sigGo d fuel (q + 1)
    else none

/-- `extractSignature`. -/
def extractSignature (declaration : List Char) : List Char :=
  match sigGo declaration (declaration.length + 1) 0 with
  | none => []
  | some (q, e) => extract declaration q e

/-- `extractAccessLevel`. -/
def extractAccessLevel (declaration : List Char) : AccessLevel :=
  if containsSub "public ".data declaration then .PUBLIC
  else if containsSub "protected ".data declaration then .PROTECTED
  else if containsSub "private ".data declaration then .PRIVATE
  else .PACKAGE

/-- `isGetterMethod`. -/
def isGetterMethod (name declaration : List Char) : Bool :=
  (begins "get".data name || begins "is".data name) &&
    containsSub "()".data declaration && !containsSub "void".data declaration

/-- `isSetterMethod`. -/
def isSetterMethod (name declaration : List Char) : Bool :=
  begins "set".data name && containsSub "void".data declaration

/-- `createMethod` (body present). -/
def createMethod (s declaration name : List Char) (startPos endPos : Nat)
    (leadingContent className : List Char) : JavaMethod :=
  { fullText := extract s startPos endPos
    name := name
    signature := extractSignature declaration
    accessLevel := extractAccessLevel declaration
    isConstructor := name == className
    isStatic := containsSub "static ".data declaration
    originalPosition := 0
    leadingContent := leadingContent
    bodyContent :=
      match indexOfFrom s lbrace startPos with
      | some j => extract s j endPos
      | none => extract s 0 endPos
    calledMethods := extractCalledMethods (extract s startPos endPos)
    isGetter := isGetterMethod name declaration
    isSetter := isSetterMethod name declaration
    startPos := startPos
    endPos := endPos }

/-- `createMethodFromAbstract` (no body). -/
def createMethodFromAbstract (s declaration name : List Char)
    (startPos endPos : Nat) (leadingContent className : List Char) :
    JavaMethod :=
  { fullText := extract s startPos endPos
    name := name
    signature := extractSignature declaration
    accessLevel := extractAccessLevel declaration
    isConstructor := name == className
    isStatic := containsSub "static ".data declaration
    originalPosition := 0
    leadingContent := leadingContent
    bodyContent := []
    calledMethods := []
    isGetter := isGetterMethod name declaration
    isSetter := isSetterMethod name declaration
    startPos := startPos
    endPos := endPos }

/-! ## Method extraction (`extractMethods`) -/

/-- The scanning loop of `extractMethods`. The three trailing arguments
are the fuel, the regex `lastIndex` (relative to the search area) and
`lastMethodEnd` (absolute). -/
def extractMethodsLoop (s className searchArea : List Char)
    (searchOffset classEnd : Nat) (skips : List SkipRegion) :
    Nat → Nat → Nat → List JavaMethod
  | 0, _, _ => []
  | fuel + 1, scanPos, lastMethodEnd =>
    match findMethodFrom className searchArea scanPos with
    | none => []
    | some mm =>
      let rawMatchStart := searchOffset + mm.idx
      let matchedLen := mm.matchEnd - mm.idx
      let actualMethodStart :=
        if charAtD s rawMatchStart (Char.ofNat 0) == '\n' then rawMatchStart + 1
        else rawMatchStart
      if isInSkipRegion actualMethodStart skips then
        extractMethodsLoop s className searchArea searchOffset classEnd skips
          fuel mm.matchEnd lastMethodEnd
      else
        let leadingContent := extractLeadingContent s actualMethodStart lastMethodEnd skips
        let declaration := extract searchArea mm.idx mm.matchEnd
        let name := extract searchArea mm.nameStart mm.nameEnd
        let bodyStartOpt := indexOfFrom s lbrace (rawMatchStart + matchedLen - 1)
        match bodyStartOpt with
        | none =>
          match indexOfFrom s ';' actualMethodStart with
          | some semi =>
            if semi < classEnd then
              createMethodFromAbstract s declaration name actualMethodStart
                  (semi + 1) leadingContent className ::
                extractMethodsLoop s className searchArea searchOffset classEnd
                  skips fuel mm.matchEnd (semi + 1)
            else
              extractMethodsLoop s className searchArea searchOffset classEnd
                skips fuel mm.matchEnd lastMethodEnd
          | none =>
            extractMethodsLoop s className searchArea searchOffset classEnd
              skips fuel mm.matchEnd lastMethodEnd
        | some bs =>
          if bs ≥ classEnd then
            match indexOfFrom s ';' actualMethodStart with
            | some semi =>
              if semi < classEnd then
                createMethodFromAbstract s declaration name actualMethodStart
                    (semi + 1) leadingContent className ::
                  extractMethodsLoop s className searchArea searchOffset classEnd
                    skips fuel mm.matchEnd (semi + 1)
              else
                extractMethodsLoop s className searchArea searchOffset classEnd
                  skips fuel mm.matchEnd lastMethodEnd
            | none =>
              extractMethodsLoop s className searchArea searchOffset classEnd
                skips fuel mm.matchEnd lastMethodEnd
          else if isInSkipRegion bs skips then
            extractMethodsLoop s className searchArea searchOffset classEnd
              skips fuel mm.matchEnd lastMethodEnd
          else
            match findMatchingBrace s bs with
            | none =>
              extractMethodsLoop s className searchArea searchOffset classEnd
                skips fuel mm.matchEnd lastMethodEnd
            | some bodyEnd =>
              if bodyEnd ≥ classEnd then
                extractMethodsLoop s className searchArea searchOffset classEnd
                  skips fuel mm.matchEnd lastMethodEnd
              else
                createMethod s declaration name actualMethodStart (bodyEnd + 1)
                    leadingContent className ::
                  extractMethodsLoop s className searchArea searchOffset classEnd
                    skips fuel (bodyEnd + 1 - searchOffset) (bodyEnd + 1)

/-- The final `originalPosition` numbering pass of `extractMethods`. -/
def assignPositions (i : Nat) : List JavaMethod → List JavaMethod
  | [] => []
  | m :: ms => { m with originalPosition := (i : Int) } :: assignPositions (i + 1) ms

/-- `extractMethods`, including the final `originalPosition` numbering. -/
def extractMethods (s className : List Char) (bounds : ClassBodyBounds) :
    List JavaMethod :=
  let skips := findSkipRegions s bounds
  let searchArea := extract s (bounds.bodyStart + 1) bounds.endPos
  let searchOffset := bounds.bodyStart + 1
  let raw := extractMethodsLoop s className searchArea searchOffset
    bounds.endPos skips (searchArea.length + 1) 0 (bounds.bodyStart + 1)
  assignPositions 0 raw

/-- `extractNonMethodContent`. -/
def extractNonMethodContent (s : List Char) (methods : List JavaMethod)
    (bounds : ClassBodyBounds) : List Char × List Char :=
  match methods.head? with
  | none => (s, [])
  | some m0 =>
    let lastEnd := ((methods.getLast?.map (fun m => m.endPos)).getD 0)
    let firstMethodStart :=
      if m0.leadingContent ≠ [] && trimJS m0.leadingContent ≠ [] then
        match lastIndexOfFrom (trimJS m0.leadingContent) s m0.startPos with
        | some li => if li > bounds.bodyStart then li else m0.startPos
        | none => m0.startPos
      else m0.startPos
    (extract s 0 firstMethodStart, s.drop lastEnd)

/-- `parse`. -/
def parse (s : List Char) : Option JavaClass :=
  match findClassName s with
  | none => none
  | some className =>
    match findMainClassBody s className with
    | none => none
    | some bounds =>
      let methods := extractMethods s className bounds
      let nonMethod := extractNonMethodContent s methods bounds
      some ⟨className, nonMethod.1, methods, nonMethod.2⟩

end JavaParser

/-! ## Sorter (`src/sorter/javaMethodSorter.ts`) -/

namespace JavaMethodSorter

/-- Association-list model of the `Map` from method name to called-name set;
`Map.prototype.set` replaces an existing binding in place. -/
def mapSet (m : List (List Char × List (List Char))) (k : List Char)
    (v : List (List Char)) : List (List Char × List (List Char)) :=
  if m.any (fun p => p.1 == k) then
    m.map (fun p => if p.1 == k then (k, v) else p)
  else m ++ [(k, v)]

/-- `Map.prototype.get` on the association-list model. -/
def mapGet (m : List (List Char × List (List Char))) (k : List Char) :
    Option (List (List Char)) :=
  (m.find? (fun p => p.1 == k)).map (fun p => p.2)

/-- `buildCallGraph`: edges from each method to the called methods that are
present in the class, excluding self-loops; `Set` insertion order is kept. -/
def buildCallGraph (methods : List JavaMethod) :
    List (List Char × List (List Char)) :=
  let methodNames := methods.map (fun m => m.name)
  methods.foldl (fun cg method =>
    let calls := method.calledMethods.foldl (fun cs called =>
      if methodNames.contains called && called != method.name &&
          !(cs.contains called) then cs ++ [called] else cs) []
    mapSet cg method.name calls) []

/-- A fuel bound large enough for the visited-set recursion of
`transitivelyCallsMethod` on the given graph: the recursion depth is
bounded by the number of graph entries plus the total number of edges,
since every productive visit adds a new name to the visited set. -/
def graphFuel (cg : List (List Char × List (List Char))) : Nat :=
  2 + cg.foldl (fun n p => n + 2 + 2 * p.2.length) 0

/-- A pending step of the `transitivelyCallsMethod` recursion: either a
call `visit a b visited` of the function itself, or the state
`loop calls b visited` of its `for (const calledMethod of calls)` loop. -/
inductive TcmCall where
  | visit (methodA methodB : List Char) (visited : List (List Char))
  | loop (calls : List (List Char)) (methodB : List Char)
      (visited : List (List Char))

/-- The step interpreter for `transitivelyCallsMethod` and its inner loop,
fuel-driven (one unit of fuel per call or loop step); the visited set is
threaded exactly as the shared mutable `Set` of the source. -/
def tcmStep (cg : List (List Char × List (List Char))) :
    Nat → TcmCall → Bool × List (List Char)
  | 0, t =>
    match t with
    | .visit _ _ visited => (false, visited)
    | .loop _ _ visited => (false, visited)
  | fuel + 1, .visit methodA methodB visited =>
    if visited.contains methodA then (false, visited)
    else
      let visited1 := visited ++ [methodA]
      match mapGet cg methodA with
      | none => (false, visited1)
      | some calls =>
        if calls.contains methodB then (true, visited1)
        else tcmStep cg fuel (.loop calls methodB visited1)
  | _ + 1, .loop [] _ visited => (false, visited)
  | fuel + 1, .loop (c :: cs) methodB visited =>
    match tcmStep cg fuel (.visit c methodB visited) with
    | (r, visited2) =>
      if r then (true, visited2)
      else tcmStep cg fuel (.loop cs methodB visited2)

/-- `transitivelyCallsMethod`, with a fuel budget large enough for the
whole search on the given graph. -/
def transitivelyCallsMethod (cg : List (List Char × List (List Char)))
    (fuel : Nat) (methodA methodB : List Char)
    (visited : List (List Char)) : Bool × List (List Char) :=
  tcmStep cg fuel (.visit methodA methodB visited)

/-- `compareByInvocation`: direct call edges first, then (under the
`depth-first` strategy only) transitive reachability in both directions. -/
def compareByInvocation (opts : SortingOptions)
    (cg : List (List Char × List (List Char))) (a b : JavaMethod) : Int :=
  let aCalls := mapGet cg a.name
  let bCalls := mapGet cg b.name
  if (aCalls.map (fun s => s.contains b.name)).getD false then -1
  else if (bCalls.map (fun s => s.contains a.name)).getD false then 1
  else if opts.sortingStrategy == "depth-first".data then
    if (transitivelyCallsMethod cg (graphFuel cg) a.name b.name []).1 then -1
    else if (transitivelyCallsMethod cg (graphFuel cg) b.name a.name []).1 then 1
    else 0
  else 0

/-- The model of `String.prototype.localeCompare`: three-way lexicographic
comparison by character code. -/
def cmpChars : List Char → List Char → Int
  | [], [] => 0
  | [], _ :: _ => -1
  | _ :: _, [] => 1
  | a :: as, b :: bs => if a < b then -1 else if b < a then 1 else cmpChars as bs

/-- `compareMethodsFull`: the six short-circuiting criteria. -/
def compareMethodsFull (opts : SortingOptions)
    (cg : List (List Char × List (List Char))) (a b : JavaMethod) : Int :=
  if opts.separateConstructors && a.isConstructor && !b.isConstructor then -1
  else if opts.separateConstructors && !a.isConstructor && b.isConstructor then 1
  else if a.isStatic && !b.isStatic then -1
  else if !a.isStatic && b.isStatic then 1
  else if opts.separateByAccessLevel && a.accessLevel.val - b.accessLevel.val ≠ 0 then
    a.accessLevel.val - b.accessLevel.val
  else if opts.respectBeforeAfterRelation && compareByInvocation opts cg a b ≠ 0 then
    compareByInvocation opts cg a b
  else if opts.applyLexicalOrdering && cmpChars a.name b.name ≠ 0 then
    cmpChars a.name b.name
  else a.originalPosition - b.originalPosition

/-- Helper for a structurally recursive stable merge: merges
`a :: asAll` with the second argument, where `f` merges `asAll` with any
list. -/
def mergeCons (le : α → α → Bool) (a : α) (asAll : List α)
    (f : List α → List α) : List α → List α
  | [] => a :: asAll
  | b :: bs =>
    if le a b then a :: f (b :: bs) else b :: mergeCons le a asAll f bs

/-- Stable top-down merge of two lists (model of the merge phase of
`Array.prototype.sort`). -/
def mergeJS (le : α → α → Bool) : List α → List α → List α
  | [], l2 => l2
  | a :: as, l2 => mergeCons le a as (mergeJS le as) l2

/-- Fuel-driven stable merge sort; the fuel bounds the recursion depth and
any value at least the list length is enough. -/
def mergeSortFuel (le : α → α → Bool) : Nat → List α → List α
  | 0, l => l
  | fuel + 1, l =>
    if l.length ≤ 1 then l
    else
      mergeJS le (mergeSortFuel le fuel (l.take (l.length / 2)))
        (mergeSortFuel le fuel (l.drop (l.length / 2)))

/-- Stable merge sort: the model of `Array.prototype.sort(comparator)`.
For a consistent comparator every stable conforming sort returns the same
list, so this is engine-independent; under an inconsistent comparator the
ECMAScript result is implementation-defined. -/
def mergeSortJS (le : α → α → Bool) (l : List α) : List α :=
  mergeSortFuel le l.length l

/-- `clusterOverloadedMethods`: group methods by name, groups ordered by the
first occurrence of each name, members in encounter order. -/
def clusterOverloadedMethods (methods : List JavaMethod) : List JavaMethod :=
  let orderedNames := methods.foldl
    (fun acc m => if acc.contains m.name then acc else acc ++ [m.name]) []
  (orderedNames.map (fun n => methods.filter (fun m => m.name == n))).flatten

/-- `extractFieldNameFromGetter`. -/
def extractFieldNameFromGetter (methodName : List Char) : List Char :=
  if begins "get".data methodName then methodName.drop 3
  else if begins "is".data methodName then methodName.drop 2
  else methodName

/-- `extractFieldNameFromSetter`. -/
def extractFieldNameFromSetter (methodName : List Char) : List Char :=
  if begins "set".data methodName then methodName.drop 3
  else methodName

/-- A default method record (used only for in-range list indexing). -/
def dfltMethod : JavaMethod :=
  ⟨[], [], [], .PACKAGE, false, false, 0, [], [], [], false, false, 0, 0⟩

/-- The forward partner search of `clusterGetterSetterMethods`
(fuel-driven): the first index `j' ≥ j` that is unprocessed and whose
method name is one of `targets`. -/
def fpGo (methods : List JavaMethod) (targets : List (List Char))
    (processed : List Nat) : Nat → Nat → Option Nat
  | 0, _ => none
  | fuel + 1, j =>
    if j < methods.length then
      if !(processed.contains j) &&
          targets.contains (methods.getD j dfltMethod).name then some j
      else fpGo methods targets processed fuel (j + 1)
    else none

/-- The forward partner search of `clusterGetterSetterMethods`. -/
def findPartnerFrom (methods : List JavaMethod) (targets : List (List Char))
    (processed : List Nat) (j : Nat) : Option Nat :=
  fpGo methods targets processed (methods.length + 1) j

/-- The main loop of `clusterGetterSetterMethods` (fuel-driven). -/
def cgsAux (methods : List JavaMethod) : Nat → Nat → List Nat → List JavaMethod
  | 0, _, _ => []
  | fuel + 1, i, processed =>
    if i < methods.length then
      if processed.contains i then cgsAux methods fuel (i + 1) processed
      else
        let m := methods.getD i dfltMethod
        let processed1 := processed ++ [i]
        if m.isGetter then
          let setterName := "set".data ++ extractFieldNameFromGetter m.name
          match findPartnerFrom methods [setterName] processed1 (i + 1) with
          | some j => m :: methods.getD j dfltMethod ::
              cgsAux methods fuel (i + 1) (processed1 ++ [j])
          | none => m :: cgsAux methods fuel (i + 1) processed1
        else if m.isSetter then
          let field := extractFieldNameFromSetter m.name
          let getterName := "get".data ++ field
          let boolGetterName := "is".data ++ field
          match findPartnerFrom methods [getterName, boolGetterName] processed1 (i + 1) with
          | some j => m :: methods.getD j dfltMethod ::
              cgsAux methods fuel (i + 1) (processed1 ++ [j])
          | none => m :: cgsAux methods fuel (i + 1) processed1
        else m :: cgsAux methods fuel (i + 1) processed1
    else []

/-- `clusterGetterSetterMethods`: splice each getter's setter (or each lone
setter's getter) immediately after it. -/
def clusterGetterSetterMethods (methods : List JavaMethod) : List JavaMethod :=
  cgsAux methods (methods.length + 1) 0 []

/-- `sortMethods`: comparator sort, then the optional clustering passes. -/
def sortMethods (opts : SortingOptions) (methods : List JavaMethod) :
    List JavaMethod :=
  let cg := buildCallGraph methods
  let sorted := mergeSortJS
    (fun a b => decide (compareMethodsFull opts cg a b ≤ 0)) methods
  let sorted1 := if opts.clusterOverloadedMethods
    then clusterOverloadedMethods sorted else sorted
  if opts.clusterGetterSetter then clusterGetterSetterMethods sorted1 else sorted1

/-- One step of the Fisher–Yates loop: swap positions `i` and `j`. -/
def swapJS (l : List α) (i j : Nat) : List α :=
  match l.get? i, l.get? j with
  | some a, some b => (l.set i b).set j a
  | _, _ => l

/-- The Fisher–Yates loop of `shuffleArray`, counting `i` down to `1`;
`rand i` models `Math.floor(Math.random() * (i + 1))`. -/
def shuffleAux (rand : Nat → Nat) (l : List α) : Nat → List α
  | 0 => l
  | i + 1 => shuffleAux rand (swapJS l (i + 1) (rand (i + 1))) i

/-- `shuffleArray`. -/
def shuffleArray (rand : Nat → Nat) (l : List α) : List α :=
  match l.length with
  | 0 => l
  | n + 1 => shuffleAux rand l n

/-- Strip a trailing whitespace run (`replace(/\s+$/, '')`). -/
def dropTrailingSpace (l : List Char) : List Char :=
  (l.reverse.dropWhile isSpaceJS).reverse

/-- The text block emitted for one method by `reconstructSource`. -/
def emitBlock (m : JavaMethod) : List Char :=
  let normalizedFullText := m.fullText.dropWhile (· == '\n')
  let leading := m.leadingContent.dropWhile (· == '\n')
  if trimJS leading ≠ [] then leading ++ normalizedFullText
  else normalizedFullText

/-- `reconstructSource`. -/
def reconstructSource (preContent : List Char) (methods : List JavaMethod)
    (postContent : List Char) : List Char :=
  let methodTexts := methods.map emitBlock
  let normalizedPreContent := dropTrailingSpace preContent ++ ['\n', '\n']
  normalizedPreContent ++ List.intercalate ['\n', '\n'] methodTexts ++ postContent

end JavaMethodSorter

namespace JavaMethodSorter

/-- `JavaMethodSorter.sort` at the string level: parse, sort, reconstruct;
the input is returned unchanged on parse failure or when no methods were
found. -/
def sort (opts : SortingOptions) (source : List Char) : List Char :=
  match JavaParser.parse source with
  | none => source
  | some javaClass =>
    if javaClass.methods.length == 0 then source
    else
      reconstructSource javaClass.preMethodsContent
        (sortMethods opts javaClass.methods) javaClass.postMethodsContent

/-- `JavaMethodSorter.shuffleRandomly` at the string level, with the
random oracle `rand`. -/
def shuffleRandomly (rand : Nat → Nat) (source : List Char) : List Char :=
  match JavaParser.parse source with
  | none => source
  | some javaClass =>
    if javaClass.methods.length == 0 then source
    else
      reconstructSource javaClass.preMethodsContent
        (shuffleArray rand javaClass.methods) javaClass.postMethodsContent

end JavaMethodSorter

/-! ## Concrete example sources and option sets used by the theorems -/

/-- All boolean options off, `breadth-first` strategy. -/
def optsAll0 : SortingOptions :=
  ⟨"breadth-first".data, false, false, false, false, false, false, false⟩

/-- The options of the spec's concrete scenario:
`separateByAccessLevel` and `separateConstructors` on, all other booleans
off. -/
def optsScenario : SortingOptions :=
  ⟨"depth-first".data, false, false, false, false, true, true, false⟩

/-- The extension's default configuration values. -/
def optsDefault : SortingOptions :=
  ⟨"depth-first".data, true, true, false, false, true, true, true⟩

/-- Only invocation ordering on, `breadth-first` strategy. -/
def optsInvBF : SortingOptions :=
  ⟨"breadth-first".data, true, true, false, false, false, false, false⟩

/-- Only overloaded-method clustering on. -/
def optsOverload : SortingOptions :=
  ⟨"breadth-first".data, false, false, true, false, false, false, false⟩

/-- The spec's concrete scenario class: a private method followed by a
public one. -/
def srcScenario : List Char :=
  "\npublic class MyClass \x7b\n    private void privateMethod() \x7b\n        System.out.println(\"private\");\n    \x7d\n\n    public void publicMethod() \x7b\n        System.out.println(\"public\");\n    \x7d\n\x7d".data

/-- Three methods whose call edges form a cycle `a → b → c → a`. -/
def srcCycle3 : List Char :=
  "class Cyc \x7b\n    void a() \x7b\n        b();\n    \x7d\n\n    void b() \x7b\n        c();\n    \x7d\n\n    void c() \x7b\n        a();\n    \x7d\n\x7d\n".data

/-- A class with a static initializer block and an instance initializer
block before its two methods and a nested class after them. -/
def srcSkips : List Char :=
  "public class Outer \x7b\n    static \x7b\n        init();\n    \x7d\n\n    \x7b\n        count = 1;\n    \x7d\n\n    void alpha() \x7b\n        beta();\n    \x7d\n\n    void beta() \x7b\n    \x7d\n\n    class Inner \x7b\n        void gamma() \x7b\n        \x7d\n    \x7d\n\x7d\n".data

/-- Like `srcSkips`, but with the static initializer block between the two
methods. -/
def srcSkipsBetween : List Char :=
  "public class Outer2 \x7b\n    \x7b\n        count = 1;\n    \x7d\n\n    void alpha() \x7b\n    \x7d\n\n    static \x7b\n        init();\n    \x7d\n\n    void beta() \x7b\n    \x7d\n\n    class Inner \x7b\n        void gamma() \x7b\n        \x7d\n    \x7d\n\x7d\n".data

/-- Two static methods and a non-static overload of the first one. -/
def srcOverload : List Char :=
  "class T \x7b\n    static void f() \x7b\n    \x7d\n\n    static void h() \x7b\n    \x7d\n\n    void f(int x) \x7b\n    \x7d\n\x7d\n".data

/-- A class whose first method is named `catch`, one of the keywords
excluded by `extractCalledMethods`. -/
def srcCatch : List Char :=
  "class K \x7b\n    public void catch() \x7b\n    \x7d\n\n    public void go() \x7b\n        go2();\n    \x7d\n\x7d\n".data

/-- A source with no class declaration at all. -/
def srcNoClass : List Char :=
  "int x = 1;".data

/-- A class declaration whose body brace is never closed. -/
def srcUnclosed : List Char :=
  "class Foo \x7b int x;".data

/-- A class that parses but contains no methods. -/
def srcEmptyClass : List Char :=
  "public class Empty \x7b\n\x7d\n".data

/-- The methods of a parsed source (empty list when parsing fails). -/
def parseMethods (source : List Char) : List JavaMethod :=
  match JavaParser.parse source with
  | some cls => cls.methods
  | none => []

/-- Start index of the first occurrence of `pat` in `l` (length + 1 when
absent). -/
def firstIdxOf (pat l : List Char) : Nat :=
  ((List.range (l.length + 1)).find? (fun i => occursAt pat l i)).getD (l.length + 1)

/-! ## Claim theorems -/

/-! ## Derived definitions used by the verification theorems -/

namespace JavaMethodSorter

/-- Lexicographic combination of two three-way comparators. -/
def lexCombine (f g : JavaMethod → JavaMethod → Int) (a b : JavaMethod) : Int :=
  if f a b ≠ 0 then f a b else g a b

/-- Criterion 1 of `compareMethodsFull` in isolation. -/
def cmpCtor (opts : SortingOptions) (a b : JavaMethod) : Int :=
  if opts.separateConstructors && a.isConstructor && !b.isConstructor then -1
  else if opts.separateConstructors && !a.isConstructor && b.isConstructor then 1
  else 0

/-- Criterion 2 of `compareMethodsFull` in isolation. -/
def cmpStatic (a b : JavaMethod) : Int :=
  if a.isStatic && !b.isStatic then -1
  else if !a.isStatic && b.isStatic then 1 else 0

/-- Criterion 3 of `compareMethodsFull` in isolation. -/
def cmpAccess (opts : SortingOptions) (a b : JavaMethod) : Int :=
  if opts.separateByAccessLevel then a.accessLevel.val - b.accessLevel.val else 0

/-- Criterion 5 of `compareMethodsFull` in isolation. -/
def cmpLex (opts : SortingOptions) (a b : JavaMethod) : Int :=
  if opts.applyLexicalOrdering then cmpChars a.name b.name else 0

/-- Criterion 6 of `compareMethodsFull` in isolation. -/
def cmpPos (a b : JavaMethod) : Int :=
  a.originalPosition - b.originalPosition

/-- The chain of criteria 1, 2, 3, 5, 6 (criterion 4 is disabled when
`respectBeforeAfterRelation` is off). -/
def chainCmp (opts : SortingOptions) : JavaMethod → JavaMethod → Int :=
  lexCombine (cmpCtor opts) (lexCombine cmpStatic (lexCombine (cmpAccess opts)
    (lexCombine (cmpLex opts) cmpPos)))

/-- The total-preorder laws for a three-way comparator. -/
def LawfulCmp (f : JavaMethod → JavaMethod → Int) : Prop :=
  (∀ a b, f a b < 0 ↔ f b a > 0) ∧
  (∀ a b c, f a b ≤ 0 → f b c ≤ 0 → f a c ≤ 0) ∧
  (∀ a b c, f a b < 0 → f b c ≤ 0 → f a c < 0) ∧
  (∀ a b c, f a b ≤ 0 → f b c < 0 → f a c < 0)

/-- Three-way comparison of two integers. -/
def cmpInt (x y : Int) : Int :=
  if x < y then -1 else if y < x then 1 else 0

/-- The constructor key of criterion 1. -/
def ctorKey (opts : SortingOptions) (m : JavaMethod) : Int :=
  if opts.separateConstructors && m.isConstructor then 0 else 1

/-- The static key of criterion 2. -/
def staticKey (m : JavaMethod) : Int :=
  if m.isStatic then 0 else 1

/-- The partial order induced by the constructor and static criteria. -/
def ctorStaticOrder (opts : SortingOptions) (a b : JavaMethod) : Prop :=
  ctorKey opts a < ctorKey opts b ∨
    (ctorKey opts a = ctorKey opts b ∧ staticKey a ≤ staticKey b)

/-- Criteria 3 through 6 of `compareMethodsFull` as one comparator. -/
def restCmp (opts : SortingOptions)
    (cg : List (List Char × List (List Char))) (a b : JavaMethod) : Int :=
  if opts.separateByAccessLevel && a.accessLevel.val - b.accessLevel.val ≠ 0 then
    a.accessLevel.val - b.accessLevel.val
  else if opts.respectBeforeAfterRelation && compareByInvocation opts cg a b ≠ 0 then
    compareByInvocation opts cg a b
  else if opts.applyLexicalOrdering && cmpChars a.name b.name ≠ 0 then
    cmpChars a.name b.name
  else a.originalPosition - b.originalPosition

/-- The still-unprocessed index list of the getter/setter clustering
loop. -/
def remIdx (len i : Nat) (processed : List Nat) : List Nat :=
  (List.range' i (len - i)).filter (fun j => !(processed.contains j))

end JavaMethodSorter

namespace JavaParser

/-- The shape invariant carried through method extraction: the recorded
full text ends with a closing brace or a semicolon, and the called-methods
list is duplicate-free and avoids the excluded keywords. -/
def MethodShape (m : JavaMethod) : Prop :=
  (m.fullText.getLast? = some rbrace ∨ m.fullText.getLast? = some ';') ∧
    m.calledMethods.Nodup ∧
    ∀ n ∈ m.calledMethods, ¬ n ∈ excludedKeywords

/-- The positional facts produced by a successful `matchFromName`: the
captured name is a nonempty word run, followed by a space run, followed by
the opening parenthesis, all inside the match. -/
def NamePost (sa : List Char) (iN eN pP e : Nat) : Prop :=
  iN < eN ∧ eN ≤ pP ∧ pP < e ∧ e ≤ sa.length ∧
  (∀ k, iN ≤ k → k < eN → isWordChar (charAtD sa k (Char.ofNat 0)) = true) ∧
  (∀ k, eN ≤ k → k < pP → isSpaceJS (charAtD sa k (Char.ofNat 0)) = true) ∧
  charAtD sa pP (Char.ofNat 0) = '('

end JavaParser

def clsCatch : JavaClass :=
  (JavaParser.parse srcCatch).getD ⟨[], [], [], []⟩

def clsScenario : JavaClass :=
  (JavaParser.parse srcScenario).getD ⟨[], [], [], []⟩

/-- C2, counterexample: on the parsed class `srcCycle3`, whose three
methods have the pairwise-distinct original positions `0, 1, 2` and call
each other in a cycle, the comparator relates `a` before `b` and `b`
before `c` but `c` strictly before `a`, so `compareMethodsFull` is not
transitive and hence not a total order. -/
theorem claim_C2_counterexample :
    (parseMethods srcCycle3).map (fun m => m.originalPosition) = [0, 1, 2] ∧
    JavaMethodSorter.compareMethodsFull optsInvBF
      (JavaMethodSorter.buildCallGraph (parseMethods srcCycle3))
      ((parseMethods srcCycle3).getD 0 JavaMethodSorter.dfltMethod)
      ((parseMethods srcCycle3).getD 1 JavaMethodSorter.dfltMethod) = -1 ∧
    JavaMethodSorter.compareMethodsFull optsInvBF
      (JavaMethodSorter.buildCallGraph (parseMethods srcCycle3))
      ((parseMethods srcCycle3).getD 1 JavaMethodSorter.dfltMethod)
      ((parseMethods srcCycle3).getD 2 JavaMethodSorter.dfltMethod) = -1 ∧
    JavaMethodSorter.compareMethodsFull optsInvBF
      (JavaMethodSorter.buildCallGraph (parseMethods srcCycle3))
      ((parseMethods srcCycle3).getD 0 JavaMethodSorter.dfltMethod)
      ((parseMethods srcCycle3).getD 2 JavaMethodSorter.dfltMethod) = 1 := by
  refine ⟨by decide, by decide, by decide, by decide⟩

/-- C4, counterexample: `srcSkipsBetween` contains a static initializer
block, an instance initializer block and a nested class with its own
method, and parse yields exactly the two outer methods; but the static
initializer block sits between the two methods and `sort` drops it — the
output does not even contain the token `static`. -/
theorem claim_C4_counterexample :
    List.IsInfix "static \x7b\n        init();\n    \x7d".data srcSkipsBetween ∧
    List.IsInfix "\x7b\n        count = 1;\n    \x7d".data srcSkipsBetween ∧
    List.IsInfix "class Inner \x7b\n        void gamma() \x7b\n        \x7d\n    \x7d".data
      srcSkipsBetween ∧
    (parseMethods srcSkipsBetween).map (fun m => m.name) =
      ["alpha".data, "beta".data] ∧
    ¬ List.IsInfix "static".data (JavaMethodSorter.sort optsAll0 srcSkipsBetween) := by
  refine ⟨by decide, by decide, by decide, by decide, by decide⟩

/-- C4, amended: for the representative class `srcSkips`, whose static
initializer block and instance initializer block precede the methods and
whose nested class follows them, parse yields exactly the two outer
methods (the nested class's method is not extracted), and the `sort`
output contains all three skipped blocks verbatim. -/
theorem claim_C4_amended :
    (parseMethods srcSkips).map (fun m => m.name) =
      ["alpha".data, "beta".data] ∧
    List.IsInfix "static \x7b\n        init();\n    \x7d".data
      (JavaMethodSorter.sort optsAll0 srcSkips) ∧
    List.IsInfix "\x7b\n        count = 1;\n    \x7d".data
      (JavaMethodSorter.sort optsAll0 srcSkips) ∧
    List.IsInfix "class Inner \x7b\n        void gamma() \x7b\n        \x7d\n    \x7d".data
      (JavaMethodSorter.sort optsAll0 srcSkips) := by
  refine ⟨by decide, by decide, by decide, by decide⟩

/-- C7, counterexample: on the parsed class `srcOverload` with
`clusterOverloadedMethods` enabled, the clustering pass splices the
non-static overload of `f` directly after the static `f`, so the
non-static `f` is emitted before the static method `h` although no method
involved is a constructor. -/
theorem claim_C7_counterexample :
    (JavaMethodSorter.sortMethods optsOverload (parseMethods srcOverload)).map
        (fun m => (m.name, m.isStatic, m.isConstructor)) =
      [("f".data, true, false), ("f".data, false, false),
        ("h".data, true, false)] ∧
    ((JavaMethodSorter.sortMethods optsOverload
        (parseMethods srcOverload)).getD 1 JavaMethodSorter.dfltMethod).isStatic
        = false ∧
    ((JavaMethodSorter.sortMethods optsOverload
        (parseMethods srcOverload)).getD 2 JavaMethodSorter.dfltMethod).isStatic
        = true := by
  refine ⟨by decide, by decide, by decide⟩

/-- C10, counterexample: the parsed class `srcCatch` has a first method
that is literally named `catch`, has a body, and whose own name is not in
its `calledMethods` list, because `catch` is one of the keywords excluded
by the call-detection pattern. -/
theorem claim_C10_counterexample :
    ((parseMethods srcCatch).getD 0 JavaMethodSorter.dfltMethod).name =
      "catch".data ∧
    ((parseMethods srcCatch).getD 0 JavaMethodSorter.dfltMethod).bodyContent ≠ [] ∧
    "catch".data ∉
      ((parseMethods srcCatch).getD 0 JavaMethodSorter.dfltMethod).calledMethods := by
  refine ⟨by decide, by decide, by decide⟩

/-- C8: with `separateConstructors` enabled the comparator places
constructors before non-constructors ahead of every lower-priority
criterion; with `separateByAccessLevel` enabled, methods tied on the
constructor and static criteria are ordered ascending by the numeric
`AccessLevel` value (`PUBLIC = 0 < PROTECTED = 1 < PACKAGE = 2 <
PRIVATE = 3`); and in the spec's concrete scenario the sorted output has
`publicMethod` at a lower string index than `privateMethod`. -/
theorem claim_C8 :
    (∀ (opts : SortingOptions) (cg : List (List Char × List (List Char)))
        (a b : JavaMethod), opts.separateConstructors = true →
        a.isConstructor = true → b.isConstructor = false →
        JavaMethodSorter.compareMethodsFull opts cg a b = -1) ∧
    (∀ (opts : SortingOptions) (cg : List (List Char × List (List Char)))
        (a b : JavaMethod), opts.separateByAccessLevel = true →
        (opts.separateConstructors = true → a.isConstructor = b.isConstructor) →
        a.isStatic = b.isStatic →
        a.accessLevel.val < b.accessLevel.val →
        JavaMethodSorter.compareMethodsFull opts cg a b < 0) ∧
    (AccessLevel.PUBLIC.val = 0 ∧ AccessLevel.PROTECTED.val = 1 ∧
      AccessLevel.PACKAGE.val = 2 ∧ AccessLevel.PRIVATE.val = 3) ∧
    firstIdxOf "publicMethod".data
        (JavaMethodSorter.sort optsScenario srcScenario) <
      firstIdxOf "privateMethod".data
        (JavaMethodSorter.sort optsScenario srcScenario) := by
  refine ⟨?_, ?_, by decide, by decide⟩
  · intro opts cg a b h1 h2 h3
    simp [JavaMethodSorter.compareMethodsFull, h1, h2, h3]
  · intro opts cg a b h1 h2 h3 h4
    have hd : a.accessLevel.val - b.accessLevel.val ≠ 0 := by omega
    have hd2 : a.accessLevel.val - b.accessLevel.val < 0 := by omega
    cases hsep : opts.separateConstructors with
    | false =>
      cases hA : a.isStatic <;>
        simp_all [JavaMethodSorter.compareMethodsFull, h1, hA, hd, hd2]
    | true =>
      have hc := h2 hsep
      cases hA : a.isStatic <;> cases hC : a.isConstructor <;>
        simp_all [JavaMethodSorter.compareMethodsFull, h1, hA, hC, hd, hd2]

/-- C8, witness: the two comparator facts applied at the scenario options
and two concrete methods differing in constructor status and in access
level. -/
theorem claim_C8_witness :
    JavaMethodSorter.compareMethodsFull optsScenario []
        { JavaMethodSorter.dfltMethod with isConstructor := true }
        JavaMethodSorter.dfltMethod = -1 ∧
    JavaMethodSorter.compareMethodsFull optsScenario []
        { JavaMethodSorter.dfltMethod with accessLevel := .PUBLIC }
        { JavaMethodSorter.dfltMethod with accessLevel := .PRIVATE } < 0 :=
  ⟨claim_C8.1 optsScenario []
      { JavaMethodSorter.dfltMethod with isConstructor := true }
      JavaMethodSorter.dfltMethod rfl rfl rfl,
    claim_C8.2.1 optsScenario []
      { JavaMethodSorter.dfltMethod with accessLevel := .PUBLIC }
      { JavaMethodSorter.dfltMethod with accessLevel := .PRIVATE }
      rfl (fun _ => rfl) rfl (by decide)⟩

/-- C5: `parse` returns `none` exactly when the class-name pattern finds
no class or when `findMainClassBody` fails, the latter exactly when its
own class pattern fails or the matching closing brace is missing; in all
of these cases, and also when parsing succeeds with zero methods, `sort`
and `shuffleRandomly` return the input unchanged. -/
theorem claim_C5 (s : List Char) (opts : SortingOptions) (rand : Nat → Nat) :
    (JavaParser.parse s = none ↔
      JavaParser.findClassName s = none ∨
      (∃ cn, JavaParser.findClassName s = some cn ∧
        JavaParser.findMainClassBody s cn = none)) ∧
    (∀ cn, JavaParser.findMainClassBody s cn = none ↔
      (JavaParser.fmcGo cn s (s.length + 1) 0 = none ∨
        (∃ cs me, JavaParser.fmcGo cn s (s.length + 1) 0 = some (cs, me) ∧
          JavaParser.findMatchingBrace s (me - 1) = none))) ∧
    ((JavaParser.parse s = none ∨
        (∃ cls, JavaParser.parse s = some cls ∧ cls.methods = [])) →
      JavaMethodSorter.sort opts s = s ∧
      JavaMethodSorter.shuffleRandomly rand s = s) := by
  refine ⟨?_, ?_, ?_⟩
  · cases h1 : JavaParser.findClassName s with
    | none => simp [JavaParser.parse, h1]
    | some cn =>
      cases h2 : JavaParser.findMainClassBody s cn with
      | none => simp [JavaParser.parse, h1, h2]
      | some b => simp [JavaParser.parse, h1, h2]
  · intro cn
    cases h1 : JavaParser.fmcGo cn s (s.length + 1) 0 with
    | none => simp [JavaParser.findMainClassBody, h1]
    | some p =>
      obtain ⟨cs, me⟩ := p
      cases h2 : JavaParser.findMatchingBrace s (me - 1) with
      | none =>
        constructor
        · intro _
          exact Or.inr ⟨cs, me, rfl, h2⟩
        · intro _
          simp [JavaParser.findMainClassBody, h1, h2]
      | some e =>
        constructor
        · intro hcontra
          simp [JavaParser.findMainClassBody, h1, h2] at hcontra
        · intro hcontra
          rcases hcontra with hc | ⟨cs1, me1, hpair, hbrace⟩
          · simp at hc
          · rw [Option.some_inj, Prod.mk.injEq] at hpair
            rw [hpair.2] at h2
            rw [h2] at hbrace
            simp at hbrace
  · intro h
    rcases h with h | ⟨cls, hp, hm⟩
    · constructor <;> simp [JavaMethodSorter.sort, JavaMethodSorter.shuffleRandomly, h]
    · constructor <;>
        simp [JavaMethodSorter.sort, JavaMethodSorter.shuffleRandomly, hp, hm]

/-- C5, witness: applied to a source with no class declaration. -/
theorem claim_C5_witness :
    JavaMethodSorter.sort optsAll0 srcNoClass = srcNoClass ∧
    JavaMethodSorter.shuffleRandomly (fun _ => 0) srcNoClass = srcNoClass :=
  (claim_C5 srcNoClass optsAll0 (fun _ => 0)).2.2 (Or.inl (by decide))

/-! ## Call-graph lemmas and the invocation-ordering claim -/

namespace JavaMethodSorter

lemma mapGet_nil (k : List Char) : mapGet [] k = none := rfl

lemma mapGet_cons (p : List Char × List (List Char))
    (cg : List (List Char × List (List Char))) (k : List Char) :
    mapGet (p :: cg) k = if (p.1 == k) = true then some p.2 else mapGet cg k := by
  unfold mapGet
  simp only [List.find?_cons]
  cases h : p.1 == k <;> simp [h]

lemma mapGet_mapSet_cases (cg : List (List Char × List (List Char)))
    (k : List Char) (v : List (List Char)) (k1 : List Char)
    (calls : List (List Char))
    (h : mapGet (mapSet cg k v) k1 = some calls) :
    (k1 = k ∧ calls = v) ∨ mapGet cg k1 = some calls := by
  unfold mapSet at h
  by_cases hany : cg.any (fun p => p.1 == k) = true
  · rw [if_pos hany] at h
    clear hany
    induction cg with
    | nil => simp [mapGet] at h
    | cons p cg ih =>
      simp only [List.map_cons] at h
      by_cases hp : (p.1 == k) = true
      · rw [if_pos hp, mapGet_cons] at h
        rw [mapGet_cons]
        by_cases hk : k1 = k
        · subst hk
          simp at h
          exact Or.inl ⟨rfl, h.symm⟩
        · rw [if_neg (by simp only [beq_iff_eq]; exact fun hc => hk hc.symm)] at h
          rcases ih h with h1 | h1
          · exact Or.inl h1
          · right
            rw [if_neg]
            · exact h1
            · simp only [beq_iff_eq] at hp ⊢
              rw [hp]
              exact fun hc => hk hc.symm
      · rw [if_neg hp, mapGet_cons] at h
        rw [mapGet_cons]
        by_cases hk : (p.1 == k1) = true
        · rw [if_pos hk] at h
          right
          rw [if_pos hk]
          exact h
        · rw [if_neg hk] at h
          rw [if_neg hk]
          exact ih h
  · rw [if_neg hany] at h
    induction cg with
    | nil =>
      simp only [List.nil_append, mapGet_cons] at h
      by_cases hk : (k == k1) = true
      · rw [if_pos hk] at h
        simp only [beq_iff_eq] at hk
        simp at h
        exact Or.inl ⟨hk.symm, h.symm⟩
      · rw [if_neg hk] at h
        simp [mapGet] at h
    | cons p cg ih =>
      simp only [List.cons_append, mapGet_cons] at h
      rw [mapGet_cons]
      by_cases hk : (p.1 == k1) = true
      · rw [if_pos hk] at h
        rw [if_pos hk]
        exact Or.inr h
      · rw [if_neg hk] at h
        rw [if_neg hk]
        apply ih h
        intro hc
        apply hany
        simp only [List.any_cons, hc, Bool.or_true]

end JavaMethodSorter

namespace JavaMethodSorter

lemma innerCalls_spec (names : List (List Char)) (self : List Char)
    (called : List (List Char)) (acc : List (List Char))
    (hacc : ∀ n ∈ acc, n ≠ self ∧ n ∈ names) :
    ∀ n ∈ called.foldl (fun cs c =>
        if names.contains c && c != self && !(cs.contains c)
        then cs ++ [c] else cs) acc,
      n ≠ self ∧ n ∈ names := by
  induction called generalizing acc with
  | nil => exact hacc
  | cons c cs ih =>
    simp only [List.foldl_cons]
    apply ih
    intro n hn
    by_cases hcond : (names.contains c && c != self && !(acc.contains c)) = true
    · rw [if_pos hcond] at hn
      rcases List.mem_append.mp hn with h1 | h1
      · exact hacc n h1
      · simp only [List.mem_singleton] at h1
        subst h1
        simp only [Bool.and_eq_true, bne_iff_ne, ne_eq] at hcond
        refine ⟨hcond.1.2, ?_⟩
        have := hcond.1.1
        simpa using this
    · rw [if_neg hcond] at hn
      exact hacc n hn

lemma buildCallGraph_aux_spec (names : List (List Char))
    (ms : List JavaMethod) (cg0 : List (List Char × List (List Char)))
    (hcg0 : ∀ k calls n, mapGet cg0 k = some calls → n ∈ calls →
      n ≠ k ∧ n ∈ names) :
    ∀ k calls n,
      mapGet (ms.foldl (fun cg method =>
        mapSet cg method.name (method.calledMethods.foldl (fun cs called =>
          if names.contains called && called != method.name &&
            !(cs.contains called) then cs ++ [called] else cs) [])) cg0) k
        = some calls → n ∈ calls → n ≠ k ∧ n ∈ names := by
  induction ms generalizing cg0 with
  | nil => exact hcg0
  | cons m ms ih =>
    simp only [List.foldl_cons]
    apply ih
    intro k calls n hget hn
    rcases mapGet_mapSet_cases _ _ _ _ _ hget with ⟨hk, hv⟩ | hold
    · subst hk
      subst hv
      exact innerCalls_spec names m.name m.calledMethods [] (by simp) n hn
    · exact hcg0 k calls n hold hn

lemma buildCallGraph_spec (methods : List JavaMethod) :
    ∀ k calls n, mapGet (buildCallGraph methods) k = some calls →
      n ∈ calls → n ≠ k ∧ n ∈ methods.map (fun x => x.name) := by
  intro k calls n h hn
  unfold buildCallGraph at h
  exact buildCallGraph_aux_spec (methods.map (fun x => x.name)) methods []
    (by intro k calls n h; simp [mapGet] at h) k calls n h hn

end JavaMethodSorter

/-- C9: the call graph built by `buildCallGraph` has edges only between
method names present in the class and excludes self-loops; a direct edge
from `a` to `b` makes `a` compare before `b` and conversely; with no
direct edge, the depth-first strategy (and only it) consults transitive
reachability in both directions through `transitivelyCallsMethod` (a
terminating visited-set search), and otherwise the comparison yields
zero. -/
theorem claim_C9 :
    (∀ (methods : List JavaMethod) (m : List Char)
        (calls : List (List Char)) (n : List Char),
      JavaMethodSorter.mapGet (JavaMethodSorter.buildCallGraph methods) m =
        some calls → n ∈ calls →
      n ≠ m ∧ n ∈ methods.map (fun x => x.name)) ∧
    (∀ (opts : SortingOptions) (cg : List (List Char × List (List Char)))
        (a b : JavaMethod),
      ((JavaMethodSorter.mapGet cg a.name).map
        (fun s => s.contains b.name)).getD false = true →
      JavaMethodSorter.compareByInvocation opts cg a b = -1) ∧
    (∀ (opts : SortingOptions) (cg : List (List Char × List (List Char)))
        (a b : JavaMethod),
      ((JavaMethodSorter.mapGet cg a.name).map
        (fun s => s.contains b.name)).getD false = false →
      ((JavaMethodSorter.mapGet cg b.name).map
        (fun s => s.contains a.name)).getD false = true →
      JavaMethodSorter.compareByInvocation opts cg a b = 1) ∧
    (∀ (opts : SortingOptions) (cg : List (List Char × List (List Char)))
        (a b : JavaMethod),
      ((JavaMethodSorter.mapGet cg a.name).map
        (fun s => s.contains b.name)).getD false = false →
      ((JavaMethodSorter.mapGet cg b.name).map
        (fun s => s.contains a.name)).getD false = false →
      opts.sortingStrategy = "depth-first".data →
      JavaMethodSorter.compareByInvocation opts cg a b =
        (if (JavaMethodSorter.transitivelyCallsMethod cg
              (JavaMethodSorter.graphFuel cg) a.name b.name []).1 then -1
         else if (JavaMethodSorter.transitivelyCallsMethod cg
              (JavaMethodSorter.graphFuel cg) b.name a.name []).1 then 1
         else 0)) ∧
    (∀ (opts : SortingOptions) (cg : List (List Char × List (List Char)))
        (a b : JavaMethod),
      ((JavaMethodSorter.mapGet cg a.name).map
        (fun s => s.contains b.name)).getD false = false →
      ((JavaMethodSorter.mapGet cg b.name).map
        (fun s => s.contains a.name)).getD false = false →
      opts.sortingStrategy ≠ "depth-first".data →
      JavaMethodSorter.compareByInvocation opts cg a b = 0) := by
  refine ⟨JavaMethodSorter.buildCallGraph_spec, ?_, ?_, ?_, ?_⟩
  · intro opts cg a b h1
    simp at h1
    simp [JavaMethodSorter.compareByInvocation, h1]
  · intro opts cg a b h1 h2
    simp at h1 h2
    simp [JavaMethodSorter.compareByInvocation, h1, h2]
  · intro opts cg a b h1 h2 h3
    simp at h1 h2
    simp [JavaMethodSorter.compareByInvocation, h1, h2, h3]
  · intro opts cg a b h1 h2 h3
    simp at h1 h2
    simp [JavaMethodSorter.compareByInvocation, h1, h2, h3]

/-- C9, witness: the direct-edge rule applied on the parsed cycle class. -/
theorem claim_C9_witness :
    JavaMethodSorter.compareByInvocation optsInvBF
      (JavaMethodSorter.buildCallGraph (parseMethods srcCycle3))
      ((parseMethods srcCycle3).getD 0 JavaMethodSorter.dfltMethod)
      ((parseMethods srcCycle3).getD 1 JavaMethodSorter.dfltMethod) = -1 :=
  claim_C9.2.1 optsInvBF
    (JavaMethodSorter.buildCallGraph (parseMethods srcCycle3))
    ((parseMethods srcCycle3).getD 0 JavaMethodSorter.dfltMethod)
    ((parseMethods srcCycle3).getD 1 JavaMethodSorter.dfltMethod)
    (by decide)

/-! ## Comparator lawfulness: criteria keys, lexicographic combination,
and the total-order properties of `compareMethodsFull` without the
invocation criterion -/

namespace JavaMethodSorter

lemma LawfulCmp.zero_symm {f} (hf : LawfulCmp f) {a b : JavaMethod}
    (h : f a b = 0) : f b a = 0 := by
  have h1 := hf.1 a b
  have h2 := hf.1 b a
  omega

lemma lawful_congr {f g} (h : ∀ a b, f a b = g a b) (hg : LawfulCmp g) :
    LawfulCmp f := by
  obtain ⟨g1, g2, g3, g4⟩ := hg
  refine ⟨?_, ?_, ?_, ?_⟩ <;> intro a b <;> simp only [h]
  · exact g1 a b
  · intro c
    exact g2 a b c
  · intro c
    exact g3 a b c
  · intro c
    exact g4 a b c

lemma lawful_of_keyCmp {κ : Type} (F : κ → κ → Int) (k : JavaMethod → κ)
    (hswap : ∀ x y, F x y = - F y x)
    (hzero : ∀ x y, F x y = 0 → x = y)
    (htrans : ∀ x y z, F x y ≤ 0 → F y z ≤ 0 → F x z ≤ 0) :
    LawfulCmp (fun a b => F (k a) (k b)) := by
  refine ⟨?_, ?_, ?_, ?_⟩
  · intro a b
    show F (k a) (k b) < 0 ↔ F (k b) (k a) > 0
    have := hswap (k a) (k b)
    omega
  · intro a b c h1 h2
    exact htrans _ _ _ h1 h2
  · intro a b c h1 h2
    show F (k a) (k c) < 0
    have h3 := htrans _ _ _ (le_of_lt h1) h2
    rcases lt_or_eq_of_le h3 with h4 | h4
    · exact h4
    · have h5 := hzero _ _ h4
      have h1b : F (k a) (k b) < 0 := h1
      rw [h5] at h1b
      have := hswap (k c) (k b)
      have h2b : F (k b) (k c) ≤ 0 := h2
      omega
  · intro a b c h1 h2
    show F (k a) (k c) < 0
    have h3 := htrans _ _ _ h1 (le_of_lt h2)
    rcases lt_or_eq_of_le h3 with h4 | h4
    · exact h4
    · have h5 := hzero _ _ h4
      have h2b : F (k b) (k c) < 0 := h2
      rw [← h5] at h2b
      have := hswap (k a) (k b)
      have h1b : F (k a) (k b) ≤ 0 := h1
      omega

lemma cmpChars_swap : ∀ a b : List Char, cmpChars a b = - cmpChars b a := by
  intro a
  induction a with
  | nil => intro b; cases b <;> simp [cmpChars]
  | cons x xs ih =>
    intro b
    cases b with
    | nil => simp [cmpChars]
    | cons y ys =>
      simp only [cmpChars]
      rcases lt_trichotomy x y with h | h | h
      · rw [if_pos h, if_neg (not_lt_of_lt h), if_pos h]
      · subst h
        rw [if_neg (lt_irrefl x), if_neg (lt_irrefl x), if_neg (lt_irrefl x),
          if_neg (lt_irrefl x)]
        exact ih ys
      · rw [if_neg (not_lt_of_lt h), if_pos h, if_pos h]
        norm_num

lemma cmpChars_zero : ∀ a b : List Char, cmpChars a b = 0 → a = b := by
  intro a
  induction a with
  | nil => intro b h; cases b <;> simp_all [cmpChars]
  | cons x xs ih =>
    intro b h
    cases b with
    | nil => simp [cmpChars] at h
    | cons y ys =>
      simp only [cmpChars] at h
      rcases lt_trichotomy x y with hx | hx | hx
      · rw [if_pos hx] at h
        omega
      · subst hx
        rw [if_neg (lt_irrefl x), if_neg (lt_irrefl x)] at h
        rw [ih ys h]
      · rw [if_neg (not_lt_of_lt hx), if_pos hx] at h
        omega

lemma cmpChars_trans_le : ∀ a b c : List Char,
    cmpChars a b ≤ 0 → cmpChars b c ≤ 0 → cmpChars a c ≤ 0 := by
  intro a
  induction a with
  | nil => intro b c _ _; cases c <;> simp [cmpChars]
  | cons x xs ih =>
    intro b c h1 h2
    cases b with
    | nil => simp [cmpChars] at h1
    | cons y ys =>
      cases c with
      | nil => simp [cmpChars] at h2
      | cons z zs =>
        simp only [cmpChars] at h1 h2 ⊢
        rcases lt_trichotomy x y with hxy | hxy | hxy
        · rcases lt_trichotomy y z with hyz | hyz | hyz
          · rw [if_pos (lt_trans hxy hyz)]; omega
          · subst hyz; rw [if_pos hxy]; omega
          · rw [if_neg (not_lt_of_lt hyz), if_pos hyz] at h2; omega
        · subst hxy
          rcases lt_trichotomy x z with hxz | hxz | hxz
          · rw [if_pos hxz]; omega
          · subst hxz
            rw [if_neg (lt_irrefl x), if_neg (lt_irrefl x)] at h1 h2 ⊢
            exact ih ys zs h1 h2
          · rw [if_neg (not_lt_of_lt hxz), if_pos hxz] at h2; omega
        · rw [if_neg (not_lt_of_lt hxy), if_pos hxy] at h1; omega

lemma lexCombine_zero {f g : JavaMethod → JavaMethod → Int} {a b : JavaMethod}
    (h : lexCombine f g a b = 0) : f a b = 0 ∧ g a b = 0 := by
  unfold lexCombine at h
  by_cases hf : f a b = 0
  · rw [if_neg (by simpa using hf)] at h
    exact ⟨hf, h⟩
  · rw [if_pos (by simpa using hf)] at h
    exact absurd h hf

lemma lexCombine_lawful {f g : JavaMethod → JavaMethod → Int}
    (hf : LawfulCmp f) (hg : LawfulCmp g) : LawfulCmp (lexCombine f g) := by
  have hle : ∀ a b, lexCombine f g a b ≤ 0 ↔
      f a b < 0 ∨ (f a b = 0 ∧ g a b ≤ 0) := by
    intro a b
    unfold lexCombine
    by_cases h : f a b = 0
    · rw [if_neg (by simpa using h)]
      simp [h]
    · rw [if_pos (by simpa using h)]
      omega
  have hlt : ∀ a b, lexCombine f g a b < 0 ↔
      f a b < 0 ∨ (f a b = 0 ∧ g a b < 0) := by
    intro a b
    unfold lexCombine
    by_cases h : f a b = 0
    · rw [if_neg (by simpa using h)]
      simp [h]
    · rw [if_pos (by simpa using h)]
      omega
  have hgt : ∀ a b, lexCombine f g a b > 0 ↔
      f a b > 0 ∨ (f a b = 0 ∧ g a b > 0) := by
    intro a b
    unfold lexCombine
    by_cases h : f a b = 0
    · rw [if_neg (by simpa using h)]
      simp [h]
    · rw [if_pos (by simpa using h)]
      omega
  refine ⟨?_, ?_, ?_, ?_⟩
  · intro a b
    rw [hlt, hgt]
    constructor
    · rintro (h | ⟨h0, h⟩)
      · exact Or.inl ((hf.1 a b).mp h)
      · exact Or.inr ⟨hf.zero_symm h0, (hg.1 a b).mp h⟩
    · rintro (h | ⟨h0, h⟩)
      · left
        have := hf.1 a b
        omega
      · right
        refine ⟨hf.zero_symm h0, ?_⟩
        have := hg.1 a b
        omega
  · intro a b c h1 h2
    rw [hle] at h1 h2 ⊢
    rcases h1 with h1 | ⟨h1z, h1g⟩
    · rcases h2 with h2 | ⟨h2z, h2g⟩
      · exact Or.inl (hf.2.2.1 a b c h1 (le_of_lt h2))
      · exact Or.inl (hf.2.2.1 a b c h1 (le_of_eq h2z))
    · rcases h2 with h2 | ⟨h2z, h2g⟩
      · exact Or.inl (hf.2.2.2 a b c (le_of_eq h1z) h2)
      · have hfz := hf.2.1 a b c (le_of_eq h1z) (le_of_eq h2z)
        rcases lt_or_eq_of_le hfz with h | h
        · exact Or.inl h
        · exact Or.inr ⟨h, hg.2.1 a b c h1g h2g⟩
  · intro a b c h1 h2
    rw [hlt] at h1 ⊢
    rw [hle] at h2
    rcases h1 with h1 | ⟨h1z, h1g⟩
    · rcases h2 with h2 | ⟨h2z, h2g⟩
      · exact Or.inl (hf.2.2.1 a b c h1 (le_of_lt h2))
      · exact Or.inl (hf.2.2.1 a b c h1 (le_of_eq h2z))
    · rcases h2 with h2 | ⟨h2z, h2g⟩
      · exact Or.inl (hf.2.2.2 a b c (le_of_eq h1z) h2)
      · have hfz := hf.2.1 a b c (le_of_eq h1z) (le_of_eq h2z)
        rcases lt_or_eq_of_le hfz with h | h
        · exact Or.inl h
        · exact Or.inr ⟨h, hg.2.2.1 a b c h1g h2g⟩
  · intro a b c h1 h2
    rw [hlt] at h2 ⊢
    rw [hle] at h1
    rcases h1 with h1 | ⟨h1z, h1g⟩
    · rcases h2 with h2 | ⟨h2z, h2g⟩
      · exact Or.inl (hf.2.2.1 a b c h1 (le_of_lt h2))
      · exact Or.inl (hf.2.2.1 a b c h1 (le_of_eq h2z))
    · rcases h2 with h2 | ⟨h2z, h2g⟩
      · exact Or.inl (hf.2.2.2 a b c (le_of_eq h1z) h2)
      · have hfz := hf.2.1 a b c (le_of_eq h1z) (le_of_eq h2z)
        rcases lt_or_eq_of_le hfz with h | h
        · exact Or.inl h
        · exact Or.inr ⟨h, hg.2.2.2 a b c h1g h2g⟩

end JavaMethodSorter

namespace JavaMethodSorter

lemma cmpInt_swap (x y : Int) : cmpInt x y = - cmpInt y x := by
  unfold cmpInt
  split_ifs <;> omega

lemma cmpInt_zero (x y : Int) : cmpInt x y = 0 → x = y := by
  intro h
  unfold cmpInt at h
  split_ifs at h <;> omega

lemma cmpInt_trans_le (x y z : Int) :
    cmpInt x y ≤ 0 → cmpInt y z ≤ 0 → cmpInt x z ≤ 0 := by
  intro h1 h2
  unfold cmpInt at h1 h2 ⊢
  split_ifs at * <;> omega

lemma cmpCtor_eq_key (opts : SortingOptions) (a b : JavaMethod) :
    cmpCtor opts a b = cmpInt (ctorKey opts a) (ctorKey opts b) := by
  unfold cmpCtor ctorKey cmpInt
  cases hs : opts.separateConstructors <;>
    cases ha : a.isConstructor <;> cases hb : b.isConstructor <;> simp

lemma cmpStatic_eq_key (a b : JavaMethod) :
    cmpStatic a b = cmpInt (staticKey a) (staticKey b) := by
  unfold cmpStatic staticKey cmpInt
  cases ha : a.isStatic <;> cases hb : b.isStatic <;> simp

lemma cmpCtor_lawful (opts : SortingOptions) : LawfulCmp (cmpCtor opts) := by
  apply lawful_congr (cmpCtor_eq_key opts)
  exact lawful_of_keyCmp cmpInt (ctorKey opts) cmpInt_swap cmpInt_zero cmpInt_trans_le

lemma cmpStatic_lawful : LawfulCmp cmpStatic := by
  apply lawful_congr cmpStatic_eq_key
  exact lawful_of_keyCmp cmpInt staticKey cmpInt_swap cmpInt_zero cmpInt_trans_le

lemma cmpAccess_lawful (opts : SortingOptions) : LawfulCmp (cmpAccess opts) := by
  cases h : opts.separateByAccessLevel
  · apply lawful_congr (g := fun a b => cmpInt 0 0)
    · intro a b
      simp [cmpAccess, h, cmpInt]
    · exact lawful_of_keyCmp cmpInt (fun _ => 0) cmpInt_swap cmpInt_zero cmpInt_trans_le
  · apply lawful_congr (g := fun a b =>
      (fun x y => x - y) (a.accessLevel.val) (b.accessLevel.val))
    · intro a b
      simp [cmpAccess, h]
    · apply lawful_of_keyCmp (fun x y => x - y) (fun m => m.accessLevel.val)
      · intro x y; omega
      · intro x y; omega
      · intro x y z; omega

lemma cmpLex_lawful (opts : SortingOptions) : LawfulCmp (cmpLex opts) := by
  cases h : opts.applyLexicalOrdering
  · apply lawful_congr (g := fun a b => cmpInt 0 0)
    · intro a b
      simp [cmpLex, h, cmpInt]
    · exact lawful_of_keyCmp cmpInt (fun _ => 0) cmpInt_swap cmpInt_zero cmpInt_trans_le
  · apply lawful_congr (g := fun a b => cmpChars a.name b.name)
    · intro a b
      simp [cmpLex, h]
    · apply lawful_of_keyCmp cmpChars (fun m => m.name)
      · exact cmpChars_swap
      · exact cmpChars_zero
      · exact cmpChars_trans_le

lemma cmpPos_lawful : LawfulCmp cmpPos := by
  apply lawful_of_keyCmp (fun x y => x - y) (fun m => m.originalPosition)
  · intro x y; omega
  · intro x y; omega
  · intro x y z; omega

lemma chainCmp_lawful (opts : SortingOptions) : LawfulCmp (chainCmp opts) := by
  unfold chainCmp
  exact lexCombine_lawful (cmpCtor_lawful opts)
    (lexCombine_lawful cmpStatic_lawful
      (lexCombine_lawful (cmpAccess_lawful opts)
        (lexCombine_lawful (cmpLex_lawful opts) cmpPos_lawful)))

set_option maxHeartbeats 2000000 in
lemma compareMethodsFull_eq_chain (opts : SortingOptions)
    (cg : List (List Char × List (List Char)))
    (hinv : opts.respectBeforeAfterRelation = false) (a b : JavaMethod) :
    compareMethodsFull opts cg a b = chainCmp opts a b := by
  obtain ⟨strat, awl, rbar, cov, cgs, acc, sep, lex⟩ := opts
  simp only at hinv
  subst hinv
  unfold compareMethodsFull chainCmp lexCombine cmpCtor cmpStatic cmpAccess cmpLex cmpPos
  cases sep <;> cases acc <;> cases lex <;>
    cases haC : a.isConstructor <;> cases hbC : b.isConstructor <;>
      cases haS : a.isStatic <;> cases hbS : b.isStatic <;>
        simp only [haC, hbC, haS, hbS, Bool.false_and, Bool.and_false,
          Bool.and_true, Bool.true_and, Bool.and_self, Bool.not_true,
          Bool.not_false, if_true, if_false, Bool.false_eq_true,
          Bool.true_eq_false, ite_false, ite_true] <;>
        first
          | rfl
          | (by_cases hd : a.accessLevel.val - b.accessLevel.val = 0 <;>
              by_cases hl : cmpChars a.name b.name = 0 <;>
              simp [hd, hl])

end JavaMethodSorter

/-- C2, amended: with `respectBeforeAfterRelation` disabled, the
comparator is sign-antisymmetric, returns zero only on position-equal
methods (hence non-zero on every pair with distinct `originalPosition`),
and is transitive in both the strict and the non-strict sense — a total
order with the positional tie-break. -/
theorem claim_C2_amended (opts : SortingOptions)
    (cg : List (List Char × List (List Char))) (a b c : JavaMethod)
    (hinv : opts.respectBeforeAfterRelation = false) :
    (JavaMethodSorter.compareMethodsFull opts cg a b < 0 ↔
      JavaMethodSorter.compareMethodsFull opts cg b a > 0) ∧
    (a.originalPosition ≠ b.originalPosition →
      JavaMethodSorter.compareMethodsFull opts cg a b ≠ 0) ∧
    (JavaMethodSorter.compareMethodsFull opts cg a b ≤ 0 →
      JavaMethodSorter.compareMethodsFull opts cg b c ≤ 0 →
      JavaMethodSorter.compareMethodsFull opts cg a c ≤ 0) ∧
    (JavaMethodSorter.compareMethodsFull opts cg a b < 0 →
      JavaMethodSorter.compareMethodsFull opts cg b c < 0 →
      JavaMethodSorter.compareMethodsFull opts cg a c < 0) := by
  have hL := JavaMethodSorter.chainCmp_lawful opts
  have he := JavaMethodSorter.compareMethodsFull_eq_chain opts cg hinv
  refine ⟨?_, ?_, ?_, ?_⟩
  · rw [he a b, he b a]
    exact hL.1 a b
  · intro hpos h0
    rw [he a b] at h0
    unfold JavaMethodSorter.chainCmp at h0
    obtain ⟨h1, h0⟩ := JavaMethodSorter.lexCombine_zero h0
    obtain ⟨h2, h0⟩ := JavaMethodSorter.lexCombine_zero h0
    obtain ⟨h3, h0⟩ := JavaMethodSorter.lexCombine_zero h0
    obtain ⟨h4, h0⟩ := JavaMethodSorter.lexCombine_zero h0
    unfold JavaMethodSorter.cmpPos at h0
    omega
  · rw [he a b, he b c, he a c]
    exact hL.2.1 a b c
  · rw [he a b, he b c, he a c]
    intro h1 h2
    exact hL.2.2.1 a b c h1 (le_of_lt h2)

/-- C2, amended, witness: antisymmetry at two concrete methods with
distinct positions under the scenario options. -/
theorem claim_C2_amended_witness :
    JavaMethodSorter.compareMethodsFull optsScenario []
        JavaMethodSorter.dfltMethod
        { JavaMethodSorter.dfltMethod with originalPosition := 1 } < 0 ↔
    JavaMethodSorter.compareMethodsFull optsScenario []
        { JavaMethodSorter.dfltMethod with originalPosition := 1 }
        JavaMethodSorter.dfltMethod > 0 :=
  (claim_C2_amended optsScenario [] JavaMethodSorter.dfltMethod
    { JavaMethodSorter.dfltMethod with originalPosition := 1 }
    JavaMethodSorter.dfltMethod rfl).1

namespace JavaMethodSorter

universe u
variable {α : Type u}

lemma mergeJS_nil (le : α → α → Bool) (l2 : List α) : mergeJS le [] l2 = l2 := rfl

lemma mergeJS_nil_right (le : α → α → Bool) (a : α) (as : List α) :
    mergeJS le (a :: as) [] = a :: as := rfl

lemma mergeJS_cons_cons (le : α → α → Bool) (a b : α) (as bs : List α) :
    mergeJS le (a :: as) (b :: bs) =
      if le a b then a :: mergeJS le as (b :: bs)
      else b :: mergeJS le (a :: as) bs := rfl

lemma mergeJS_perm (le : α → α → Bool) :
    ∀ l1 l2, List.Perm (mergeJS le l1 l2) (l1 ++ l2) := by
  intro l1
  induction l1 with
  | nil => intro l2; simp [mergeJS_nil]
  | cons a as ih =>
    intro l2
    induction l2 with
    | nil => simp [mergeJS_nil_right]
    | cons b bs ih2 =>
      rw [mergeJS_cons_cons]
      by_cases h : le a b = true
      · rw [if_pos h]
        exact (ih (b :: bs)).cons a
      · rw [if_neg h]
        refine (ih2.cons b).trans ?_
        exact (List.perm_middle).symm

lemma mergeJS_pairwise {R : α → α → Prop}
    (htrans : ∀ x y z, R x y → R y z → R x z) (le : α → α → Bool)
    (hle : ∀ a b, le a b = true → R a b)
    (hgt : ∀ a b, le a b = false → R b a) :
    ∀ l1 l2, l1.Pairwise R → l2.Pairwise R →
      (mergeJS le l1 l2).Pairwise R := by
  intro l1
  induction l1 with
  | nil => intro l2 _ h2; simpa [mergeJS_nil] using h2
  | cons a as ih =>
    intro l2
    induction l2 with
    | nil => intro h1 _; simpa [mergeJS_nil_right] using h1
    | cons b bs ih2 =>
      intro h1 h2
      rw [mergeJS_cons_cons]
      by_cases h : le a b = true
      · rw [if_pos h]
        refine List.Pairwise.cons ?_ (ih (b :: bs) (List.Pairwise.sublist (List.sublist_cons_self a as) h1) h2)
        intro x hx
        have hx2 := (mergeJS_perm le as (b :: bs)).mem_iff.mp hx
        rcases List.mem_append.mp hx2 with hx3 | hx3
        · exact (List.pairwise_cons.mp h1).1 x hx3
        · rcases List.mem_cons.mp hx3 with hx4 | hx4
          · rw [hx4]
            exact hle a b h
          · exact htrans a b x (hle a b h) ((List.pairwise_cons.mp h2).1 x hx4)
      · rw [if_neg h]
        refine List.Pairwise.cons ?_ (ih2 h1 (List.Pairwise.sublist (List.sublist_cons_self b bs) h2))
        intro x hx
        have hx2 := (mergeJS_perm le (a :: as) bs).mem_iff.mp hx
        rcases List.mem_append.mp hx2 with hx3 | hx3
        · rcases List.mem_cons.mp hx3 with hx4 | hx4
          · rw [hx4]
            exact hgt a b (by simpa using h)
          · exact htrans b a x (hgt a b (by simpa using h))
              ((List.pairwise_cons.mp h1).1 x hx4)
        · exact (List.pairwise_cons.mp h2).1 x hx3

lemma mergeSortFuel_perm (le : α → α → Bool) :
    ∀ fuel (l : List α), List.Perm (mergeSortFuel le fuel l) l := by
  intro fuel
  induction fuel with
  | zero => intro l; exact List.Perm.refl l
  | succ fuel ih =>
    intro l
    unfold mergeSortFuel
    by_cases h : l.length ≤ 1
    · rw [if_pos h]
    · rw [if_neg h]
      refine (mergeJS_perm le _ _).trans ?_
      refine ((ih (l.take (l.length / 2))).append (ih (l.drop (l.length / 2)))).trans ?_
      rw [List.take_append_drop]

lemma mergeSortFuel_pairwise {R : α → α → Prop}
    (htrans : ∀ x y z, R x y → R y z → R x z) (le : α → α → Bool)
    (hle : ∀ a b, le a b = true → R a b)
    (hgt : ∀ a b, le a b = false → R b a) :
    ∀ fuel (l : List α), l.length ≤ fuel →
      (mergeSortFuel le fuel l).Pairwise R := by
  intro fuel
  induction fuel with
  | zero =>
    intro l hl
    rw [Nat.le_zero, List.length_eq_zero] at hl
    subst hl
    exact List.Pairwise.nil
  | succ fuel ih =>
    intro l hl
    unfold mergeSortFuel
    by_cases h : l.length ≤ 1
    · rw [if_pos h]
      match l, h with
      | [], _ => exact List.Pairwise.nil
      | [x], _ => exact List.pairwise_singleton R x
    · rw [if_neg h]
      apply mergeJS_pairwise htrans le hle hgt
      · apply ih
        rw [List.length_take]
        omega
      · apply ih
        rw [List.length_drop]
        omega

lemma mergeSortJS_perm (le : α → α → Bool) (l : List α) :
    List.Perm (mergeSortJS le l) l :=
  mergeSortFuel_perm le l.length l

lemma mergeSortJS_pairwise {R : α → α → Prop}
    (htrans : ∀ x y z, R x y → R y z → R x z) (le : α → α → Bool)
    (hle : ∀ a b, le a b = true → R a b)
    (hgt : ∀ a b, le a b = false → R b a) (l : List α) :
    (mergeSortJS le l).Pairwise R :=
  mergeSortFuel_pairwise htrans le hle hgt l.length l (le_refl _)

end JavaMethodSorter

namespace JavaMethodSorter

lemma ctorStaticOrder_trans (opts : SortingOptions) (x y z : JavaMethod)
    (h1 : ctorStaticOrder opts x y) (h2 : ctorStaticOrder opts y z) :
    ctorStaticOrder opts x z := by
  unfold ctorStaticOrder at *
  omega

set_option maxHeartbeats 2000000 in
lemma compareMethodsFull_peel (opts : SortingOptions)
    (cg : List (List Char × List (List Char))) (a b : JavaMethod) :
    compareMethodsFull opts cg a b =
      lexCombine (cmpCtor opts) (lexCombine cmpStatic (restCmp opts cg)) a b := by
  unfold compareMethodsFull lexCombine cmpCtor cmpStatic restCmp
  cases hsep : opts.separateConstructors <;>
    cases haC : a.isConstructor <;> cases hbC : b.isConstructor <;>
      cases haS : a.isStatic <;> cases hbS : b.isStatic <;>
        simp only [hsep, haC, hbC, haS, hbS, Bool.false_and, Bool.and_false,
          Bool.and_true, Bool.true_and, Bool.and_self, Bool.not_true,
          Bool.not_false, if_true, if_false, Bool.false_eq_true,
          Bool.true_eq_false, ite_false, ite_true] <;>
        rfl

lemma compareMethodsFull_le_cso (opts : SortingOptions)
    (cg : List (List Char × List (List Char))) (a b : JavaMethod)
    (h : compareMethodsFull opts cg a b ≤ 0) : ctorStaticOrder opts a b := by
  rw [compareMethodsFull_peel] at h
  unfold lexCombine at h
  unfold ctorStaticOrder
  by_cases h1 : cmpCtor opts a b = 0
  · rw [if_neg (by simpa using h1)] at h
    have hk1 := cmpInt_zero _ _ ((cmpCtor_eq_key opts a b).symm.trans h1)
    by_cases h2 : cmpStatic a b = 0
    · have hk2 := cmpInt_zero _ _ ((cmpStatic_eq_key a b).symm.trans h2)
      exact Or.inr ⟨hk1, le_of_eq hk2⟩
    · rw [if_pos (by simpa using h2)] at h
      have hs : cmpInt (staticKey a) (staticKey b) ≤ 0 := by
        rw [← cmpStatic_eq_key]; exact h
      right
      refine ⟨hk1, ?_⟩
      unfold cmpInt at hs
      split_ifs at hs <;> omega
  · rw [if_pos (by simpa using h1)] at h
    have hc : cmpInt (ctorKey opts a) (ctorKey opts b) ≠ 0 := by
      rw [← cmpCtor_eq_key]; exact h1
    have hc2 : cmpInt (ctorKey opts a) (ctorKey opts b) ≤ 0 := by
      rw [← cmpCtor_eq_key]; exact h
    left
    unfold cmpInt at hc hc2
    split_ifs at hc hc2 <;> omega

lemma compareMethodsFull_pos_cso (opts : SortingOptions)
    (cg : List (List Char × List (List Char))) (a b : JavaMethod)
    (h : ¬ compareMethodsFull opts cg a b ≤ 0) : ctorStaticOrder opts b a := by
  rw [compareMethodsFull_peel] at h
  unfold lexCombine at h
  unfold ctorStaticOrder
  by_cases h1 : cmpCtor opts a b = 0
  · rw [if_neg (by simpa using h1)] at h
    have hk1 := cmpInt_zero _ _ ((cmpCtor_eq_key opts a b).symm.trans h1)
    by_cases h2 : cmpStatic a b = 0
    · have hk2 := cmpInt_zero _ _ ((cmpStatic_eq_key a b).symm.trans h2)
      exact Or.inr ⟨hk1.symm, le_of_eq hk2.symm⟩
    · rw [if_pos (by simpa using h2)] at h
      have hs : ¬ cmpInt (staticKey a) (staticKey b) ≤ 0 := by
        rw [← cmpStatic_eq_key]; exact h
      right
      refine ⟨hk1.symm, ?_⟩
      unfold cmpInt at hs
      split_ifs at hs <;> omega
  · rw [if_pos (by simpa using h1)] at h
    have hc : ¬ cmpInt (ctorKey opts a) (ctorKey opts b) ≤ 0 := by
      rw [← cmpCtor_eq_key]; exact h
    left
    unfold cmpInt at hc
    split_ifs at hc <;> omega

end JavaMethodSorter

/-- C7, amended: with both clustering passes disabled, the output of
`sortMethods` is pairwise ordered so that a static method never follows a
non-static one except when the enabled constructor rule differentiates
the pair. -/
theorem claim_C7_amended (opts : SortingOptions) (methods : List JavaMethod)
    (h1 : opts.clusterOverloadedMethods = false)
    (h2 : opts.clusterGetterSetter = false) :
    (JavaMethodSorter.sortMethods opts methods).Pairwise (fun a b =>
      (opts.separateConstructors = true ∧ a.isConstructor ≠ b.isConstructor) ∨
      (b.isStatic = true → a.isStatic = true)) := by
  unfold JavaMethodSorter.sortMethods
  rw [h1, h2]
  simp only [if_false, ite_false, Bool.false_eq_true]
  have hPair : (JavaMethodSorter.mergeSortJS
      (fun a b => decide (JavaMethodSorter.compareMethodsFull opts
        (JavaMethodSorter.buildCallGraph methods) a b ≤ 0)) methods).Pairwise
      (JavaMethodSorter.ctorStaticOrder opts) := by
    apply JavaMethodSorter.mergeSortJS_pairwise
      (JavaMethodSorter.ctorStaticOrder_trans opts)
    · intro a b hab
      rw [decide_eq_true_eq] at hab
      exact JavaMethodSorter.compareMethodsFull_le_cso opts _ a b hab
    · intro a b hab
      rw [decide_eq_false_iff_not] at hab
      exact JavaMethodSorter.compareMethodsFull_pos_cso opts _ a b hab
  refine List.Pairwise.imp ?_ hPair
  intro a b hab
  unfold JavaMethodSorter.ctorStaticOrder JavaMethodSorter.ctorKey
    JavaMethodSorter.staticKey at hab
  cases hsep : opts.separateConstructors <;>
    cases haC : a.isConstructor <;> cases hbC : b.isConstructor <;>
      cases haS : a.isStatic <;> cases hbS : b.isStatic <;>
        simp only [hsep, haC, hbC, haS, hbS, Bool.false_and, Bool.and_false,
          Bool.and_true, Bool.true_and, Bool.and_self, Bool.false_eq_true,
          Bool.true_eq_false, if_true, if_false, ite_true, ite_false] at hab <;>
        simp [hsep, haC, hbC, haS, hbS] <;> simp at hab

/-- C7, amended, witness: applied to the parsed overload class with all
boolean options off. -/
theorem claim_C7_amended_witness :
    (JavaMethodSorter.sortMethods optsAll0 (parseMethods srcOverload)).Pairwise
      (fun a b =>
        (optsAll0.separateConstructors = true ∧
          a.isConstructor ≠ b.isConstructor) ∨
        (b.isStatic = true → a.isStatic = true)) :=
  claim_C7_amended optsAll0 (parseMethods srcOverload) rfl rfl

namespace JavaParser

/-- Soundness of the character scan behind `indexOfFrom`. -/
lemma iofGo_sound (c : Char) (s : List Char) :
    ∀ l i j, iofGo c l i = some j → s.drop i = l →
      i ≤ j ∧ j < s.length ∧ s.getD j (Char.ofNat 0) = c := by
  intro l
  induction l with
  | nil => intro i j h _; simp [iofGo] at h
  | cons x xs ih =>
    intro i j h hdrop
    have hi : i < s.length := by
      by_contra hge
      rw [List.drop_eq_nil_of_le (by omega)] at hdrop
      exact (List.cons_ne_nil x xs) hdrop.symm
    have hx0 : s[i]? = some x := by
      have h0 : (s.drop i)[0]? = s[i + 0]? := List.getElem?_drop s i 0
      rw [hdrop] at h0
      simpa using h0.symm
    unfold iofGo at h
    by_cases hx : (x == c) = true
    · rw [if_pos hx] at h
      obtain rfl : i = j := Option.some.inj h
      refine ⟨le_refl i, hi, ?_⟩
      rw [List.getD_eq_getElem?_getD, hx0]
      simpa using eq_of_beq hx
    · rw [if_neg hx] at h
      have hrest : s.drop (i + 1) = xs := by
        rw [← List.tail_drop, hdrop]
        rfl
      obtain ⟨g1, g2, g3⟩ := ih (i + 1) j h hrest
      exact ⟨by omega, g2, g3⟩

lemma indexOfFrom_sound (l : List Char) (c : Char) (start j : Nat)
    (h : indexOfFrom l c start = some j) :
    start ≤ j ∧ j < l.length ∧ l.getD j (Char.ofNat 0) = c :=
  iofGo_sound c l (l.drop start) start j h rfl

set_option maxHeartbeats 1000000 in
/-- Soundness of the matching-brace state machine: any returned position
is in range, not before the scan start, and holds a closing brace. -/
lemma fmbAux_sound (s : List Char) :
    ∀ fuel l i depth inS inC inL inB prev j,
      fmbAux fuel l i depth inS inC inL inB prev = some j → s.drop i = l →
      i ≤ j ∧ j < s.length ∧ s.getD j (Char.ofNat 0) = rbrace := by
  intro fuel
  induction fuel with
  | zero => intro l i d a b c e p j h _; simp [fmbAux] at h
  | succ fuel ih =>
    intro l i d a b c e p j h hdrop
    cases l with
    | nil => simp [fmbAux] at h
    | cons ch rest =>
      have hi : i < s.length := by
        by_contra hge
        rw [List.drop_eq_nil_of_le (by omega)] at hdrop
        exact (List.cons_ne_nil ch rest) hdrop.symm
      have hch : s.getD i (Char.ofNat 0) = ch := by
        have h0 : (s.drop i)[0]? = s[i + 0]? := List.getElem?_drop s i 0
        rw [hdrop] at h0
        rw [List.getD_eq_getElem?_getD]
        simp at h0
        rw [← h0]
        rfl
      have hrest : s.drop (i + 1) = rest := by
        rw [← List.tail_drop, hdrop]
        rfl
      have hrest2 : s.drop (i + 2) = rest.tail := by
        rw [← List.tail_drop, hrest]
      unfold fmbAux at h
      dsimp only at h
      split_ifs at h
      all_goals first
        | (injection h with hij
           subst hij
           refine ⟨le_refl i, hi, ?_⟩
           rw [hch]
           simp_all only [Bool.and_eq_true, beq_iff_eq])
        | (obtain ⟨g1, g2, g3⟩ := ih _ (i + 1) _ _ _ _ _ _ j h hrest
           exact ⟨by omega, g2, g3⟩)
        | (obtain ⟨g1, g2, g3⟩ := ih _ (i + 2) _ _ _ _ _ _ j h hrest2
           exact ⟨by omega, g2, g3⟩)

lemma findMatchingBrace_sound (s : List Char) (openPos j : Nat)
    (h : findMatchingBrace s openPos = some j) :
    openPos ≤ j ∧ j < s.length ∧ s.getD j (Char.ofNat 0) = rbrace :=
  fmbAux_sound s (s.length + 1) (s.drop openPos) openPos 0 false false false
    false (Char.ofNat 0) j h rfl

/-- A slice that ends just after an in-range position is nonempty and
ends with the character at that position. -/
lemma extract_getLast (l : List Char) (a j : Nat) (ha : a ≤ j)
    (hj : j < l.length) :
    extract l a (j + 1) ≠ [] ∧
      (extract l a (j + 1)).getLast? = some (l.getD j (Char.ofNat 0)) := by
  have hlen : (extract l a (j + 1)).length = j + 1 - a := by
    unfold extract
    rw [List.length_drop, List.length_take]
    omega
  constructor
  · intro hnil
    rw [hnil] at hlen
    simp at hlen
    omega
  · rw [List.getLast?_eq_getElem?, hlen]
    unfold extract
    rw [List.getElem?_drop]
    have hidx : a + (j + 1 - a - 1) = j := by omega
    rw [hidx]
    rw [List.getElem?_take_of_lt (by omega)]
    rw [List.getD_eq_getElem?_getD]
    rw [List.getElem?_eq_getElem hj]
    rfl

/-- Every name the call scanner accumulates avoids the excluded keywords,
and the accumulator stays duplicate-free. -/
lemma ecmLoop_excl (b : List Char) :
    ∀ fuel q acc, (∀ n ∈ acc, ¬ n ∈ excludedKeywords) → acc.Nodup →
      (∀ n ∈ ecmLoop b fuel q acc, ¬ n ∈ excludedKeywords) ∧
        (ecmLoop b fuel q acc).Nodup := by
  intro fuel
  induction fuel with
  | zero => intro q acc hacc hnd; exact ⟨hacc, hnd⟩
  | succ fuel ih =>
    intro q acc hacc hnd
    unfold ecmLoop
    cases hf : findCallFrom b q with
    | none => exact ⟨hacc, hnd⟩
    | some r =>
      obtain ⟨name, mend⟩ := r
      dsimp only
      by_cases hc :
          (excludedKeywords.contains name || acc.contains name) = true
      · rw [if_pos hc]
        exact ih mend acc hacc hnd
      · rw [if_neg hc]
        rw [Bool.or_eq_true, not_or] at hc
        refine ih mend (acc ++ [name]) ?_ ?_
        · intro n hn
          rcases List.mem_append.mp hn with hl | hr
          · exact hacc n hl
          · obtain rfl : n = name := List.mem_singleton.mp hr
            intro hmem
            exact hc.1 (List.contains_iff_exists_mem_beq.mpr
              ⟨n, hmem, by simp⟩)
        · rw [List.nodup_append]
          refine ⟨hnd, List.nodup_singleton name, ?_⟩
          intro x hx hx2
          obtain rfl : x = name := List.mem_singleton.mp hx2
          exact hc.2 (List.contains_iff_exists_mem_beq.mpr
            ⟨x, hx, by simp⟩)

lemma extractCalledMethods_excl (b : List Char) :
    (∀ n ∈ extractCalledMethods b, ¬ n ∈ excludedKeywords) ∧
      (extractCalledMethods b).Nodup :=
  ecmLoop_excl b (b.length + 1) 0 [] (by simp) (by simp)

lemma createMethodFromAbstract_shape (s declaration name lead cn : List Char)
    (startPos semi : Nat) (hsemi : indexOfFrom s ';' startPos = some semi) :
    MethodShape (createMethodFromAbstract s declaration name startPos
      (semi + 1) lead cn) := by
  obtain ⟨h1, h2, h3⟩ := indexOfFrom_sound s ';' startPos semi hsemi
  refine ⟨Or.inr ?_, List.nodup_nil, by simp [createMethodFromAbstract]⟩
  show (extract s startPos (semi + 1)).getLast? = some ';'
  rw [(extract_getLast s startPos semi h1 h2).2, h3]

lemma createMethod_shape (s declaration name lead cn : List Char)
    (startPos bodyEnd : Nat) (hle : startPos ≤ bodyEnd)
    (hlt : bodyEnd < s.length)
    (hch : s.getD bodyEnd (Char.ofNat 0) = rbrace) :
    MethodShape (createMethod s declaration name startPos (bodyEnd + 1)
      lead cn) := by
  refine ⟨Or.inl ?_, ?_, ?_⟩
  · show (extract s startPos (bodyEnd + 1)).getLast? = some rbrace
    rw [(extract_getLast s startPos bodyEnd hle hlt).2, hch]
  · exact (extractCalledMethods_excl _).2
  · exact (extractCalledMethods_excl _).1

/-- Every method built by the extraction loop satisfies the shape
invariant. -/
lemma extractMethodsLoop_shape (s className searchArea : List Char)
    (searchOffset classEnd : Nat) (skips : List SkipRegion) :
    ∀ fuel scanPos lastEnd m,
      m ∈ extractMethodsLoop s className searchArea searchOffset classEnd
        skips fuel scanPos lastEnd → MethodShape m := by
  intro fuel
  induction fuel with
  | zero => intro scanPos lastEnd m hm; simp [extractMethodsLoop] at hm
  | succ fuel ih =>
    intro scanPos lastEnd m hm
    unfold extractMethodsLoop at hm
    cases hfm : findMethodFrom className searchArea scanPos with
    | none => rw [hfm] at hm; simp at hm
    | some mm =>
      rw [hfm] at hm
      dsimp only at hm
      split at hm
      · rename_i hnl
        split at hm
        · exact ih _ _ m hm
        · split at hm
          · split at hm
            · rename_i semi hsemi
              split at hm
              · rcases List.mem_cons.mp hm with rfl | hm2
                · exact createMethodFromAbstract_shape _ _ _ _ _ _ _ hsemi
                · exact ih _ _ m hm2
              · exact ih _ _ m hm
            · exact ih _ _ m hm
          · rename_i bs hbs
            split at hm
            · split at hm
              · rename_i semi hsemi
                split at hm
                · rcases List.mem_cons.mp hm with rfl | hm2
                  · exact createMethodFromAbstract_shape _ _ _ _ _ _ _ hsemi
                  · exact ih _ _ m hm2
                · exact ih _ _ m hm
              · exact ih _ _ m hm
            · split at hm
              · exact ih _ _ m hm
              · split at hm
                · exact ih _ _ m hm
                · rename_i bodyEnd hbe
                  split at hm
                  · exact ih _ _ m hm
                  · rcases List.mem_cons.mp hm with rfl | hm2
                    · obtain ⟨b1, b2, b3⟩ :=
                        indexOfFrom_sound s lbrace _ bs hbs
                      obtain ⟨c1, c2, c3⟩ := findMatchingBrace_sound s bs
                        bodyEnd hbe
                      have hne : bs ≠ bodyEnd := by
                        intro hcontra
                        rw [hcontra, c3] at b3
                        exact absurd b3 (by decide)
                      refine createMethod_shape _ _ _ _ _ _ _ ?_ c2 c3
                      first
                        | omega
                        | (have hne2 : searchOffset + mm.idx ≠ bodyEnd := by
                             intro hcontra
                             rw [beq_iff_eq] at hnl
                             unfold charAtD at hnl
                             rw [hcontra, c3] at hnl
                             exact absurd hnl (by decide)
                           omega)
                    · exact ih _ _ m hm2
      · rename_i hnl
        split at hm
        · exact ih _ _ m hm
        · split at hm
          · split at hm
            · rename_i semi hsemi
              split at hm
              · rcases List.mem_cons.mp hm with rfl | hm2
                · exact createMethodFromAbstract_shape _ _ _ _ _ _ _ hsemi
                · exact ih _ _ m hm2
              · exact ih _ _ m hm
            · exact ih _ _ m hm
          · rename_i bs hbs
            split at hm
            · split at hm
              · rename_i semi hsemi
                split at hm
                · rcases List.mem_cons.mp hm with rfl | hm2
                  · exact createMethodFromAbstract_shape _ _ _ _ _ _ _ hsemi
                  · exact ih _ _ m hm2
                · exact ih _ _ m hm
              · exact ih _ _ m hm
            · split at hm
              · exact ih _ _ m hm
              · split at hm
                · exact ih _ _ m hm
                · rename_i bodyEnd hbe
                  split at hm
                  · exact ih _ _ m hm
                  · rcases List.mem_cons.mp hm with rfl | hm2
                    · obtain ⟨b1, b2, b3⟩ :=
                        indexOfFrom_sound s lbrace _ bs hbs
                      obtain ⟨c1, c2, c3⟩ := findMatchingBrace_sound s bs
                        bodyEnd hbe
                      have hne : bs ≠ bodyEnd := by
                        intro hcontra
                        rw [hcontra, c3] at b3
                        exact absurd b3 (by decide)
                      refine createMethod_shape _ _ _ _ _ _ _ ?_ c2 c3
                      first
                        | omega
                        | (have hne2 : searchOffset + mm.idx ≠ bodyEnd := by
                             intro hcontra
                             rw [beq_iff_eq] at hnl
                             unfold charAtD at hnl
                             rw [hcontra, c3] at hnl
                             exact absurd hnl (by decide)
                           omega)
                    · exact ih _ _ m hm2

lemma assignPositions_shape :
    ∀ (i : Nat) (l : List JavaMethod), (∀ m ∈ l, MethodShape m) →
      ∀ m ∈ assignPositions i l, MethodShape m := by
  intro i l
  induction l generalizing i with
  | nil => intro _ m hm; simp [assignPositions] at hm
  | cons a l ih =>
    intro hl m hm
    unfold assignPositions at hm
    rcases List.mem_cons.mp hm with rfl | hm2
    · have ha := hl a (List.mem_cons_self a l)
      exact ha
    · exact ih (i + 1) (fun x hx => hl x (List.mem_cons_of_mem a hx)) m hm2

lemma extractMethods_shape (s className : List Char)
    (bounds : ClassBodyBounds) :
    ∀ m ∈ extractMethods s className bounds, MethodShape m := by
  intro m hm
  unfold extractMethods at hm
  exact assignPositions_shape 0 _
    (fun x hx => extractMethodsLoop_shape s className _ _ _ _ _ _ _ x hx)
    m hm

/-- Every method of a successfully parsed class satisfies the shape
invariant. -/
lemma parse_shape (s : List Char) (cls : JavaClass)
    (hp : parse s = some cls) : ∀ m ∈ cls.methods, MethodShape m := by
  unfold parse at hp
  cases hcn : findClassName s with
  | none => rw [hcn] at hp; simp at hp
  | some className =>
    rw [hcn] at hp
    dsimp only at hp
    cases hb : findMainClassBody s className with
    | none => rw [hb] at hp; simp at hp
    | some bounds =>
      rw [hb] at hp
      dsimp only at hp
      obtain rfl := Option.some.inj hp
      intro m hm
      exact extractMethods_shape s className bounds m hm


/-- A `charAtD` result other than the default character is in range. -/
lemma charAtD_lt_length (l : List Char) (i : Nat) (c : Char)
    (h : charAtD l i (Char.ofNat 0) = c) (hc : c ≠ Char.ofNat 0) :
    i < l.length := by
  by_contra hge
  rw [not_lt] at hge
  unfold charAtD at h
  rw [List.getD_eq_default _ _ hge] at h
  exact hc h.symm

lemma takeWhile_facts (p : Char → Bool) :
    ∀ l : List Char,
      (l.takeWhile p).length ≤ l.length ∧
      (∀ k, k < (l.takeWhile p).length →
        p (l.getD k (Char.ofNat 0)) = true) ∧
      ((l.takeWhile p).length < l.length →
        p (l.getD (l.takeWhile p).length (Char.ofNat 0)) = false) := by
  intro l
  induction l with
  | nil => exact ⟨le_refl 0, fun k hk => absurd hk (by simp), fun h => absurd h (by simp)⟩
  | cons x xs ih =>
    rw [List.takeWhile_cons]
    by_cases hp : p x = true
    · rw [if_pos hp]
      refine ⟨by simpa using Nat.succ_le_succ ih.1, ?_, ?_⟩
      · intro k hk
        cases k with
        | zero => simpa using hp
        | succ k =>
          simp only [List.length_cons] at hk
          rw [List.getD_cons_succ]
          exact ih.2.1 k (by omega)
      · intro h
        simp only [List.length_cons] at h ⊢
        rw [List.getD_cons_succ]
        exact ih.2.2 (by omega)
    · rw [if_neg hp]
      refine ⟨by simp, fun k hk => absurd hk (by simp), fun _ => ?_⟩
      simpa using hp

lemma getD_drop (l : List Char) (i k : Nat) :
    (l.drop i).getD k (Char.ofNat 0) = l.getD (i + k) (Char.ofNat 0) := by
  rw [List.getD_eq_getElem?_getD, List.getD_eq_getElem?_getD,
    List.getElem?_drop]

lemma runLen_le (p : Char → Bool) (l : List Char) (i : Nat) :
    runLen p l i ≤ l.length - i := by
  unfold runLen
  have h := (takeWhile_facts p (l.drop i)).1
  rw [List.length_drop] at h
  omega

lemma runLen_char (p : Char → Bool) (l : List Char) (i k : Nat)
    (h : k < runLen p l i) : p (charAtD l (i + k) (Char.ofNat 0)) = true := by
  unfold runLen at h
  have := (takeWhile_facts p (l.drop i)).2.1 k h
  rwa [getD_drop] at this

lemma runLen_stop (p : Char → Bool) (l : List Char) (i : Nat)
    (h : i + runLen p l i < l.length) :
    p (charAtD l (i + runLen p l i) (Char.ofNat 0)) = false := by
  unfold runLen at h ⊢
  have hlen : (l.drop i).length = l.length - i := List.length_drop i l
  have := (takeWhile_facts p (l.drop i)).2.2 (by omega)
  rwa [getD_drop] at this

lemma runLen_eq_of (p : Char → Bool) (l : List Char) (i n : Nat)
    (hchars : ∀ k, k < n → p (charAtD l (i + k) (Char.ofNat 0)) = true)
    (hn : i + n < l.length)
    (hstop : p (charAtD l (i + n) (Char.ofNat 0)) = false) :
    runLen p l i = n := by
  by_cases h1 : runLen p l i < n
  · exfalso
    have hs := runLen_stop p l i (by omega)
    have hc := hchars (runLen p l i) h1
    rw [hc] at hs
    exact absurd hs (by simp)
  · by_cases h2 : n < runLen p l i
    · exfalso
      have hc := runLen_char p l i n h2
      rw [hstop] at hc
      exact absurd hc (by simp)
    · omega

lemma begins_facts (d : Char) :
    ∀ pat m : List Char, begins pat m = true →
      pat.length ≤ m.length ∧
      ∀ j, j < pat.length → m.getD j d = pat.getD j d := by
  intro pat
  induction pat with
  | nil => intro m _; exact ⟨by simp, fun j hj => absurd hj (by simp)⟩
  | cons c cs ih =>
    intro m h
    cases m with
    | nil => simp [begins] at h
    | cons x xs =>
      unfold begins at h
      rw [Bool.and_eq_true] at h
      obtain ⟨g1, g2⟩ := ih xs h.2
      refine ⟨by simpa using Nat.succ_le_succ g1, ?_⟩
      intro j hj
      cases j with
      | zero => simpa using (eq_of_beq h.1).symm
      | succ j =>
        rw [List.length_cons] at hj
        simpa using g2 j (by omega)

lemma occursAt_chars (pat l : List Char) (i : Nat)
    (h : occursAt pat l i = true) :
    pat.length ≤ l.length - i ∧
    ∀ j, j < pat.length →
      charAtD l (i + j) (Char.ofNat 0) = charAtD pat j (Char.ofNat 0) := by
  unfold occursAt at h
  obtain ⟨g1, g2⟩ := begins_facts (Char.ofNat 0) pat (l.drop i) h
  rw [List.length_drop] at g1
  constructor
  · omega
  · intro j hj
    unfold charAtD
    rw [← getD_drop]
    exact g2 j hj

lemma charAtD_extract (s : List Char) (a e k : Nat) (h : a + k < e) :
    charAtD (extract s a e) k (Char.ofNat 0) =
      charAtD s (a + k) (Char.ofNat 0) := by
  unfold charAtD extract
  rw [List.getD_eq_getElem?_getD, List.getD_eq_getElem?_getD,
    List.getElem?_drop, List.getElem?_take_of_lt h]

lemma extract_length (s : List Char) (a e : Nat) :
    (extract s a e).length = min e s.length - a := by
  unfold extract
  rw [List.length_drop, List.length_take]

lemma extract_extract (s : List Char) (a e i j : Nat) (h : a + j ≤ e) :
    extract (extract s a e) i j = extract s (a + i) (a + j) := by
  apply List.ext_getElem?
  intro n
  unfold extract
  by_cases h1 : i + n < j
  · rw [List.getElem?_drop, List.getElem?_take_of_lt h1,
      List.getElem?_drop, List.getElem?_take_of_lt (by omega),
      List.getElem?_drop, List.getElem?_take_of_lt (by omega)]
    congr 1
    omega
  · have e1 : ((((s.take e).drop a).take j).drop i)[n]? = none := by
      apply List.getElem?_eq_none
      rw [List.length_drop, List.length_take, List.length_drop,
        List.length_take]
      omega
    have e2 : ((s.take (a + j)).drop (a + i))[n]? = none := by
      apply List.getElem?_eq_none
      rw [List.length_drop, List.length_take]
      omega
    rw [e1, e2]

lemma space_not_word (c : Char) (h : isSpaceJS c = true) :
    isWordChar c = false := by
  unfold isSpaceJS at h
  simp only [Bool.or_eq_true, beq_iff_eq] at h
  rcases h with ((((h | h) | h) | h) | h) | h <;> subst h <;> decide

lemma matchBodyOrSemi_post (sa : List Char) (p e : Nat)
    (h : matchBodyOrSemi sa p = some e) : p < e ∧ e ≤ sa.length := by
  unfold matchBodyOrSemi at h
  dsimp only at h
  split_ifs at h with hc
  obtain rfl := Option.some.inj h
  rw [Bool.or_eq_true] at hc
  have hin : p + runLen isSpaceJS sa p < sa.length := by
    rcases hc with hc | hc
    · exact charAtD_lt_length sa _ _ (eq_of_beq hc) (by decide)
    · exact charAtD_lt_length sa _ _ (eq_of_beq hc) (by decide)
  omega

lemma matchThrowsTail_post (sa : List Char) (p e : Nat)
    (h : matchThrowsTail sa p = some e) : p < e ∧ e ≤ sa.length := by
  unfold matchThrowsTail at h
  dsimp only at h
  split at h
  · rename_i e2 heq
    obtain rfl := Option.some.inj h
    split_ifs at heq with h1 h2 h3 h4
    obtain ⟨g1, g2⟩ := matchBodyOrSemi_post sa _ _ heq
    refine ⟨?_, g2⟩
    omega
  · exact matchBodyOrSemi_post sa p e h

lemma matchParams_post (sa : List Char) (p paren q2 : Nat)
    (h : matchParams sa p = some (paren, q2)) :
    p ≤ paren ∧
    (∀ k, p ≤ k → k < paren → isSpaceJS (charAtD sa k (Char.ofNat 0)) = true) ∧
    charAtD sa paren (Char.ofNat 0) = '(' ∧ paren < q2 ∧ q2 ≤ sa.length := by
  unfold matchParams at h
  dsimp only at h
  split_ifs at h with hc
  split at h
  · exact absurd h (by simp)
  · rename_i j hidx
    have hpair := Option.some.inj h
    injection hpair with hp1 hp2
    subst hp1
    subst hp2
    obtain ⟨i1, i2, _⟩ := indexOfFrom_sound sa ')' _ j hidx
    refine ⟨by omega, ?_, eq_of_beq hc, by omega, by omega⟩
    intro k hk1 hk2
    have := runLen_char isSpaceJS sa p (k - p) (by omega)
    rwa [show p + (k - p) = k by omega] at this

lemma matchFromName_post (className sa : List Char) (p : Nat)
    (hcn : ∀ j, j < className.length →
      isWordChar (charAtD className j (Char.ofNat 0)) = true)
    (p1 ne paren e : Nat)
    (h : matchFromName className sa p = some (p1, ne, paren, e)) :
    p1 = p ∧ NamePost sa p ne paren e := by
  have htail : ∀ ne0 paren0 q0 e0, p < ne0 →
      (∀ k, p ≤ k → k < ne0 →
        isWordChar (charAtD sa k (Char.ofNat 0)) = true) →
      matchParams sa ne0 = some (paren0, q0) →
      matchThrowsTail sa q0 = some e0 →
      NamePost sa p ne0 paren0 e0 := by
    intro ne0 paren0 q0 e0 hlt hw hmp hmt
    obtain ⟨m1, m2, m3, m4, m5⟩ := matchParams_post sa ne0 paren0 q0 hmp
    obtain ⟨t1, t2⟩ := matchThrowsTail_post sa q0 e0 hmt
    exact ⟨hlt, m1, by omega, by omega, hw, m2, m3⟩
  unfold matchFromName at h
  dsimp only at h
  split at h
  · -- the className branch produced the result
    rename_i r2 heq
    obtain rfl := Option.some.inj h
    split_ifs at heq with hc
    rw [Bool.and_eq_true] at hc
    have hlen : 1 ≤ className.length := by
      rcases hc with ⟨hc1, _⟩
      have : className ≠ [] := by simpa using hc1
      cases className with
      | nil => exact absurd rfl this
      | cons _ _ => simp
    obtain ⟨o1, o2⟩ := occursAt_chars className sa p hc.2
    cases hmp : matchParams sa (p + className.length) with
    | none => rw [hmp] at heq; exact absurd heq (by simp)
    | some pr =>
      obtain ⟨paren0, q0⟩ := pr
      rw [hmp] at heq
      dsimp only at heq
      cases hmt : matchThrowsTail sa q0 with
      | none => rw [hmt] at heq; exact absurd heq (by simp)
      | some e0 =>
        rw [hmt] at heq
        dsimp only at heq
        have hinj := Option.some.inj heq
        injection hinj with hA hinj
        injection hinj with hB hinj
        injection hinj with hC hD
        subst hA
        subst hB
        subst hC
        subst hD
        refine ⟨rfl, htail _ _ _ _ (by omega) ?_ hmp hmt⟩
        intro k hk1 hk2
        have := o2 (k - p) (by omega)
        rw [show p + (k - p) = k by omega] at this
        rw [this]
        exact hcn (k - p) (by omega)
  · -- the plain `\w+` branch
    split_ifs at h with hn
    cases hmp : matchParams sa (p + runLen isWordChar sa p) with
    | none => rw [hmp] at h; exact absurd h (by simp)
    | some pr =>
      obtain ⟨paren0, q0⟩ := pr
      rw [hmp] at h
      dsimp only at h
      cases hmt : matchThrowsTail sa q0 with
      | none => rw [hmt] at h; exact absurd h (by simp)
      | some e0 =>
        rw [hmt] at h
        dsimp only at h
        have hinj := Option.some.inj h
        injection hinj with hA hinj
        injection hinj with hB hinj
        injection hinj with hC hD
        subst hA
        subst hB
        subst hC
        subst hD
        have hn1 : 1 ≤ runLen isWordChar sa p := by
          rcases Nat.eq_zero_or_pos (runLen isWordChar sa p) with h0 | h0
          · exfalso
            rw [h0] at hn
            exact hn (by simp)
          · omega
        refine ⟨rfl, htail _ _ _ _ (by omega) ?_ hmp hmt⟩
        intro k hk1 hk2
        have := runLen_char isWordChar sa p (k - p) (by omega)
        rwa [show p + (k - p) = k by omega] at this


lemma rtTry_post (className sa : List Char) (p : Nat)
    (hcn : ∀ j, j < className.length →
      isWordChar (charAtD className j (Char.ofNat 0)) = true) :
    ∀ (k : Nat) (r : Nat × Nat × Nat × Nat),
      rtTry className sa p k = some r →
      ∃ p', p ≤ p' ∧
        (p' = p ∨ isSpaceJS (charAtD sa (p' - 1) (Char.ofNat 0)) = true) ∧
        matchFromName className sa p' = some r := by
  intro k
  induction k with
  | zero =>
    intro r h
    exact ⟨p, le_refl p, Or.inl rfl, h⟩
  | succ k ih =>
    intro r h
    unfold rtTry at h
    dsimp only at h
    split at h
    · rename_i r2 heq
      obtain rfl := Option.some.inj h
      split_ifs at heq with hw
      have hw1 : 1 ≤ runLen isSpaceJS sa (p + k + 1) := by
        rcases Nat.eq_zero_or_pos (runLen isSpaceJS sa (p + k + 1)) with h0 | h0
        · exfalso; rw [h0] at hw; exact hw (by simp)
        · omega
      refine ⟨p + k + 1 + runLen isSpaceJS sa (p + k + 1), by omega,
        Or.inr ?_, heq⟩
      have := runLen_char isSpaceJS sa (p + k + 1)
        (runLen isSpaceJS sa (p + k + 1) - 1) (by omega)
      rwa [show p + k + 1 + (runLen isSpaceJS sa (p + k + 1) - 1) =
        p + k + 1 + runLen isSpaceJS sa (p + k + 1) - 1 by omega] at this
    · exact ih r h

lemma rtStage_post (className sa : List Char) (p : Nat)
    (hcn : ∀ j, j < className.length →
      isWordChar (charAtD className j (Char.ofNat 0)) = true)
    (r : Nat × Nat × Nat × Nat) (h : rtStage className sa p = some r) :
    ∃ p', p ≤ p' ∧
      (p' = p ∨ isSpaceJS (charAtD sa (p' - 1) (Char.ofNat 0)) = true) ∧
      matchFromName className sa p' = some r := by
  unfold rtStage at h
  exact rtTry_post className sa p hcn _ r h

lemma tpStage_post (className sa : List Char) (p : Nat)
    (hcn : ∀ j, j < className.length →
      isWordChar (charAtD className j (Char.ofNat 0)) = true)
    (r : Nat × Nat × Nat × Nat) (h : tpStage className sa p = some r) :
    ∃ p', p ≤ p' ∧
      (p' = p ∨ isSpaceJS (charAtD sa (p' - 1) (Char.ofNat 0)) = true) ∧
      matchFromName className sa p' = some r := by
  unfold tpStage at h
  dsimp only at h
  split at h
  · rename_i r2 heq
    obtain rfl := Option.some.inj h
    split_ifs at heq with h1 h2 h3 h4
    have hw1 : 1 ≤ runLen isSpaceJS sa
        (p + 2 + runLen (fun c => c != '>') sa (p + 1)) := by
      rcases Nat.eq_zero_or_pos (runLen isSpaceJS sa
        (p + 2 + runLen (fun c => c != '>') sa (p + 1))) with h0 | h0
      · exfalso; rw [h0] at h4; exact h4 (by simp)
      · omega
    obtain ⟨p', g1, g2, g3⟩ := rtStage_post className sa _ hcn r2 heq
    refine ⟨p', by omega, ?_, g3⟩
    rcases g2 with g2 | g2
    · subst g2
      right
      have := runLen_char isSpaceJS sa
        (p + 2 + runLen (fun c => c != '>') sa (p + 1))
        (runLen isSpaceJS sa
          (p + 2 + runLen (fun c => c != '>') sa (p + 1)) - 1) (by omega)
      rwa [show p + 2 + runLen (fun c => c != '>') sa (p + 1) +
          (runLen isSpaceJS sa
            (p + 2 + runLen (fun c => c != '>') sa (p + 1)) - 1) =
          p + 2 + runLen (fun c => c != '>') sa (p + 1) +
          runLen isSpaceJS sa
            (p + 2 + runLen (fun c => c != '>') sa (p + 1)) - 1 by omega]
        at this
    · exact Or.inr g2
  · exact rtStage_post className sa p hcn r h

lemma matchOneModifier_post (sa : List Char) (p p2 : Nat)
    (h : matchOneModifier sa p = some p2) :
    p < p2 ∧ isSpaceJS (charAtD sa (p2 - 1) (Char.ofNat 0)) = true := by
  unfold matchOneModifier at h
  have hmem : p2 ∈ modifierKeywords.filterMap (fun kw =>
      if occursAt kw sa p then
        let w := runLen isSpaceJS sa (p + kw.length)
        if w == 0 then none else some (p + kw.length + w)
      else none) := by
    cases hl : modifierKeywords.filterMap (fun kw =>
        if occursAt kw sa p then
          let w := runLen isSpaceJS sa (p + kw.length)
          if w == 0 then none else some (p + kw.length + w)
        else none) with
    | nil => rw [hl] at h; exact absurd h (by simp)
    | cons x xs =>
      rw [hl] at h
      have hx : x = p2 := by simpa using h
      rw [← hx]
      exact List.mem_cons_self _ _
  rcases List.mem_filterMap.mp hmem with ⟨kw, hkw, hf⟩
  dsimp only at hf
  split_ifs at hf with h1 h2
  obtain rfl := Option.some.inj hf
  have hlen : 1 ≤ kw.length := by
    have hall : ∀ kw2 ∈ modifierKeywords, 1 ≤ kw2.length := by decide
    exact hall kw hkw
  have hw1 : 1 ≤ runLen isSpaceJS sa (p + kw.length) := by
    rcases Nat.eq_zero_or_pos (runLen isSpaceJS sa (p + kw.length)) with h0 | h0
    · exfalso; rw [h0] at h2; exact h2 (by simp)
    · omega
  refine ⟨by omega, ?_⟩
  have := runLen_char isSpaceJS sa (p + kw.length)
    (runLen isSpaceJS sa (p + kw.length) - 1) (by omega)
  rwa [show p + kw.length + (runLen isSpaceJS sa (p + kw.length) - 1) =
    p + kw.length + runLen isSpaceJS sa (p + kw.length) - 1 by omega] at this

lemma modsGo_post (className sa : List Char)
    (hcn : ∀ j, j < className.length →
      isWordChar (charAtD className j (Char.ofNat 0)) = true) :
    ∀ (fuel : Nat) (p : Nat) (r : Nat × Nat × Nat × Nat),
      modsGo className sa p fuel = some r →
      ∃ p', p ≤ p' ∧
        (p' = p ∨ isSpaceJS (charAtD sa (p' - 1) (Char.ofNat 0)) = true) ∧
        matchFromName className sa p' = some r := by
  intro fuel
  induction fuel with
  | zero => intro p r h; exact tpStage_post className sa p hcn r h
  | succ fuel ih =>
    intro p r h
    unfold modsGo at h
    cases hmo : matchOneModifier sa p with
    | none =>
      rw [hmo] at h
      exact tpStage_post className sa p hcn r h
    | some p2 =>
      rw [hmo] at h
      dsimp only at h
      obtain ⟨m1, m2⟩ := matchOneModifier_post sa p p2 hmo
      cases hrec : modsGo className sa p2 fuel with
      | some r2 =>
        rw [hrec] at h
        obtain rfl := Option.some.inj h
        obtain ⟨p', g1, g2, g3⟩ := ih p2 r2 hrec
        refine ⟨p', by omega, ?_, g3⟩
        rcases g2 with g2 | g2
        · subst g2; exact Or.inr m2
        · exact Or.inr g2
      | none =>
        rw [hrec] at h
        exact tpStage_post className sa p hcn r h

lemma matchMethodAt_post (className sa : List Char) (q : Nat)
    (hcn : ∀ j, j < className.length →
      isWordChar (charAtD className j (Char.ofNat 0)) = true)
    (mm : MethodMatch) (h : matchMethodAt className sa q = some mm) :
    mm.idx = q ∧ q ≤ mm.nameStart ∧
    (mm.nameStart = 0 ∨
      isSpaceJS (charAtD sa (mm.nameStart - 1) (Char.ofNat 0)) = true) ∧
    NamePost sa mm.nameStart mm.nameEnd mm.parenPos mm.matchEnd := by
  have htail : ∀ st, q ≤ st →
      (st = 0 ∨ isSpaceJS (charAtD sa (st - 1) (Char.ofNat 0)) = true) →
      ∀ ns ne paren e,
        modsGo className sa (st + runLen isSpaceJS sa st)
          (sa.length + 1) = some (ns, ne, paren, e) →
        mm = ⟨q, e, ns, ne, paren⟩ →
        mm.idx = q ∧ q ≤ mm.nameStart ∧
        (mm.nameStart = 0 ∨
          isSpaceJS (charAtD sa (mm.nameStart - 1) (Char.ofNat 0)) = true) ∧
        NamePost sa mm.nameStart mm.nameEnd mm.parenPos mm.matchEnd := by
    intro st hqst hst ns ne paren e hmg hmm
    obtain ⟨p', g1, g2, g3⟩ := modsGo_post className sa hcn _ _ _ hmg
    obtain ⟨hp1, hnp⟩ := matchFromName_post className sa p' hcn ns ne paren e g3
    subst hmm
    subst hp1
    dsimp only
    refine ⟨rfl, by omega, ?_, hnp⟩
    rcases g2 with g2 | g2
    · -- the name starts right after the leading whitespace run
      by_cases hw : runLen isSpaceJS sa st = 0
      · rw [hw] at g2
        rcases hst with hst | hst
        · left
          omega
        · right
          rw [g2]
          simpa [hw] using hst
      · right
        rw [g2]
        have := runLen_char isSpaceJS sa st (runLen isSpaceJS sa st - 1)
          (by omega)
        rwa [show st + (runLen isSpaceJS sa st - 1) =
          st + runLen isSpaceJS sa st - 1 by omega] at this
    · exact Or.inr g2
  unfold matchMethodAt at h
  dsimp only at h
  by_cases hq0 : (q == 0) = true
  · rw [if_pos hq0] at h
    have hq : q = 0 := by simpa using hq0
    split at h
    · rename_i r2 heq
      obtain rfl := Option.some.inj h
      cases hmg : modsGo className sa (0 + runLen isSpaceJS sa 0)
          (sa.length + 1) with
      | none => rw [hmg] at heq; exact absurd heq (by simp)
      | some tup =>
        obtain ⟨ns, ne, paren, e⟩ := tup
        rw [hmg] at heq
        dsimp only at heq
        exact htail 0 (by omega) (Or.inl rfl) ns ne paren e hmg
          (Option.some.inj heq).symm
    · split_ifs at h with hnl
      cases hmg : modsGo className sa (1 + runLen isSpaceJS sa 1)
          (sa.length + 1) with
      | none => rw [hmg] at h; exact absurd h (by simp)
      | some tup =>
        obtain ⟨ns, ne, paren, e⟩ := tup
        rw [hmg] at h
        dsimp only at h
        refine htail 1 (by omega) (Or.inr ?_) ns ne paren e hmg
          (Option.some.inj h).symm
        rw [show (1 : Nat) - 1 = 0 from rfl, eq_of_beq hnl]
        decide
  · rw [if_neg hq0] at h
    split_ifs at h with hnl
    cases hmg : modsGo className sa (q + 1 + runLen isSpaceJS sa (q + 1))
        (sa.length + 1) with
    | none => rw [hmg] at h; exact absurd h (by simp)
    | some tup =>
      obtain ⟨ns, ne, paren, e⟩ := tup
      rw [hmg] at h
      dsimp only at h
      refine htail (q + 1) (by omega) (Or.inr ?_) ns ne paren e hmg
        (Option.some.inj h).symm
      rw [show q + 1 - 1 = q by omega, eq_of_beq hnl]
      decide

lemma fmGo_exists (className sa : List Char) :
    ∀ (fuel q : Nat) (mm : MethodMatch),
      fmGo className sa fuel q = some mm →
      ∃ q', matchMethodAt className sa q' = some mm := by
  intro fuel
  induction fuel with
  | zero => intro q mm h; simp [fmGo] at h
  | succ fuel ih =>
    intro q mm h
    unfold fmGo at h
    split_ifs at h with h1
    cases hma : matchMethodAt className sa q with
    | some mm2 =>
      rw [hma] at h
      obtain rfl := Option.some.inj h
      exact ⟨q, hma⟩
    | none =>
      rw [hma] at h
      exact ih (q + 1) mm h

lemma findMethodFrom_exists (className sa : List Char) (q : Nat)
    (mm : MethodMatch) (h : findMethodFrom className sa q = some mm) :
    ∃ q', matchMethodAt className sa q' = some mm :=
  fmGo_exists className sa (sa.length + 1) q mm h

lemma optKeyword_cases {α : Type} (kw sa : List Char) (p : Nat)
    (k : Nat → Option α) (r : α) (h : optKeyword kw sa p k = some r) :
    ∃ p', k p' = some r := by
  unfold optKeyword at h
  dsimp only at h
  split at h
  · rename_i r2 heq
    obtain rfl := Option.some.inj h
    split_ifs at heq with h1 h2
    exact ⟨_, heq⟩
  · exact ⟨p, h⟩

lemma matchClassNameAt_post (s : List Char) (q : Nat) (cn : List Char)
    (h : matchClassNameAt s q = some cn) :
    cn ≠ [] ∧ ∀ j, j < cn.length →
      isWordChar (charAtD cn j (Char.ofNat 0)) = true := by
  unfold matchClassNameAt at h
  obtain ⟨p1, h⟩ := optKeyword_cases _ _ _ _ _ h
  obtain ⟨p2, h⟩ := optKeyword_cases _ _ _ _ _ h
  obtain ⟨p3, h⟩ := optKeyword_cases _ _ _ _ _ h
  dsimp only at h
  split_ifs at h with h1 h2 h3
  obtain rfl := Option.some.inj h
  have hn1 : 1 ≤ runLen isWordChar s (p3 + 5 + runLen isSpaceJS s (p3 + 5)) := by
    rcases Nat.eq_zero_or_pos (runLen isWordChar s
      (p3 + 5 + runLen isSpaceJS s (p3 + 5))) with h0 | h0
    · exfalso; rw [h0] at h3; exact h3 (by simp)
    · omega
  have hle := runLen_le isWordChar s (p3 + 5 + runLen isSpaceJS s (p3 + 5))
  have hlen : (extract s (p3 + 5 + runLen isSpaceJS s (p3 + 5))
      (p3 + 5 + runLen isSpaceJS s (p3 + 5) +
        runLen isWordChar s (p3 + 5 + runLen isSpaceJS s (p3 + 5)))).length =
      runLen isWordChar s (p3 + 5 + runLen isSpaceJS s (p3 + 5)) := by
    rw [extract_length]
    omega
  constructor
  · intro hnil
    rw [hnil] at hlen
    simp at hlen
    omega
  · intro j hj
    rw [hlen] at hj
    rw [charAtD_extract s _ _ j (by omega)]
    exact runLen_char isWordChar s _ j hj

lemma fcnGo_exists (s : List Char) :
    ∀ (fuel q : Nat) (cn : List Char), fcnGo s fuel q = some cn →
      ∃ q', matchClassNameAt s q' = some cn := by
  intro fuel
  induction fuel with
  | zero => intro q cn h; simp [fcnGo] at h
  | succ fuel ih =>
    intro q cn h
    unfold fcnGo at h
    split_ifs at h with h1
    cases hma : matchClassNameAt s q with
    | some cn2 =>
      rw [hma] at h
      obtain rfl := Option.some.inj h
      exact ⟨q, hma⟩
    | none =>
      rw [hma] at h
      exact ih (q + 1) cn h

lemma findClassName_post (s : List Char) (cn : List Char)
    (h : findClassName s = some cn) :
    cn ≠ [] ∧ ∀ j, j < cn.length →
      isWordChar (charAtD cn j (Char.ofNat 0)) = true := by
  obtain ⟨q', hq⟩ := fcnGo_exists s (s.length + 1) 0 cn h
  exact matchClassNameAt_post s q' cn hq



/-- A word run that starts at or before the space preceding position `qs`
cannot reach past that space. -/
lemma run_blocked (b : List Char) (qs start : Nat) (hq1 : 1 ≤ qs)
    (hsp : isSpaceJS (charAtD b (qs - 1) (Char.ofNat 0)) = true)
    (hstart : start ≤ qs - 1) :
    start + runLen isWordChar b start ≤ qs - 1 := by
  by_contra hgt
  rw [not_le] at hgt
  have hw := runLen_char isWordChar b start (qs - 1 - start) (by omega)
  rw [show start + (qs - 1 - start) = qs - 1 by omega] at hw
  have := space_not_word _ hsp
  rw [this] at hw
  exact absurd hw (by simp)

/-- A space run that ends at an opening parenthesis cannot cover the word
character at position `qs`. -/
lemma space_run_blocked (b : List Char) (qs t : Nat)
    (hword : isWordChar (charAtD b qs (Char.ofNat 0)) = true)
    (ht : t ≤ qs)
    (hpar : charAtD b (t + runLen isSpaceJS b t) (Char.ofNat 0) = '(') :
    t + runLen isSpaceJS b t < qs := by
  by_contra hge
  rw [not_lt] at hge
  by_cases heq : t + runLen isSpaceJS b t = qs
  · rw [heq] at hpar
    rw [hpar] at hword
    exact absurd hword (by decide)
  · have hlt : qs < t + runLen isSpaceJS b t := by omega
    have hsp := runLen_char isSpaceJS b t (qs - t) (by omega)
    rw [show t + (qs - t) = qs by omega] at hsp
    have := space_not_word _ hsp
    rw [this] at hword
    exact absurd hword (by simp)

/-- The call pattern matches at the declared name position and captures
exactly the name. -/
lemma matchCallAt_at_name (b : List Char) (qs L W : Nat) (hL : 1 ≤ L)
    (hword : ∀ k, k < L → isWordChar (charAtD b (qs + k) (Char.ofNat 0)) = true)
    (hstopw : isWordChar (charAtD b (qs + L) (Char.ofNat 0)) = false)
    (hstopin : qs + L < b.length)
    (hsp : ∀ k, k < W → isSpaceJS (charAtD b (qs + L + k) (Char.ofNat 0)) = true)
    (hpar : charAtD b (qs + L + W) (Char.ofNat 0) = '(') :
    matchCallAt b qs = some (extract b qs (qs + L), qs + L + W + 1) := by
  have hrw : runLen isWordChar b qs = L :=
    runLen_eq_of isWordChar b qs L (fun k hk => hword k hk) hstopin hstopw
  have hparin : qs + L + W < b.length :=
    charAtD_lt_length b _ _ hpar (by decide)
  have hrs : runLen isSpaceJS b (qs + L) = W := by
    refine runLen_eq_of isSpaceJS b (qs + L) W (fun k hk => hsp k hk)
      hparin ?_
    rw [hpar]
    decide
  have hvt : occursAt "this.".data b qs = false := by
    by_contra hocc
    rw [Bool.not_eq_false] at hocc
    obtain ⟨o1, o2⟩ := occursAt_chars _ b qs hocc
    by_cases h4 : 4 < L
    · have hc := hword 4 h4
      have hd := o2 4 (by decide)
      rw [hd] at hc
      exact absurd hc (by decide)
    · by_cases h4e : L = 4
      · have hd := o2 4 (by decide)
        subst h4e
        by_cases hW : W = 0
        · rw [hW] at hpar
          rw [show qs + 4 + 0 = qs + 4 by omega] at hpar
          rw [hd] at hpar
          exact absurd hpar (by decide)
        · have hs0 := hsp 0 (by omega)
          rw [show qs + 4 + 0 = qs + 4 by omega] at hs0
          rw [hd] at hs0
          exact absurd hs0 (by decide)
      · have hL4 : L < 4 := by omega
        have hd := o2 L (by simp [String.data]; omega)
        rw [hd] at hstopw
        interval_cases L <;> exact absurd hstopw (by decide)
  unfold matchCallAt
  dsimp only
  rw [hvt, hrw, hrs, hpar]
  have h1 : ¬ ((false = true)) := by simp
  rw [if_neg h1]
  have h2 : ¬ ((L == 0) = true) := by
    simp only [beq_iff_eq]
    omega
  rw [if_neg h2]
  have h3 : (('(' == '(') = true) := by decide
  rw [if_pos h3]

/-- Any successful call-pattern match strictly inside the declaration
prefix ends at or before the declared name position. -/
lemma matchCallAt_prefix_bound (b : List Char) (qs : Nat) (hq1 : 1 ≤ qs)
    (hspb : isSpaceJS (charAtD b (qs - 1) (Char.ofNat 0)) = true)
    (hwordq : isWordChar (charAtD b qs (Char.ofNat 0)) = true) :
    ∀ r nm e, r < qs → matchCallAt b r = some (nm, e) →
      r + 2 ≤ e ∧ e ≤ qs := by
  intro r nm e hr h
  unfold matchCallAt at h
  dsimp only at h
  split at h
  · -- the `this.`-prefixed branch succeeded
    rename_i r2 heq
    obtain rfl := Option.some.inj h
    split_ifs at heq with h1 h2 h3
    have hinj := Option.some.inj heq
    injection hinj with hA hB
    obtain ⟨o1, o2⟩ := occursAt_chars _ b r h1
    by_cases hclose : qs - 1 < r + 5
    · exfalso
      have hj := o2 (qs - 1 - r) (by simp [String.data]; omega)
      rw [show r + (qs - 1 - r) = qs - 1 by omega] at hj
      rw [hj] at hspb
      have hidx : qs - 1 - r < 5 := by omega
      interval_cases h : (qs - 1 - r) <;> exact absurd hspb (by decide)
    · have hrun : r + 5 + runLen isWordChar b (r + 5) ≤ qs - 1 :=
        run_blocked b qs (r + 5) hq1 hspb (by omega)
      have hpar' : charAtD b (r + 5 + runLen isWordChar b (r + 5) +
          runLen isSpaceJS b (r + 5 + runLen isWordChar b (r + 5)))
          (Char.ofNat 0) = '(' := eq_of_beq h3
      have hsrb := space_run_blocked b qs
        (r + 5 + runLen isWordChar b (r + 5)) hwordq (by omega) hpar'
      have hn1 : 1 ≤ runLen isWordChar b (r + 5) := by
        rcases Nat.eq_zero_or_pos (runLen isWordChar b (r + 5)) with h0 | h0
        · exfalso; rw [h0] at h2; exact h2 (by simp)
        · omega
      constructor
      · omega
      · omega
  · -- the plain branch succeeded
    split_ifs at h with h1 h2
    have hinj := Option.some.inj h
    injection hinj with hA hB
    have hrun : r + runLen isWordChar b r ≤ qs - 1 :=
      run_blocked b qs r hq1 hspb (by omega)
    have hpar' : charAtD b (r + runLen isWordChar b r +
        runLen isSpaceJS b (r + runLen isWordChar b r))
        (Char.ofNat 0) = '(' := eq_of_beq h2
    have hsrb := space_run_blocked b qs
      (r + runLen isWordChar b r) hwordq (by omega) hpar'
    have hn1 : 1 ≤ runLen isWordChar b r := by
      rcases Nat.eq_zero_or_pos (runLen isWordChar b r) with h0 | h0
      · exfalso; rw [h0] at h1; exact h1 (by simp)
      · omega
    constructor
    · omega
    · omega

lemma fcGo_first (b : List Char) (qs : Nat)
    (hsome : matchCallAt b qs ≠ none) (hqlen : qs < b.length) :
    ∀ fuel q, q ≤ qs → qs - q < fuel →
      ∃ r nm e, q ≤ r ∧ r ≤ qs ∧ matchCallAt b r = some (nm, e) ∧
        fcGo b fuel q = some (nm, e) := by
  intro fuel
  induction fuel with
  | zero => intro q hq hlt; omega
  | succ fuel ih =>
    intro q hq hlt
    unfold fcGo
    rw [if_pos (by omega : q < b.length)]
    cases hmc : matchCallAt b q with
    | some pr =>
      obtain ⟨nm, e⟩ := pr
      exact ⟨q, nm, e, le_refl q, hq, hmc, rfl⟩
    | none =>
      have hne : q ≠ qs := by
        intro hcon
        rw [hcon] at hmc
        exact hsome hmc
      obtain ⟨r, nm, e, g1, g2, g3, g4⟩ := ih (q + 1) (by omega) (by omega)
      exact ⟨r, nm, e, by omega, g2, g3, g4⟩

lemma ecmLoop_mono (b : List Char) :
    ∀ fuel q acc n, n ∈ acc → n ∈ ecmLoop b fuel q acc := by
  intro fuel
  induction fuel with
  | zero => intro q acc n h; exact h
  | succ fuel ih =>
    intro q acc n h
    unfold ecmLoop
    cases hf : findCallFrom b q with
    | none => exact h
    | some pr =>
      obtain ⟨nm, mend⟩ := pr
      dsimp only
      by_cases hc : (excludedKeywords.contains nm || acc.contains nm) = true
      · rw [if_pos hc]
        exact ih mend acc n h
      · rw [if_neg hc]
        exact ih mend (acc ++ [nm]) n (List.mem_append.mpr (Or.inl h))

lemma ecmLoop_reach (b : List Char) (qs : Nat) (name : List Char) (eN : Nat)
    (hmatch : matchCallAt b qs = some (name, eN))
    (hbound : ∀ r nm e, r < qs → matchCallAt b r = some (nm, e) →
      r + 2 ≤ e ∧ e ≤ qs)
    (hqlen : qs < b.length) (hkw : ¬ name ∈ excludedKeywords) :
    ∀ fuel q acc, q ≤ qs → qs + 2 - q < 2 * fuel →
      name ∈ ecmLoop b fuel q acc := by
  intro fuel
  induction fuel with
  | zero => intro q acc hq hlt; omega
  | succ fuel ih =>
    intro q acc hq hlt
    unfold ecmLoop
    obtain ⟨r, nm, e, g1, g2, g3, g4⟩ := fcGo_first b qs
      (by rw [hmatch]; simp) hqlen (b.length + 1) q hq (by omega)
    rw [show findCallFrom b q = some (nm, e) from g4]
    dsimp only
    by_cases hr : r = qs
    · subst hr
      rw [hmatch] at g3
      have hinj := Option.some.inj g3
      injection hinj with hA hB
      subst hA
      by_cases hc : (excludedKeywords.contains name ||
          acc.contains name) = true
      · rw [if_pos hc]
        rw [Bool.or_eq_true] at hc
        rcases hc with hc | hc
        · exfalso
          rcases List.contains_iff_exists_mem_beq.mp hc with ⟨y, hy, hby⟩
          exact hkw (by rwa [show name = y from eq_of_beq hby])
        · apply ecmLoop_mono
          rcases List.contains_iff_exists_mem_beq.mp hc with ⟨y, hy, hby⟩
          rwa [show name = y from eq_of_beq hby]
      · rw [if_neg hc]
        exact ecmLoop_mono b fuel _ _ name
          (List.mem_append.mpr (Or.inr (List.mem_singleton.mpr rfl)))
    · have hrlt : r < qs := by omega
      obtain ⟨b1, b2⟩ := hbound r nm e hrlt g3
      by_cases hc : (excludedKeywords.contains nm || acc.contains nm) = true
      · rw [if_pos hc]
        exact ih e acc (by omega) (by omega)
      · rw [if_neg hc]
        exact ih e (acc ++ [nm]) (by omega) (by omega)

/-- Completeness of the call scanner: a name that matches at `qs`, with no
prefix match running past `qs`, is collected. -/
lemma extractCalledMethods_complete (b : List Char) (qs : Nat)
    (name : List Char) (eN : Nat)
    (hmatch : matchCallAt b qs = some (name, eN))
    (hbound : ∀ r nm e, r < qs → matchCallAt b r = some (nm, e) →
      r + 2 ≤ e ∧ e ≤ qs)
    (hqlen : qs < b.length) (hkw : ¬ name ∈ excludedKeywords) :
    name ∈ extractCalledMethods b := by
  unfold extractCalledMethods
  exact ecmLoop_reach b qs name eN hmatch hbound hqlen hkw
    (b.length + 1) 0 [] (by omega) (by omega)



/-- A method built by `createMethod` from a successful declaration match
lists its own name among the called methods, provided that name is not an
excluded keyword: the call pattern matches at the name position inside the
method text, and no earlier match of the call pattern can run past it. -/
lemma createMethod_selfcall (s searchArea className : List Char)
    (searchOffset classEnd : Nat)
    (hsa : searchArea = extract s searchOffset classEnd)
    (mm : MethodMatch)
    (hidxns : mm.idx ≤ mm.nameStart)
    (hlb : mm.nameStart = 0 ∨
      isSpaceJS (charAtD searchArea (mm.nameStart - 1) (Char.ofNat 0)) = true)
    (hNP : NamePost searchArea mm.nameStart mm.nameEnd mm.parenPos
      mm.matchEnd)
    (bs bodyEnd A : Nat)
    (hbs : searchOffset + mm.idx + (mm.matchEnd - mm.idx) - 1 ≤ bs)
    (hbe : bs ≤ bodyEnd)
    (hbelen : bodyEnd < s.length)
    (hA : A = searchOffset + mm.idx ∨
      (A = searchOffset + mm.idx + 1 ∧
        charAtD s (searchOffset + mm.idx) (Char.ofNat 0) = '\n'))
    (hkw : ¬ extract searchArea mm.nameStart mm.nameEnd ∈ excludedKeywords) :
    extract searchArea mm.nameStart mm.nameEnd ∈
      extractCalledMethods (extract s A (bodyEnd + 1)) := by
  unfold NamePost at hNP
  obtain ⟨h1, h2, h3, h4, hwordrun, hsprun, hparchar⟩ := hNP
  have hlen_sa : searchArea.length = min classEnd s.length - searchOffset := by
    rw [hsa]
    exact extract_length s searchOffset classEnd
  have hminle1 : min classEnd s.length ≤ classEnd := Nat.min_le_left _ _
  have hminle2 : min classEnd s.length ≤ s.length := Nat.min_le_right _ _
  have hkey : searchOffset + mm.matchEnd ≤ min classEnd s.length := by omega
  have hchar : ∀ k, k < mm.matchEnd →
      charAtD searchArea k (Char.ofNat 0) =
        charAtD s (searchOffset + k) (Char.ofNat 0) := by
    intro k hk
    rw [hsa]
    exact charAtD_extract s searchOffset classEnd k (by omega)
  have hAle : A ≤ searchOffset + mm.nameStart := by
    rcases hA with rfl | ⟨rfl, hnl⟩
    · omega
    · have hne : mm.idx ≠ mm.nameStart := by
        intro he
        have hw := hwordrun mm.nameStart (le_refl _) h1
        rw [hchar mm.nameStart (by omega)] at hw
        rw [← he] at hw
        rw [hnl] at hw
        exact absurd hw (by decide)
      omega
  have hcharb : ∀ j, A ≤ j → j ≤ bodyEnd →
      charAtD (extract s A (bodyEnd + 1)) (j - A) (Char.ofNat 0) =
        charAtD s j (Char.ofNat 0) := by
    intro j hj1 hj2
    rw [charAtD_extract s A (bodyEnd + 1) (j - A) (by omega)]
    congr 1
    omega
  have hblen : (extract s A (bodyEnd + 1)).length = bodyEnd + 1 - A := by
    rw [extract_length, Nat.min_eq_left (by omega : bodyEnd + 1 ≤ s.length)]
  have hword_b : ∀ k, k < mm.nameEnd - mm.nameStart →
      isWordChar (charAtD (extract s A (bodyEnd + 1))
        (searchOffset + mm.nameStart - A + k) (Char.ofNat 0)) = true := by
    intro k hk
    rw [show searchOffset + mm.nameStart - A + k =
      searchOffset + mm.nameStart + k - A by omega]
    rw [hcharb (searchOffset + mm.nameStart + k) (by omega) (by omega)]
    rw [show searchOffset + mm.nameStart + k =
      searchOffset + (mm.nameStart + k) by omega]
    rw [← hchar (mm.nameStart + k) (by omega)]
    exact hwordrun (mm.nameStart + k) (by omega) (by omega)
  have hstop_b : isWordChar (charAtD (extract s A (bodyEnd + 1))
      (searchOffset + mm.nameStart - A + (mm.nameEnd - mm.nameStart))
      (Char.ofNat 0)) = false := by
    rw [show searchOffset + mm.nameStart - A + (mm.nameEnd - mm.nameStart) =
      searchOffset + mm.nameEnd - A by omega]
    rw [hcharb (searchOffset + mm.nameEnd) (by omega) (by omega)]
    rw [← hchar mm.nameEnd (by omega)]
    by_cases hcase : mm.nameEnd < mm.parenPos
    · exact space_not_word _ (hsprun mm.nameEnd (le_refl _) hcase)
    · have heq : mm.nameEnd = mm.parenPos := by omega
      rw [heq, hparchar]
      decide
  have hstopin_b : searchOffset + mm.nameStart - A +
      (mm.nameEnd - mm.nameStart) < (extract s A (bodyEnd + 1)).length := by
    rw [hblen]
    omega
  have hsp_b : ∀ k, k < mm.parenPos - mm.nameEnd →
      isSpaceJS (charAtD (extract s A (bodyEnd + 1))
        (searchOffset + mm.nameStart - A + (mm.nameEnd - mm.nameStart) + k)
        (Char.ofNat 0)) = true := by
    intro k hk
    rw [show searchOffset + mm.nameStart - A + (mm.nameEnd - mm.nameStart) +
      k = searchOffset + mm.nameEnd + k - A by omega]
    rw [hcharb (searchOffset + mm.nameEnd + k) (by omega) (by omega)]
    rw [show searchOffset + mm.nameEnd + k =
      searchOffset + (mm.nameEnd + k) by omega]
    rw [← hchar (mm.nameEnd + k) (by omega)]
    exact hsprun (mm.nameEnd + k) (by omega) (by omega)
  have hpar_b : charAtD (extract s A (bodyEnd + 1))
      (searchOffset + mm.nameStart - A + (mm.nameEnd - mm.nameStart) +
        (mm.parenPos - mm.nameEnd)) (Char.ofNat 0) = '(' := by
    rw [show searchOffset + mm.nameStart - A + (mm.nameEnd - mm.nameStart) +
      (mm.parenPos - mm.nameEnd) = searchOffset + mm.parenPos - A by omega]
    rw [hcharb (searchOffset + mm.parenPos) (by omega) (by omega)]
    rw [← hchar mm.parenPos (by omega)]
    exact hparchar
  have hmc := matchCallAt_at_name (extract s A (bodyEnd + 1))
    (searchOffset + mm.nameStart - A) (mm.nameEnd - mm.nameStart)
    (mm.parenPos - mm.nameEnd) (by omega) hword_b hstop_b hstopin_b
    hsp_b hpar_b
  have hname : extract (extract s A (bodyEnd + 1))
      (searchOffset + mm.nameStart - A)
      (searchOffset + mm.nameStart - A + (mm.nameEnd - mm.nameStart)) =
      extract searchArea mm.nameStart mm.nameEnd := by
    rw [extract_extract s A (bodyEnd + 1) _ _ (by omega)]
    rw [hsa, extract_extract s searchOffset classEnd _ _ (by omega)]
    rw [show A + (searchOffset + mm.nameStart - A) =
      searchOffset + mm.nameStart by omega]
    rw [show A + (searchOffset + mm.nameStart - A +
      (mm.nameEnd - mm.nameStart)) = searchOffset + mm.nameEnd by omega]
  have hbound : ∀ r nm e, r < searchOffset + mm.nameStart - A →
      matchCallAt (extract s A (bodyEnd + 1)) r = some (nm, e) →
      r + 2 ≤ e ∧ e ≤ searchOffset + mm.nameStart - A := by
    by_cases hq0 : searchOffset + mm.nameStart - A = 0
    · intro r nm e hr hmc2
      exact absurd hr (by omega)
    · have hns1 : 1 ≤ mm.nameStart := by
        rcases hA with rfl | ⟨rfl, hnl⟩ <;> omega
      have hq1 : 1 ≤ searchOffset + mm.nameStart - A := by omega
      have hsp_prev : isSpaceJS (charAtD (extract s A (bodyEnd + 1))
          (searchOffset + mm.nameStart - A - 1) (Char.ofNat 0)) = true := by
        rw [show searchOffset + mm.nameStart - A - 1 =
          searchOffset + mm.nameStart - 1 - A by omega]
        rw [hcharb (searchOffset + mm.nameStart - 1) (by omega) (by omega)]
        rw [show searchOffset + mm.nameStart - 1 =
          searchOffset + (mm.nameStart - 1) by omega]
        rw [← hchar (mm.nameStart - 1) (by omega)]
        rcases hlb with h0 | hsp
        · exact absurd h0 (by omega)
        · exact hsp
      have hw_at : isWordChar (charAtD (extract s A (bodyEnd + 1))
          (searchOffset + mm.nameStart - A) (Char.ofNat 0)) = true := by
        have hz := hword_b 0 (by omega)
        rw [Nat.add_zero] at hz
        exact hz
      exact matchCallAt_prefix_bound (extract s A (bodyEnd + 1))
        (searchOffset + mm.nameStart - A) hq1 hsp_prev hw_at
  have hqlen : searchOffset + mm.nameStart - A <
      (extract s A (bodyEnd + 1)).length := by
    rw [hblen]
    omega
  rw [← hname]
  exact extractCalledMethods_complete (extract s A (bodyEnd + 1))
    (searchOffset + mm.nameStart - A) _ _ hmc hbound hqlen
    (by rw [hname]; exact hkw)

/-- Every method the extraction loop emits either is abstract (empty body
and empty called list) or, when its name is not an excluded keyword, lists
its own name among the called methods. -/
lemma extractMethodsLoop_selfcall (s className searchArea : List Char)
    (searchOffset classEnd : Nat) (skips : List SkipRegion)
    (hsa : searchArea = extract s searchOffset classEnd)
    (hcn : ∀ j, j < className.length →
      isWordChar (charAtD className j (Char.ofNat 0)) = true) :
    ∀ fuel scanPos lastEnd m,
      m ∈ extractMethodsLoop s className searchArea searchOffset classEnd
        skips fuel scanPos lastEnd →
      (m.bodyContent = [] ∧ m.calledMethods = []) ∨
        (¬ m.name ∈ excludedKeywords → m.name ∈ m.calledMethods) := by
  intro fuel
  induction fuel with
  | zero => intro scanPos lastEnd m hm; simp [extractMethodsLoop] at hm
  | succ fuel ih =>
    intro scanPos lastEnd m hm
    unfold extractMethodsLoop at hm
    cases hfm : findMethodFrom className searchArea scanPos with
    | none => rw [hfm] at hm; simp at hm
    | some mm =>
      rw [hfm] at hm
      dsimp only at hm
      split at hm
      · rename_i hnl
        split at hm
        · exact ih _ _ m hm
        · split at hm
          · split at hm
            · rename_i semi hsemi
              split at hm
              · rcases List.mem_cons.mp hm with rfl | hm2
                · exact Or.inl ⟨rfl, rfl⟩
                · exact ih _ _ m hm2
              · exact ih _ _ m hm
            · exact ih _ _ m hm
          · rename_i bs hbs
            split at hm
            · split at hm
              · rename_i semi hsemi
                split at hm
                · rcases List.mem_cons.mp hm with rfl | hm2
                  · exact Or.inl ⟨rfl, rfl⟩
                  · exact ih _ _ m hm2
                · exact ih _ _ m hm
              · exact ih _ _ m hm
            · split at hm
              · exact ih _ _ m hm
              · split at hm
                · exact ih _ _ m hm
                · rename_i bodyEnd hbe
                  split at hm
                  · exact ih _ _ m hm
                  · rcases List.mem_cons.mp hm with rfl | hm2
                    · right
                      intro hkw
                      obtain ⟨q', hq⟩ := findMethodFrom_exists className
                        searchArea scanPos mm hfm
                      obtain ⟨hidx, hqle, hlb, hNP⟩ := matchMethodAt_post
                        className searchArea q' hcn mm hq
                      obtain ⟨hb1, hb2, hb3⟩ :=
                        indexOfFrom_sound s lbrace _ bs hbs
                      obtain ⟨hc1, hc2, hc3⟩ :=
                        findMatchingBrace_sound s bs bodyEnd hbe
                      exact createMethod_selfcall s searchArea className
                        searchOffset classEnd hsa mm (by omega) hlb hNP
                        bs bodyEnd _ hb1 hc1 hc2
                        (Or.inr ⟨rfl, eq_of_beq hnl⟩) hkw
                    · exact ih _ _ m hm2
      · rename_i hnl
        split at hm
        · exact ih _ _ m hm
        · split at hm
          · split at hm
            · rename_i semi hsemi
              split at hm
              · rcases List.mem_cons.mp hm with rfl | hm2
                · exact Or.inl ⟨rfl, rfl⟩
                · exact ih _ _ m hm2
              · exact ih _ _ m hm
            · exact ih _ _ m hm
          · rename_i bs hbs
            split at hm
            · split at hm
              · rename_i semi hsemi
                split at hm
                · rcases List.mem_cons.mp hm with rfl | hm2
                  · exact Or.inl ⟨rfl, rfl⟩
                  · exact ih _ _ m hm2
                · exact ih _ _ m hm
              · exact ih _ _ m hm
            · split at hm
              · exact ih _ _ m hm
              · split at hm
                · exact ih _ _ m hm
                · rename_i bodyEnd hbe
                  split at hm
                  · exact ih _ _ m hm
                  · rcases List.mem_cons.mp hm with rfl | hm2
                    · right
                      intro hkw
                      obtain ⟨q', hq⟩ := findMethodFrom_exists className
                        searchArea scanPos mm hfm
                      obtain ⟨hidx, hqle, hlb, hNP⟩ := matchMethodAt_post
                        className searchArea q' hcn mm hq
                      obtain ⟨hb1, hb2, hb3⟩ :=
                        indexOfFrom_sound s lbrace _ bs hbs
                      obtain ⟨hc1, hc2, hc3⟩ :=
                        findMatchingBrace_sound s bs bodyEnd hbe
                      exact createMethod_selfcall s searchArea className
                        searchOffset classEnd hsa mm (by omega) hlb hNP
                        bs bodyEnd _ hb1 hc1 hc2 (Or.inl rfl) hkw
                    · exact ih _ _ m hm2

lemma assignPositions_selfcall :
    ∀ (i : Nat) (l : List JavaMethod),
      (∀ m ∈ l, (m.bodyContent = [] ∧ m.calledMethods = []) ∨
        (¬ m.name ∈ excludedKeywords → m.name ∈ m.calledMethods)) →
      ∀ m ∈ assignPositions i l,
        (m.bodyContent = [] ∧ m.calledMethods = []) ∨
          (¬ m.name ∈ excludedKeywords → m.name ∈ m.calledMethods) := by
  intro i l
  induction l generalizing i with
  | nil => intro _ m hm; simp [assignPositions] at hm
  | cons a l ih =>
    intro hl m hm
    unfold assignPositions at hm
    rcases List.mem_cons.mp hm with rfl | hm2
    · exact hl a (List.mem_cons_self a l)
    · exact ih (i + 1) (fun x hx => hl x (List.mem_cons_of_mem a hx)) m hm2

lemma extractMethods_selfcall (s className : List Char)
    (bounds : ClassBodyBounds)
    (hcn : ∀ j, j < className.length →
      isWordChar (charAtD className j (Char.ofNat 0)) = true) :
    ∀ m ∈ extractMethods s className bounds,
      (m.bodyContent = [] ∧ m.calledMethods = []) ∨
        (¬ m.name ∈ excludedKeywords → m.name ∈ m.calledMethods) := by
  intro m hm
  unfold extractMethods at hm
  exact assignPositions_selfcall 0 _
    (fun x hx => extractMethodsLoop_selfcall s className _ _ _ _ rfl hcn
      _ _ _ x hx) m hm

/-- Every bodied method of a successfully parsed class whose name is not an
excluded keyword lists its own name in `calledMethods`. -/
lemma parse_selfcall (s : List Char) (cls : JavaClass)
    (hp : parse s = some cls) :
    ∀ m ∈ cls.methods,
      (m.bodyContent = [] ∧ m.calledMethods = []) ∨
        (¬ m.name ∈ excludedKeywords → m.name ∈ m.calledMethods) := by
  unfold parse at hp
  cases hcn : findClassName s with
  | none => rw [hcn] at hp; simp at hp
  | some className =>
    rw [hcn] at hp
    dsimp only at hp
    cases hb : findMainClassBody s className with
    | none => rw [hb] at hp; simp at hp
    | some bounds =>
      rw [hb] at hp
      dsimp only at hp
      obtain rfl := Option.some.inj hp
      intro m hm
      exact extractMethods_selfcall s className bounds
        (findClassName_post s className hcn).2 m hm


end JavaParser

/-- C10, amended: a parsed method with a nonempty body whose name is not
one of the eight excluded keywords does list its own name in
`calledMethods` (the declaration's own `name(` is picked up by the call
scan); a method whose own name is an excluded keyword (which the parser's
name pattern accepts) never lists itself; and the called list is always
duplicate-free and avoids the excluded keywords. -/
theorem claim_C10_amended (source : List Char) (cls : JavaClass)
    (hp : JavaParser.parse source = some cls) (m : JavaMethod)
    (hm : m ∈ cls.methods) :
    (¬ m.name ∈ JavaParser.excludedKeywords → m.bodyContent ≠ [] →
      m.name ∈ m.calledMethods) ∧
    (m.name ∈ JavaParser.excludedKeywords → ¬ m.name ∈ m.calledMethods) ∧
    m.calledMethods.Nodup ∧
    (∀ n ∈ m.calledMethods, ¬ n ∈ JavaParser.excludedKeywords) := by
  obtain ⟨_, h2, h3⟩ := JavaParser.parse_shape source cls hp m hm
  refine ⟨?_, ?_, h2, h3⟩
  · intro hkw hbody
    rcases JavaParser.parse_selfcall source cls hp m hm with ⟨hb, _⟩ | hsc
    · exact absurd hb hbody
    · exact hsc hkw
  · intro hkwmem hmem
    exact h3 m.name hmem hkwmem

/-- C10, amended, witness: applied to the parsed `srcCatch` class and its
second method `go`, a bodied non-keyword method whose called list is
`[go, go2]` and indeed contains its own name. -/
theorem claim_C10_amended_witness :
    (JavaParser.parse srcCatch = some clsCatch ∧
      (clsCatch.methods.getD 1 JavaMethodSorter.dfltMethod).name =
        "go".data ∧
      (clsCatch.methods.getD 1 JavaMethodSorter.dfltMethod).bodyContent ≠
        [] ∧
      (clsCatch.methods.getD 1 JavaMethodSorter.dfltMethod).calledMethods =
        ["go".data, "go2".data]) ∧
    ((¬ (clsCatch.methods.getD 1 JavaMethodSorter.dfltMethod).name ∈
        JavaParser.excludedKeywords →
      (clsCatch.methods.getD 1 JavaMethodSorter.dfltMethod).bodyContent ≠
        [] →
      (clsCatch.methods.getD 1 JavaMethodSorter.dfltMethod).name ∈
        (clsCatch.methods.getD 1
          JavaMethodSorter.dfltMethod).calledMethods) ∧
    ((clsCatch.methods.getD 1 JavaMethodSorter.dfltMethod).name ∈
        JavaParser.excludedKeywords →
      ¬ (clsCatch.methods.getD 1 JavaMethodSorter.dfltMethod).name ∈
        (clsCatch.methods.getD 1
          JavaMethodSorter.dfltMethod).calledMethods) ∧
    (clsCatch.methods.getD 1
      JavaMethodSorter.dfltMethod).calledMethods.Nodup ∧
    (∀ n ∈ (clsCatch.methods.getD 1
        JavaMethodSorter.dfltMethod).calledMethods,
      ¬ n ∈ JavaParser.excludedKeywords)) :=
  ⟨⟨by decide, by decide, by decide, by decide⟩,
    claim_C10_amended srcCatch clsCatch (by decide)
      (clsCatch.methods.getD 1 JavaMethodSorter.dfltMethod) (by decide)⟩

namespace JavaMethodSorter

universe u
variable {α : Type u}

/-- A filter by each name of a duplicate-free covering name list, once
flattened, is a permutation of the original list. -/
lemma flatten_filter_perm (names : List (List Char)) :
    ∀ l : List JavaMethod, names.Nodup → (∀ m ∈ l, m.name ∈ names) →
      List.Perm
        ((names.map (fun n => l.filter (fun m => m.name == n))).flatten) l := by
  induction names with
  | nil =>
    intro l _ hcov
    have hl : l = [] :=
      List.eq_nil_iff_forall_not_mem.mpr (fun m hm => by simpa using hcov m hm)
    subst hl
    simp
  | cons n ns ih =>
    intro l hnd hcov
    rw [List.map_cons, List.flatten_cons]
    have hnn : ¬ n ∈ ns := (List.nodup_cons.mp hnd).1
    have hstep : ∀ n' ∈ ns,
        l.filter (fun m => m.name == n') =
          (l.filter (fun m => !(m.name == n))).filter
            (fun m => m.name == n') := by
      intro n' hn'
      rw [List.filter_filter]
      apply List.filter_congr
      intro m _
      by_cases hmn : m.name = n'
      · have hne2 : ¬ n' = n := by
          intro hc
          exact hnn (hc ▸ hn')
        simp [hmn, hne2]
      · simp [hmn]
    have hmap : ns.map (fun n' => l.filter (fun m => m.name == n')) =
        ns.map (fun n' => (l.filter (fun m => !(m.name == n))).filter
          (fun m => m.name == n')) := List.map_congr_left hstep
    rw [hmap]
    have hcov2 : ∀ m ∈ l.filter (fun m => !(m.name == n)), m.name ∈ ns := by
      intro m hm
      rw [List.mem_filter] at hm
      rcases List.mem_cons.mp (hcov m hm.1) with h1 | h1
      · exfalso
        have h2 := hm.2
        simp [h1] at h2
      · exact h1
    have hper := ih (l.filter (fun m => !(m.name == n)))
      (List.nodup_cons.mp hnd).2 hcov2
    exact (hper.append_left _).trans (List.filter_append_perm _ l)

/-- The fold that builds `orderedNames` produces a duplicate-free list
whose members are the accumulator's members plus the method names. -/
lemma orderedNamesAux (l : List JavaMethod) :
    ∀ acc : List (List Char), acc.Nodup →
      (l.foldl (fun acc m =>
        if acc.contains m.name then acc else acc ++ [m.name]) acc).Nodup ∧
      ∀ x, x ∈ l.foldl (fun acc m =>
          if acc.contains m.name then acc else acc ++ [m.name]) acc ↔
        x ∈ acc ∨ x ∈ l.map (fun m => m.name) := by
  induction l with
  | nil => intro acc h; simp [h]
  | cons m l ih =>
    intro acc hacc
    rw [List.foldl_cons]
    by_cases hc : acc.contains m.name = true
    · have hmem : m.name ∈ acc := by
        rcases List.contains_iff_exists_mem_beq.mp hc with ⟨y, hy, hby⟩
        rwa [show m.name = y from eq_of_beq hby]
      rw [if_pos hc]
      obtain ⟨g1, g2⟩ := ih acc hacc
      refine ⟨g1, fun x => ?_⟩
      rw [g2 x, List.map_cons, List.mem_cons]
      constructor
      · rintro (h | h)
        · exact Or.inl h
        · exact Or.inr (Or.inr h)
      · rintro (h | h | h)
        · exact Or.inl h
        · exact Or.inl (h ▸ hmem)
        · exact Or.inr h
    · rw [if_neg hc]
      have hnmem : ¬ m.name ∈ acc := by
        intro hmem
        exact hc (List.contains_iff_exists_mem_beq.mpr ⟨m.name, hmem, by simp⟩)
      have hacc2 : (acc ++ [m.name]).Nodup := by
        rw [List.nodup_append]
        exact ⟨hacc, List.nodup_singleton _, by
          intro x hx hx2
          obtain rfl := List.mem_singleton.mp hx2
          exact hnmem hx⟩
      obtain ⟨g1, g2⟩ := ih (acc ++ [m.name]) hacc2
      refine ⟨g1, fun x => ?_⟩
      rw [g2 x, List.map_cons, List.mem_cons, List.mem_append,
        List.mem_singleton]
      tauto

lemma clusterOverloadedMethods_perm (methods : List JavaMethod) :
    List.Perm (clusterOverloadedMethods methods) methods := by
  unfold clusterOverloadedMethods
  apply flatten_filter_perm
  · exact (orderedNamesAux methods [] List.nodup_nil).1
  · intro m hm
    exact ((orderedNamesAux methods [] List.nodup_nil).2 m.name).mpr
      (Or.inr (List.mem_map.mpr ⟨m, hm, rfl⟩))

/-- `contains` on `List Nat` agrees with membership. -/
lemma contains_eq_decide_mem (l : List Nat) (a : Nat) :
    l.contains a = decide (a ∈ l) := by
  induction l with
  | nil => rfl
  | cons x xs ih =>
    by_cases h : a = x
    · simp [List.contains_cons, ih, h]
    · simp [List.contains_cons, ih, h]

lemma remIdx_skip (len i : Nat) (processed : List Nat)
    (hp : i ∈ processed) : remIdx len i processed =
      remIdx len (i + 1) processed := by
  unfold remIdx
  by_cases hi : i < len
  · have h1 : len - i = (len - (i + 1)) + 1 := by omega
    rw [h1]
    rw [show List.range' i ((len - (i + 1)) + 1) =
      i :: List.range' (i + 1) (len - (i + 1)) from rfl]
    rw [List.filter_cons]
    have hfalse : (!(processed.contains i)) = false := by
      simp [contains_eq_decide_mem, hp]
    rw [hfalse]
    simp
  · have h0 : len - i = 0 := by omega
    have h1 : len - (i + 1) = 0 := by omega
    rw [h0, h1]
    rfl

lemma remIdx_cons (len i : Nat) (processed : List Nat) (hi : i < len)
    (hp : ¬ i ∈ processed) :
    remIdx len i processed = i :: remIdx len (i + 1) (processed ++ [i]) := by
  unfold remIdx
  have h1 : len - i = (len - (i + 1)) + 1 := by omega
  rw [h1]
  rw [show List.range' i ((len - (i + 1)) + 1) =
    i :: List.range' (i + 1) (len - (i + 1)) from rfl]
  rw [List.filter_cons]
  have htrue : (!(processed.contains i)) = true := by
    simp [contains_eq_decide_mem, hp]
  rw [htrue]
  simp only [if_true]
  congr 1
  apply List.filter_congr
  intro j hj
  have hji : j ≠ i := by
    have := List.mem_range'_1.mp hj
    omega
  simp [contains_eq_decide_mem, List.mem_append, hji]

lemma remIdx_partner (len i j : Nat) (processed : List Nat) (hi : i < len)
    (hpi : ¬ i ∈ processed) (hj : i + 1 ≤ j) (hjlen : j < len)
    (hpj : ¬ j ∈ processed) :
    List.Perm (remIdx len i processed)
      (i :: j :: remIdx len (i + 1) ((processed ++ [i]) ++ [j])) := by
  rw [remIdx_cons len i processed hi hpi]
  refine List.Perm.cons i ?_
  have hjmem : j ∈ remIdx len (i + 1) (processed ++ [i]) := by
    unfold remIdx
    rw [List.mem_filter]
    refine ⟨List.mem_range'_1.mpr ⟨hj, by omega⟩, ?_⟩
    simp [contains_eq_decide_mem, List.mem_append, hpj]
    omega
  refine (List.perm_cons_erase hjmem).trans ?_
  refine List.Perm.cons j (List.Perm.of_eq ?_)
  have hnd0 : (List.range' (i + 1) (len - (i + 1))).Nodup := by
    first
      | exact List.nodup_range'
      | exact List.nodup_range' _ _
      | exact List.nodup_range' (by omega)
      | (apply List.nodup_range')
      | (apply List.nodup_range'; omega)
  have hnd : (remIdx len (i + 1) (processed ++ [i])).Nodup :=
    List.Nodup.filter _ hnd0
  rw [List.Nodup.erase_eq_filter hnd]
  unfold remIdx
  rw [List.filter_filter]
  apply List.filter_congr
  intro k hk
  by_cases h1 : k ∈ processed <;> by_cases h2 : k = i <;>
    by_cases h3 : k = j <;>
    simp [contains_eq_decide_mem, List.mem_append, h1, h2, h3]

/-- Soundness of the partner search: any found index is in range, at or
after the scan start, and unprocessed. -/
lemma fpGo_sound (methods : List JavaMethod) (targets : List (List Char))
    (processed : List Nat) :
    ∀ fuel j j', fpGo methods targets processed fuel j = some j' →
      j ≤ j' ∧ j' < methods.length ∧ ¬ j' ∈ processed := by
  intro fuel
  induction fuel with
  | zero => intro j j' h; simp [fpGo] at h
  | succ fuel ih =>
    intro j j' h
    unfold fpGo at h
    split_ifs at h with h1 h2
    · obtain rfl := Option.some.inj h
      rw [Bool.and_eq_true] at h2
      refine ⟨le_refl j, h1, ?_⟩
      intro hmem
      have hfc : processed.contains j = true :=
        List.contains_iff_exists_mem_beq.mpr ⟨j, hmem, by simp⟩
      rw [hfc] at h2
      simp at h2
    · obtain ⟨g1, g2⟩ := ih (j + 1) j' h
      exact ⟨by omega, g2⟩

/-- The clustering loop emits exactly the methods at the unprocessed
indices, as a permutation. -/
lemma cgsAux_perm (methods : List JavaMethod) :
    ∀ fuel i processed, methods.length ≤ i + fuel →
      List.Perm (cgsAux methods fuel i processed)
        ((remIdx methods.length i processed).map
          (fun j => methods.getD j dfltMethod)) := by
  intro fuel
  induction fuel with
  | zero =>
    intro i processed hle
    have h0 : methods.length - i = 0 := by omega
    unfold cgsAux remIdx
    rw [h0]
    simp
  | succ fuel ih =>
    intro i processed hle
    unfold cgsAux
    by_cases hi : i < methods.length
    · rw [if_pos hi]
      by_cases hpi : processed.contains i = true
      · rw [if_pos hpi]
        have hmem : i ∈ processed := by
          rcases List.contains_iff_exists_mem_beq.mp hpi with ⟨y, hy, hby⟩
          rwa [show i = y from eq_of_beq hby]
        rw [remIdx_skip methods.length i processed hmem]
        exact ih (i + 1) processed (by omega)
      · rw [if_neg hpi]
        have hnmem : ¬ i ∈ processed := by
          intro hmem
          exact hpi (List.contains_iff_exists_mem_beq.mpr ⟨i, hmem, by simp⟩)
        dsimp only
        split_ifs with hg hs
        · cases hfp : findPartnerFrom methods
            ["set".data ++ extractFieldNameFromGetter
              (methods.getD i dfltMethod).name] (processed ++ [i]) (i + 1) with
          | some j =>
            dsimp only
            obtain ⟨f1, f2, f3⟩ := fpGo_sound methods _ _ _ _ j hfp
            have hpj : ¬ j ∈ processed :=
              fun hc => f3 (List.mem_append.mpr (Or.inl hc))
            refine List.Perm.trans ?_
              ((remIdx_partner methods.length i j processed hi hnmem f1 f2
                hpj).map (fun j => methods.getD j dfltMethod)).symm
            rw [List.map_cons, List.map_cons]
            exact ((ih (i + 1) _ (by omega)).cons _).cons _
          | none =>
            dsimp only
            rw [remIdx_cons methods.length i processed hi hnmem,
              List.map_cons]
            exact (ih (i + 1) _ (by omega)).cons _
        · cases hfp : findPartnerFrom methods
            ["get".data ++ extractFieldNameFromSetter
                (methods.getD i dfltMethod).name,
             "is".data ++ extractFieldNameFromSetter
                (methods.getD i dfltMethod).name] (processed ++ [i]) (i + 1) with
          | some j =>
            dsimp only
            obtain ⟨f1, f2, f3⟩ := fpGo_sound methods _ _ _ _ j hfp
            have hpj : ¬ j ∈ processed :=
              fun hc => f3 (List.mem_append.mpr (Or.inl hc))
            refine List.Perm.trans ?_
              ((remIdx_partner methods.length i j processed hi hnmem f1 f2
                hpj).map (fun j => methods.getD j dfltMethod)).symm
            rw [List.map_cons, List.map_cons]
            exact ((ih (i + 1) _ (by omega)).cons _).cons _
          | none =>
            dsimp only
            rw [remIdx_cons methods.length i processed hi hnmem,
              List.map_cons]
            exact (ih (i + 1) _ (by omega)).cons _
        · rw [remIdx_cons methods.length i processed hi hnmem, List.map_cons]
          exact (ih (i + 1) _ (by omega)).cons _
    · rw [if_neg hi]
      have h0 : methods.length - i = 0 := by omega
      unfold remIdx
      rw [h0]
      simp

lemma map_getD_range' (l : List α) (d : α) :
    ∀ n i, i + n = l.length →
      (List.range' i n).map (fun j => l.getD j d) = l.drop i := by
  intro n
  induction n with
  | zero =>
    intro i h
    rw [List.drop_eq_nil_of_le (by omega)]
    rfl
  | succ n ihn =>
    intro i h
    rw [show List.range' i (n + 1) = i :: List.range' (i + 1) n from rfl,
      List.map_cons]
    rw [ihn (i + 1) (by omega)]
    have hi : i < l.length := by omega
    rw [List.drop_eq_getElem_cons hi]
    congr 1
    rw [List.getD_eq_getElem?_getD, List.getElem?_eq_getElem hi]
    rfl

lemma clusterGetterSetterMethods_perm (methods : List JavaMethod) :
    List.Perm (clusterGetterSetterMethods methods) methods := by
  unfold clusterGetterSetterMethods
  refine (cgsAux_perm methods (methods.length + 1) 0 [] (by omega)).trans ?_
  unfold remIdx
  rw [Nat.sub_zero]
  have h1 : (List.range' 0 methods.length).filter
      (fun j => !(([] : List Nat).contains j)) =
      List.range' 0 methods.length :=
    List.filter_eq_self.mpr (fun j _ => rfl)
  rw [h1]
  rw [map_getD_range' methods dfltMethod methods.length 0 (by omega)]
  rw [List.drop_zero]

/-- Moving an element to the front through `set` is a permutation. -/
lemma set_cons_perm :
    ∀ (tl : List α) (j : Nat) (b a : α), tl.get? j = some b →
      List.Perm (b :: tl.set j a) (a :: tl) := by
  intro tl
  induction tl with
  | nil => intro j b a h; simp at h
  | cons c tt ih =>
    intro j b a h
    cases j with
    | zero =>
      obtain rfl : c = b := by simpa using h
      rw [List.set_cons_zero]
      exact List.Perm.swap a c tt
    | succ j =>
      rw [List.set_cons_succ]
      have h2 : tt.get? j = some b := by simpa using h
      exact (List.Perm.swap c b (tt.set j a)).trans
        (((ih j b a h2).cons c).trans (List.Perm.swap a c tt))

lemma set_set_perm :
    ∀ (l : List α) (i j : Nat) (a b : α), i < j → l.get? i = some a →
      l.get? j = some b → List.Perm ((l.set i b).set j a) l := by
  intro l
  induction l with
  | nil => intro i j a b _ h1 _; simp at h1
  | cons c tt ih =>
    intro i j a b hij h1 h2
    cases i with
    | zero =>
      obtain rfl : c = a := by simpa using h1
      obtain ⟨j', rfl⟩ : ∃ j', j = j' + 1 := ⟨j - 1, by omega⟩
      rw [List.set_cons_zero, List.set_cons_succ]
      have h2' : tt.get? j' = some b := by simpa using h2
      exact set_cons_perm tt j' b c h2'
    | succ i' =>
      obtain ⟨j', rfl⟩ : ∃ j', j = j' + 1 := ⟨j - 1, by omega⟩
      rw [List.set_cons_succ, List.set_cons_succ]
      exact (ih i' j' a b (by omega) (by simpa using h1)
        (by simpa using h2)).cons c

lemma set_self_of_get? :
    ∀ (l : List α) (i : Nat) (a : α), l.get? i = some a → l.set i a = l := by
  intro l
  induction l with
  | nil => intro i a h; simp at h
  | cons c tt ih =>
    intro i a h
    cases i with
    | zero =>
      obtain rfl : c = a := by simpa using h
      rw [List.set_cons_zero]
    | succ i' =>
      rw [List.set_cons_succ, ih i' a (by simpa using h)]

lemma swapJS_perm (l : List α) (i j : Nat) : List.Perm (swapJS l i j) l := by
  unfold swapJS
  cases hi : l.get? i with
  | none => exact List.Perm.refl l
  | some a =>
    cases hj : l.get? j with
    | none => exact List.Perm.refl l
    | some b =>
      dsimp only
      by_cases hij : i = j
      · subst hij
        obtain rfl : a = b := by rw [hi] at hj; exact Option.some.inj hj
        rw [List.set_set]
        exact List.Perm.of_eq (set_self_of_get? l i a hi)
      · rcases Nat.lt_or_ge i j with hlt | hge
        · exact set_set_perm l i j a b hlt hi hj
        · have hlt : j < i := by omega
          have hcomm : (l.set i b).set j a = (l.set j a).set i b := by
            apply List.set_comm
            omega
          rw [hcomm]
          exact set_set_perm l j i b a hlt hj hi

lemma shuffleAux_perm (rand : Nat → Nat) :
    ∀ (n : Nat) (l : List α), List.Perm (shuffleAux rand l n) l := by
  intro n
  induction n with
  | zero => intro l; exact List.Perm.refl l
  | succ n ihn =>
    intro l
    exact (ihn _).trans (swapJS_perm l (n + 1) (rand (n + 1)))

lemma shuffleArray_perm (rand : Nat → Nat) (l : List α) :
    List.Perm (shuffleArray rand l) l := by
  unfold shuffleArray
  cases hl : l.length with
  | zero => exact List.Perm.refl l
  | succ n => exact shuffleAux_perm rand n l

lemma sortMethods_perm (opts : SortingOptions) (methods : List JavaMethod) :
    List.Perm (sortMethods opts methods) methods := by
  unfold sortMethods
  dsimp only
  by_cases h1 : opts.clusterOverloadedMethods <;>
    by_cases h2 : opts.clusterGetterSetter <;>
      simp only [h1, h2, if_true, if_false, ite_true, ite_false] <;>
      first
        | exact (clusterGetterSetterMethods_perm _).trans
            ((clusterOverloadedMethods_perm _).trans (mergeSortJS_perm _ _))
        | exact (clusterGetterSetterMethods_perm _).trans
            (mergeSortJS_perm _ _)
        | exact (clusterOverloadedMethods_perm _).trans (mergeSortJS_perm _ _)
        | exact mergeSortJS_perm _ _

end JavaMethodSorter

/-- C1: for every source on which `parse` succeeds with at least one
method, the multiset of `fullText` values after `sortMethods` (comparator
sort plus any enabled clustering passes) and after `shuffleArray` equals
the multiset of `fullText` values of the parsed methods. -/
theorem claim_C1 (source : List Char) (cls : JavaClass)
    (opts : SortingOptions) (rand : Nat → Nat)
    (hp : JavaParser.parse source = some cls) (hne : cls.methods ≠ []) :
    (↑((JavaMethodSorter.sortMethods opts cls.methods).map
        (fun m => m.fullText)) : Multiset (List Char)) =
      ↑(cls.methods.map (fun m => m.fullText)) ∧
    (↑((JavaMethodSorter.shuffleArray rand cls.methods).map
        (fun m => m.fullText)) : Multiset (List Char)) =
      ↑(cls.methods.map (fun m => m.fullText)) :=
  ⟨Multiset.coe_eq_coe.mpr
      ((JavaMethodSorter.sortMethods_perm opts cls.methods).map _),
    Multiset.coe_eq_coe.mpr
      ((JavaMethodSorter.shuffleArray_perm rand cls.methods).map _)⟩

/-- C1, witness: evaluated on the parsed scenario class with the scenario
options and the constant-zero random oracle. -/
theorem claim_C1_witness :
    (JavaParser.parse srcScenario = some clsScenario ∧
      clsScenario.methods ≠ []) ∧
    ((↑((JavaMethodSorter.sortMethods optsScenario clsScenario.methods).map
        (fun m => m.fullText)) : Multiset (List Char)) =
      ↑(clsScenario.methods.map (fun m => m.fullText)) ∧
    (↑((JavaMethodSorter.shuffleArray (fun _ => 0)
        clsScenario.methods).map
        (fun m => m.fullText)) : Multiset (List Char)) =
      ↑(clsScenario.methods.map (fun m => m.fullText))) :=
  ⟨⟨by decide, by decide⟩,
    claim_C1 srcScenario clsScenario optsScenario (fun _ => 0)
      (by decide) (by decide)⟩

namespace JavaMethodSorter

/-- The head of a `dropWhile` result never satisfies the predicate. -/
lemma dropWhile_head?_false (p : Char → Bool) :
    ∀ (l : List Char) (c : Char), (l.dropWhile p).head? = some c →
      p c = false := by
  intro l
  induction l with
  | nil => intro c h; simp at h
  | cons x xs ih =>
    intro c h
    rw [List.dropWhile_cons] at h
    by_cases hp : p x = true
    · rw [if_pos hp] at h
      exact ih c h
    · rw [if_neg hp] at h
      obtain rfl : x = c := by simpa using h
      simpa using hp

/-- `dropWhile` keeps the last element when its result is nonempty. -/
lemma dropWhile_getLast?_ne_nil (p : Char → Bool) :
    ∀ l : List Char, l.dropWhile p ≠ [] →
      (l.dropWhile p).getLast? = l.getLast? := by
  intro l
  induction l with
  | nil => intro h; exact absurd rfl h
  | cons x xs ih =>
    intro h
    rw [List.dropWhile_cons] at h ⊢
    by_cases hp : p x = true
    · rw [if_pos hp] at h ⊢
      rw [ih h]
      have hxs : xs ≠ [] := by
        intro hc
        rw [hc] at h
        exact h rfl
      cases xs with
      | nil => exact absurd rfl hxs
      | cons y t => rw [List.getLast?_cons_cons]
    · rw [if_neg hp]

/-- A list whose last element fails the predicate survives `dropWhile`. -/
lemma dropWhile_ne_nil_of_getLast? (p : Char → Bool) :
    ∀ (l : List Char) (c : Char), l.getLast? = some c → p c = false →
      l.dropWhile p ≠ [] := by
  intro l
  induction l with
  | nil => intro c h _; simp at h
  | cons x xs ih =>
    intro c h hpc
    rw [List.dropWhile_cons]
    by_cases hp : p x = true
    · rw [if_pos hp]
      cases xs with
      | nil =>
        obtain rfl : x = c := by simpa using h
        rw [hp] at hpc
        exact absurd hpc (by simp)
      | cons y t =>
        rw [List.getLast?_cons_cons] at h
        exact ih c h hpc
    · rw [if_neg hp]
      simp

/-- Each block `reconstructSource` emits for a parsed method is nonempty
and neither starts nor ends with a newline. -/
lemma emitBlock_ok (m : JavaMethod)
    (hlast : m.fullText.getLast? = some rbrace ∨
      m.fullText.getLast? = some ';') :
    emitBlock m ≠ [] ∧ (emitBlock m).head? ≠ some '\n' ∧
      (emitBlock m).getLast? ≠ some '\n' := by
  obtain ⟨c, hc, hcnl, hcp⟩ : ∃ c, m.fullText.getLast? = some c ∧
      c ≠ '\n' ∧ ((fun x => x == '\n') c) = false := by
    rcases hlast with h | h
    · exact ⟨_, h, by decide, by decide⟩
    · exact ⟨_, h, by decide, by decide⟩
  have hne := dropWhile_ne_nil_of_getLast? (fun x => x == '\n')
    m.fullText c hc hcp
  have hlast2 : (m.fullText.dropWhile (fun x => x == '\n')).getLast? =
      some c := by
    rw [dropWhile_getLast?_ne_nil _ _ hne, hc]
  have hlast3 : (m.fullText.dropWhile (fun x => x == '\n')).getLast? ≠
      some '\n' := by
    rw [hlast2]
    intro hcon
    exact hcnl (Option.some.inj hcon)
  have hhead2 : (m.fullText.dropWhile (fun x => x == '\n')).head? ≠
      some '\n' := by
    intro hcon
    have := dropWhile_head?_false (fun x => x == '\n') m.fullText '\n' hcon
    simp at this
  unfold emitBlock
  dsimp only
  split_ifs with htrim
  · have hlead_ne : m.leadingContent.dropWhile (fun x => x == '\n') ≠ [] := by
      intro hcon
      rw [hcon] at htrim
      exact htrim rfl
    refine ⟨?_, ?_, ?_⟩
    · intro hcon
      rcases List.append_eq_nil.mp hcon with ⟨h1, _⟩
      exact hlead_ne h1
    · rw [List.head?_append_of_ne_nil _ hlead_ne]
      intro hcon
      have := dropWhile_head?_false (fun x => x == '\n')
        m.leadingContent '\n' hcon
      simp at this
    · rw [List.getLast?_append_of_ne_nil _ hne]
      exact hlast3
  · exact ⟨hne, hhead2, hlast3⟩

/-- Dropping all but the last element of the left part of an append
exposes that element. -/
lemma drop_last_cons (c : Char) :
    ∀ (l : List Char), l.getLast? = some c →
      ∀ rest : List Char, (l ++ rest).drop (l.length - 1) = c :: rest := by
  intro l
  induction l with
  | nil => intro h; simp at h
  | cons x t ih =>
    intro h rest
    cases t with
    | nil =>
      obtain rfl : x = c := by simpa using h
      simp
    | cons y tt =>
      rw [List.getLast?_cons_cons] at h
      have hrec := ih h rest
      simp only [List.cons_append, List.length_cons]
      show List.drop (tt.length + 1) (x :: y :: (tt ++ rest)) = c :: rest
      rw [List.drop_succ_cons]
      simpa using hrec

/-- The two three-character windows that cover the `"\n\n"` join between
two emitted blocks contain no run of three newlines, provided the left
block does not end and the right block does not start with a newline. -/
lemma junction_no_triple (A B : List Char)
    (hAne : A ≠ []) (hA : A.getLast? ≠ some '\n')
    (hBne : B ≠ []) (hB : B.head? ≠ some '\n') :
    occursAt ['\n', '\n', '\n'] (A ++ '\n' :: '\n' :: B)
      (A.length - 1) = false ∧
    occursAt ['\n', '\n', '\n'] (A ++ '\n' :: '\n' :: B) A.length = false := by
  obtain ⟨c, hc⟩ : ∃ c, A.getLast? = some c := by
    cases hA2 : A.getLast? with
    | none => exact absurd (List.getLast?_eq_none_iff.mp hA2) hAne
    | some c => exact ⟨c, rfl⟩
  have hcn : ('\n' == c) = false := by
    apply beq_false_of_ne
    intro hcc
    exact hA (by rw [hc, ← hcc])
  constructor
  · unfold occursAt
    rw [drop_last_cons c A hc ('\n' :: '\n' :: B)]
    show (('\n' == c) && begins ['\n', '\n'] ('\n' :: '\n' :: B)) = false
    rw [hcn]
    rfl
  · unfold occursAt
    rw [show A.length = (List.length A : Nat) from rfl]
    rw [List.drop_left A ('\n' :: '\n' :: B)]
    obtain ⟨b0, B', rfl⟩ : ∃ b0 B', B = b0 :: B' := by
      cases B with
      | nil => exact absurd rfl hBne
      | cons b0 B' => exact ⟨b0, B', rfl⟩
    have hb0 : ('\n' == b0) = false := by
      apply beq_false_of_ne
      intro hcc
      exact hB (by rw [← hcc]; rfl)
    show (('\n' == '\n') && (('\n' == '\n') &&
      (('\n' == b0) && begins [] B'))) = false
    rw [hb0]
    simp

end JavaMethodSorter

/-- C6: for a parsed class with at least two methods, `reconstructSource`
joins the emitted method blocks with exactly the two-character separator
`"\n\n"`, and — for any selection and ordering of the parsed methods —
every emitted block is nonempty and neither starts nor ends with a
newline, so the two windows covering each join contain no three
consecutive newlines. -/
theorem claim_C6 (source : List Char) (cls : JavaClass)
    (hp : JavaParser.parse source = some cls)
    (hlen : 2 ≤ cls.methods.length)
    (ms : List JavaMethod) (hms : ∀ m ∈ ms, m ∈ cls.methods)
    (pre post : List Char) :
    JavaMethodSorter.reconstructSource pre ms post =
      (JavaMethodSorter.dropTrailingSpace pre ++ ['\n', '\n']) ++
        List.intercalate ['\n', '\n']
          (ms.map JavaMethodSorter.emitBlock) ++ post ∧
    (∀ m ∈ ms, JavaMethodSorter.emitBlock m ≠ [] ∧
      (JavaMethodSorter.emitBlock m).head? ≠ some '\n' ∧
      (JavaMethodSorter.emitBlock m).getLast? ≠ some '\n') ∧
    ∀ a ∈ ms, ∀ b ∈ ms,
      occursAt ['\n', '\n', '\n']
        (JavaMethodSorter.emitBlock a ++ '\n' :: '\n' ::
          JavaMethodSorter.emitBlock b)
        ((JavaMethodSorter.emitBlock a).length - 1) = false ∧
      occursAt ['\n', '\n', '\n']
        (JavaMethodSorter.emitBlock a ++ '\n' :: '\n' ::
          JavaMethodSorter.emitBlock b)
        (JavaMethodSorter.emitBlock a).length = false := by
  have hok : ∀ m ∈ ms, JavaMethodSorter.emitBlock m ≠ [] ∧
      (JavaMethodSorter.emitBlock m).head? ≠ some '\n' ∧
      (JavaMethodSorter.emitBlock m).getLast? ≠ some '\n' := by
    intro m hm
    exact JavaMethodSorter.emitBlock_ok m
      (JavaParser.parse_shape source cls hp m (hms m hm)).1
  refine ⟨rfl, hok, ?_⟩
  intro a ha b hb
  obtain ⟨ha1, ha2, ha3⟩ := hok a ha
  obtain ⟨hb1, hb2, hb3⟩ := hok b hb
  exact JavaMethodSorter.junction_no_triple _ _ ha1 ha3 hb1 hb2

/-- C6, witness: instantiated at the parsed scenario class, its own
method order, and its own surrounding content. -/
theorem claim_C6_witness :
    (JavaParser.parse srcScenario = some clsScenario ∧
      2 ≤ clsScenario.methods.length) ∧
    (JavaMethodSorter.reconstructSource clsScenario.preMethodsContent
        clsScenario.methods clsScenario.postMethodsContent =
      (JavaMethodSorter.dropTrailingSpace clsScenario.preMethodsContent ++
          ['\n', '\n']) ++
        List.intercalate ['\n', '\n']
          (clsScenario.methods.map JavaMethodSorter.emitBlock) ++
        clsScenario.postMethodsContent ∧
    (∀ m ∈ clsScenario.methods, JavaMethodSorter.emitBlock m ≠ [] ∧
      (JavaMethodSorter.emitBlock m).head? ≠ some '\n' ∧
      (JavaMethodSorter.emitBlock m).getLast? ≠ some '\n') ∧
    ∀ a ∈ clsScenario.methods, ∀ b ∈ clsScenario.methods,
      occursAt ['\n', '\n', '\n']
        (JavaMethodSorter.emitBlock a ++ '\n' :: '\n' ::
          JavaMethodSorter.emitBlock b)
        ((JavaMethodSorter.emitBlock a).length - 1) = false ∧
      occursAt ['\n', '\n', '\n']
        (JavaMethodSorter.emitBlock a ++ '\n' :: '\n' ::
          JavaMethodSorter.emitBlock b)
        (JavaMethodSorter.emitBlock a).length = false) :=
  ⟨⟨by decide, by decide⟩,
    claim_C6 srcScenario clsScenario (by decide) (by decide)
      clsScenario.methods (fun m hm => hm)
      clsScenario.preMethodsContent clsScenario.postMethodsContent⟩
